import Mathlib

/-!
# randtest: a shallow embedding of `randtest.c` and its specification

The definitions follow `src/randtest.c` function by function.

Conventions of the embedding

* A `bit *sequence` with its `length` is a `List Nat` (one byte per element);
  the `length` argument is the length of the list.
* `unsigned long` is 64 bits wide: subtractions that can wrap are written with
  `usub`, and the constant `-1` stored in an `unsigned long` is `ULONG_SIZE - 1`.
* Reads and writes through a pointer are checked: an access outside the
  allocated object makes the function return `none` (or `Outcome.memoryFault`).
* `malloc` returns memory with arbitrary contents: the analyzers that allocate
  working buffers take those contents as parameters (`heapC`, `heapB`, ...).
* `double` and `float` values are exact rationals, and exact real numbers where
  a `sqrt` is taken (`TestAutocorrelation`): rounding is not modelled. Where a
  divisor can be zero (`TestSerial`, `TestPoker8`, `TestPoker16`) the value is a
  `FloatValue`: a rational, an infinity or NaN.
-/

namespace Randtest

/-! ## Machine integers -/

/-- Number of values of an `unsigned long`. -/
def ULONG_SIZE : Nat := 2 ^ 64

/-- Subtraction `a - b` of two `unsigned long` values. -/
def usub (a b : Nat) : Nat := (a + ULONG_SIZE - b) % ULONG_SIZE

/-! ## Results -/

/-- The three strings written to `res.pass`: `"OK."`, `"MEH."`, `"FAILED!"`. -/
inductive Verdict where
  | OK
  | MEH
  | FAILED
deriving DecidableEq, Repr

/-- The formatted `res.extra` string, kept as the format that was chosen and
the values that were printed into it. -/
inductive Extra where
  /-- The call `strcpy(res.extra,"")`. -/
  | empty
  /-- The call `sprintf(res.extra,"0=%ld 1=%ld",n0,n1)`. -/
  | counts (n0 n1 : Nat)
  /-- The call `sprintf(res.extra,"k=%ld",k)`. -/
  | runsK (k : Nat)
  /-- The call `sprintf(res.extra,"unsupported length. k=%ld",k)`. -/
  | unsupportedLength (k : Nat)
deriving DecidableEq, Repr

/-- The `TestResult` struct. `pass` is `none` while `res.pass` has not been
assigned. -/
structure TestResult where
  result : ℚ
  corrhi : ℚ
  corrlo : ℚ
  name : String
  pass : Option Verdict
  extra : Extra

/-- The verdict chain shared by the three-way analyzers:
`if(res.result <= res.corrhi) "OK." else if(res.result <= res.corrlo) "MEH." else "FAILED!"`. -/
def threeWay (result corrhi corrlo : ℚ) : Verdict :=
  if result ≤ corrhi then Verdict.OK
  else if result ≤ corrlo then Verdict.MEH
  else Verdict.FAILED

/-! ## Values that are not numbers

`TestSerial`, `TestPoker8` and `TestPoker16` divide by `length-1.0` and by `k`,
which are zero on a sequence of 1, of 7 and of 15 elements: their statistic is
a `FloatValue`, and their result a `FloatResult`. The other analyzers divide by
values that are not zero on a sequence of at least one element (`main` stops
before the analyzers when the sequence is empty). -/

/-- A value of type `double` or `float`. Rounding is not modelled: a finite
value is an exact rational. The other values are the two infinities and NaN,
which a division by zero produces. There is one zero, the positive one: the
divisors of the analyzers that can be zero are `length-1.0` (as `1.0-1.0`)
and conversions of an `unsigned long`. -/
inductive FloatValue where
  | num (q : ℚ)
  | posInf
  | negInf
  | nan
deriving DecidableEq

/-- The negation of a `FloatValue`. -/
def FloatValue.neg : FloatValue → FloatValue
  | FloatValue.num q => FloatValue.num (-q)
  | FloatValue.posInf => FloatValue.negInf
  | FloatValue.negInf => FloatValue.posInf
  | FloatValue.nan => FloatValue.nan

/-- The sum of two `FloatValue`s: NaN when an operand is NaN and for the sum
of the two opposite infinities. -/
def FloatValue.add : FloatValue → FloatValue → FloatValue
  | FloatValue.num a, FloatValue.num b => FloatValue.num (a + b)
  | FloatValue.nan, _ => FloatValue.nan
  | _, FloatValue.nan => FloatValue.nan
  | FloatValue.posInf, FloatValue.negInf => FloatValue.nan
  | FloatValue.negInf, FloatValue.posInf => FloatValue.nan
  | FloatValue.posInf, _ => FloatValue.posInf
  | FloatValue.negInf, _ => FloatValue.negInf
  | _, FloatValue.posInf => FloatValue.posInf
  | _, FloatValue.negInf => FloatValue.negInf

/-- The difference of two `FloatValue`s. -/
def FloatValue.sub (x y : FloatValue) : FloatValue := x.add y.neg

/-- The infinity with the sign of the number `q`, and NaN when `q` is zero:
the product of `+inf` and `q`, and the quotient of `q` by zero. -/
def FloatValue.signedInf (q : ℚ) : FloatValue :=
  if q = 0 then FloatValue.nan else if 0 < q then FloatValue.posInf else FloatValue.negInf

/-- The product of two `FloatValue`s: the product of an infinity and zero is
NaN. -/
def FloatValue.mul : FloatValue → FloatValue → FloatValue
  | FloatValue.num a, FloatValue.num b => FloatValue.num (a * b)
  | FloatValue.nan, _ => FloatValue.nan
  | _, FloatValue.nan => FloatValue.nan
  | FloatValue.posInf, FloatValue.num b => FloatValue.signedInf b
  | FloatValue.negInf, FloatValue.num b => FloatValue.signedInf (-b)
  | FloatValue.num a, FloatValue.posInf => FloatValue.signedInf a
  | FloatValue.num a, FloatValue.negInf => FloatValue.signedInf (-a)
  | FloatValue.posInf, FloatValue.posInf => FloatValue.posInf
  | FloatValue.posInf, FloatValue.negInf => FloatValue.negInf
  | FloatValue.negInf, FloatValue.posInf => FloatValue.negInf
  | FloatValue.negInf, FloatValue.negInf => FloatValue.posInf

/-- The quotient of two `FloatValue`s: a number divided by zero is the
infinity of its sign, and `0/0` is NaN. -/
def FloatValue.div : FloatValue → FloatValue → FloatValue
  | FloatValue.num a, FloatValue.num b =>
    if b = 0 then FloatValue.signedInf a else FloatValue.num (a / b)
  | FloatValue.nan, _ => FloatValue.nan
  | _, FloatValue.nan => FloatValue.nan
  | FloatValue.num _, FloatValue.posInf => FloatValue.num 0
  | FloatValue.num _, FloatValue.negInf => FloatValue.num 0
  | FloatValue.posInf, FloatValue.num b =>
    if 0 ≤ b then FloatValue.posInf else FloatValue.negInf
  | FloatValue.negInf, FloatValue.num b =>
    if 0 ≤ b then FloatValue.negInf else FloatValue.posInf
  | FloatValue.posInf, FloatValue.posInf => FloatValue.nan
  | FloatValue.posInf, FloatValue.negInf => FloatValue.nan
  | FloatValue.negInf, FloatValue.posInf => FloatValue.nan
  | FloatValue.negInf, FloatValue.negInf => FloatValue.nan

/-- The comparison `x <= c` of a `FloatValue` with a number: false when `x` is
NaN. -/
def FloatValue.le : FloatValue → ℚ → Bool
  | FloatValue.num q, c => decide (q ≤ c)
  | FloatValue.posInf, _ => false
  | FloatValue.negInf, _ => true
  | FloatValue.nan, _ => false

/-- The `TestResult` struct of an analyzer whose statistic is a `FloatValue`. -/
structure FloatResult where
  result : FloatValue
  corrhi : ℚ
  corrlo : ℚ
  name : String
  pass : Option Verdict
  extra : Extra

/-- The verdict chain of `threeWay` on a statistic that is a `FloatValue`: when
the statistic is NaN both comparisons are false. -/
def threeWayFloat (result : FloatValue) (corrhi corrlo : ℚ) : Verdict :=
  if result.le corrhi then Verdict.OK
  else if result.le corrlo then Verdict.MEH
  else Verdict.FAILED

/-! ## ReadSequence -/

/-- The `mode` argument of `ReadSequence`: `main` passes 0 for `-u`, 1 for
`-p` and 2 for `-t`, and nothing else. -/
inductive Mode where
  | unpacked
  | packed
  | text
deriving DecidableEq, Repr

/-- The eight assignments `(*sequence)[i+0] = (data & 128) ? 1 : 0;` ...
`(*sequence)[i+7] = (data & 1) ? 1 : 0;` of one iteration of the packed loop. -/
def unpackByte (data : Nat) : List Nat :=
  [ if data &&& 128 ≠ 0 then 1 else 0,
    if data &&& 64 ≠ 0 then 1 else 0,
    if data &&& 32 ≠ 0 then 1 else 0,
    if data &&& 16 ≠ 0 then 1 else 0,
    if data &&& 8 ≠ 0 then 1 else 0,
    if data &&& 4 ≠ 0 then 1 else 0,
    if data &&& 2 ≠ 0 then 1 else 0,
    if data &&& 1 ≠ 0 then 1 else 0 ]

/-- The packed loop: every `fread(&data,1,1,in)` takes the next byte of the
file and fills the next eight elements of the sequence. -/
def readPacked : List Nat → List Nat
  | [] => []
  | data :: rest => unpackByte data ++ readPacked rest

/-- The text loop: every `fread(&b,1,1,in)` takes the next byte of the file;
`'0'` (48) appends 0, `'1'` (49) appends 1, any other byte appends nothing. -/
def readText : List Nat → List Nat
  | [] => []
  | b :: rest =>
    if b = 48 then 0 :: readText rest
    else if b = 49 then 1 :: readText rest
    else readText rest

/-- The function `ReadSequence`: `file` is `none` when `fopen` fails and the bytes of the
file otherwise. The result is the pair `(*sequence, *length)`, the sequence
being the elements that were stored (in text mode: the first `i` of them). -/
def ReadSequence (file : Option (List Nat)) (mode : Mode) : List Nat × Nat :=
  match file with
  | none => ([], 0)
  | some bytes =>
    match mode with
    | Mode.unpacked => (bytes, bytes.length)
    | Mode.packed => (readPacked bytes, bytes.length * 8)
    | Mode.text => (readText bytes, (readText bytes).length)

/-! ## TestFrequency -/

/-- The counting loop of `TestFrequency`: the pair `(n0, n1)`. -/
def frequencyCounts (sequence : List Nat) : Nat × Nat :=
  sequence.foldl (fun c x => if x = 0 then (c.1 + 1, c.2) else (c.1, c.2 + 1)) (0, 0)

/-- The statistic of `TestFrequency` from the counts:
`x = (double)n0; x = x-n1; x = x*x; x /= (double)length;`. -/
def frequencyStatistic (n0 n1 length : Nat) : ℚ :=
  (((n0 : ℚ) - (n1 : ℚ)) * ((n0 : ℚ) - (n1 : ℚ))) / (length : ℚ)

/-- The function `TestFrequency`. -/
def TestFrequency (sequence : List Nat) : TestResult :=
  let c := frequencyCounts sequence
  let x := frequencyStatistic c.1 c.2 sequence.length
  { result := x
    corrhi := 2.706
    corrlo := 10.830
    name := "FREQNCY"
    pass := some (threeWay x 2.706 10.830)
    extra := Extra.counts c.1 c.2 }

/-! ## TestSerial -/

/-- The counters of `TestSerial`. -/
structure SerialCounts where
  n0 : Nat
  n1 : Nat
  n00 : Nat
  n01 : Nat
  n10 : Nat
  n11 : Nat
deriving DecidableEq, Repr

/-- One iteration of the loop `for(i=0; i<(length - 1);i++)` of `TestSerial`. -/
def serialStep (sequence : List Nat) (c : SerialCounts) (i : Nat) : Option SerialCounts := do
  let x ← sequence[i]?
  let y ← sequence[i + 1]?
  if x = 0 then
    if y = 0 then pure { c with n0 := c.n0 + 1, n00 := c.n00 + 1 }
    else pure { c with n0 := c.n0 + 1, n01 := c.n01 + 1 }
  else
    if y = 0 then pure { c with n1 := c.n1 + 1, n10 := c.n10 + 1 }
    else pure { c with n1 := c.n1 + 1, n11 := c.n11 + 1 }

/-- The counting part of `TestSerial`: the loop over `i < length - 1` (an
`unsigned long` subtraction) and the final `if(sequence[length-1] == 0) n0++; else n1++;`. -/
def serialCounts (sequence : List Nat) : Option SerialCounts := do
  let c ← (List.range (usub sequence.length 1)).foldlM (serialStep sequence)
    { n0 := 0, n1 := 0, n00 := 0, n01 := 0, n10 := 0, n11 := 0 }
  let z ← sequence[usub sequence.length 1]?
  if z = 0 then pure { c with n0 := c.n0 + 1 } else pure { c with n1 := c.n1 + 1 }

/-- The statistic of `TestSerial` from the counters. The sums of squares are
`unsigned long` expressions; they become `double` when multiplied by `4.0` and
`2.0`. Then `y = y/(length-1.0); z = z/(double)length; x = y - z; x += 1;`:
the first divisor is zero when `length` is 1. -/
def serialStatistic (c : SerialCounts) (length : Nat) : FloatValue :=
  let y : ℚ := (((c.n00 * c.n00 + c.n01 * c.n01 + c.n10 * c.n10 + c.n11 * c.n11) % ULONG_SIZE : Nat) : ℚ) * 4
  let z : ℚ := (((c.n0 * c.n0 + c.n1 * c.n1) % ULONG_SIZE : Nat) : ℚ) * 2
  let y := (FloatValue.num y).div (FloatValue.num ((length : ℚ) - 1))
  let z := (FloatValue.num z).div (FloatValue.num (length : ℚ))
  (y.sub z).add (FloatValue.num 1)

/-- The function `TestSerial`. -/
def TestSerial (sequence : List Nat) : Option FloatResult := do
  let c ← serialCounts sequence
  let x := serialStatistic c sequence.length
  pure { result := x
         corrhi := 4.605
         corrlo := 13.820
         name := "SERIAL"
         pass := some (threeWayFloat x 4.605 13.820)
         extra := Extra.empty }

/-! ## TestPoker8 -/

/-- How the run of a function that loops over memory ends. -/
inductive Outcome (α : Type) where
  /-- the function returned -/
  | done (a : α)
  /-- an element outside the sequence was read -/
  | memoryFault
  /-- the iteration budget given to the loop was used up -/
  | outOfFuel
deriving DecidableEq, Repr

/-- The body of the block loop of `TestPoker8` up to `byte |= sequence[i]`:
`byte` is an `unsigned char`, so every `byte <<= 1` is taken modulo 256. -/
def poker8Byte (sequence : List Nat) (i : Nat) : Option Nat := do
  let s7 ← sequence[i + 7]?
  let byte := (s7 <<< 1) % 256
  let s6 ← sequence[i + 6]?
  let byte := ((byte ||| s6) <<< 1) % 256
  let s5 ← sequence[i + 5]?
  let byte := ((byte ||| s5) <<< 1) % 256
  let s4 ← sequence[i + 4]?
  let byte := ((byte ||| s4) <<< 1) % 256
  let s3 ← sequence[i + 3]?
  let byte := ((byte ||| s3) <<< 1) % 256
  let s2 ← sequence[i + 2]?
  let byte := ((byte ||| s2) <<< 1) % 256
  let s1 ← sequence[i + 1]?
  let byte := ((byte ||| s1) <<< 1) % 256
  let s0 ← sequence[i]?
  pure (byte ||| s0)

/-- The loop `for(i=0;i<(length-7);i+=8)` of `TestPoker8`, from the state
`(i, k, table)`. The bound `length-7` is an `unsigned long` subtraction. -/
def poker8Loop (sequence : List Nat) : Nat → Nat → Nat → List Nat → Outcome (Nat × List Nat)
  | 0, _, _, _ => Outcome.outOfFuel
  | fuel + 1, i, k, table =>
    if i < usub sequence.length 7 then
      match poker8Byte sequence i with
      | none => Outcome.memoryFault
      | some byte =>
        poker8Loop sequence fuel ((i + 8) % ULONG_SIZE) (k + 1)
          (table.set byte (table.getD byte 0 + 1))
    else Outcome.done (k, table)

/-- The tally of `TestPoker8`: the pair `(k, table)` after the block loop,
started from `i = 0`, `k = 0` and the zeroed table. Every iteration that does
not fault has `i + 7 < length`, so `length + 1` iterations are never used up. -/
def poker8Tally (sequence : List Nat) : Outcome (Nat × List Nat) :=
  poker8Loop sequence (sequence.length + 1) 0 0 (List.replicate 256 0)

/-- The statistic of `TestPoker8` from `k` and the table:
`x += (double)table[i]*table[i]` over the table, then `x = ((256.0/k)*x) - k`:
the divisor `k` is zero when no block was tallied. -/
def poker8Statistic (k : Nat) (table : List Nat) : FloatValue :=
  let x : ℚ := (table.map (fun (t : Nat) => (t : ℚ) * (t : ℚ))).sum
  ((((FloatValue.num 256).div (FloatValue.num (k : ℚ))).mul (FloatValue.num x)).sub
    (FloatValue.num (k : ℚ)))

/-- The part of `TestPoker8` after the block loop, from the outcome of the
loop: the statistic, the thresholds and the verdict. -/
def poker8Result (tally : Outcome (Nat × List Nat)) : Outcome FloatResult :=
  match tally with
  | Outcome.done (k, table) =>
    let x := poker8Statistic k table
    Outcome.done
      { result := x
        corrhi := 284.3
        corrlo := 330.5
        name := "POKER 8"
        pass := some (threeWayFloat x 284.3 330.5)
        extra := Extra.empty }
  | Outcome.memoryFault => Outcome.memoryFault
  | Outcome.outOfFuel => Outcome.outOfFuel

/-- The function `TestPoker8`. -/
def TestPoker8 (sequence : List Nat) : Outcome FloatResult :=
  poker8Result (poker8Tally sequence)

/-! ## TestPoker16 -/

/-- The first half of the body of the block loop of `TestPoker16`, from
`word = sequence[i+15]` to the `word <<= 1` that follows `word |= sequence[i+8]`:
`word` is an `unsigned short`, so every `word <<= 1` is taken modulo 65536. -/
def poker16High (sequence : List Nat) (i : Nat) : Option Nat := do
  let s15 ← sequence[i + 15]?
  let word := (s15 <<< 1) % 65536
  let s14 ← sequence[i + 14]?
  let word := ((word ||| s14) <<< 1) % 65536
  let s13 ← sequence[i + 13]?
  let word := ((word ||| s13) <<< 1) % 65536
  let s12 ← sequence[i + 12]?
  let word := ((word ||| s12) <<< 1) % 65536
  let s11 ← sequence[i + 11]?
  let word := ((word ||| s11) <<< 1) % 65536
  let s10 ← sequence[i + 10]?
  let word := ((word ||| s10) <<< 1) % 65536
  let s9 ← sequence[i + 9]?
  let word := ((word ||| s9) <<< 1) % 65536
  let s8 ← sequence[i + 8]?
  pure (((word ||| s8) <<< 1) % 65536)

/-- The body of the block loop of `TestPoker16` up to `word |= sequence[i]`:
the first half, then the statements from `word |= sequence[i+7]` on. -/
def poker16Word (sequence : List Nat) (i : Nat) : Option Nat := do
  let word ← poker16High sequence i
  let s7 ← sequence[i + 7]?
  let word := ((word ||| s7) <<< 1) % 65536
  let s6 ← sequence[i + 6]?
  let word := ((word ||| s6) <<< 1) % 65536
  let s5 ← sequence[i + 5]?
  let word := ((word ||| s5) <<< 1) % 65536
  let s4 ← sequence[i + 4]?
  let word := ((word ||| s4) <<< 1) % 65536
  let s3 ← sequence[i + 3]?
  let word := ((word ||| s3) <<< 1) % 65536
  let s2 ← sequence[i + 2]?
  let word := ((word ||| s2) <<< 1) % 65536
  let s1 ← sequence[i + 1]?
  let word := ((word ||| s1) <<< 1) % 65536
  let s0 ← sequence[i]?
  pure (word ||| s0)

/-- The loop `for(i=0;i<(length-15);i+=16)` of `TestPoker16`, from the state
`(i, k, table)`. The bound `length-15` is an `unsigned long` subtraction. -/
def poker16Loop (sequence : List Nat) : Nat → Nat → Nat → List Nat → Outcome (Nat × List Nat)
  | 0, _, _, _ => Outcome.outOfFuel
  | fuel + 1, i, k, table =>
    if i < usub sequence.length 15 then
      match poker16Word sequence i with
      | none => Outcome.memoryFault
      | some word =>
        poker16Loop sequence fuel ((i + 16) % ULONG_SIZE) (k + 1)
          (table.set word (table.getD word 0 + 1))
    else Outcome.done (k, table)

/-- The tally of `TestPoker16`: the pair `(k, table)` after the block loop,
started from `i = 0`, `k = 0` and the zeroed table of 65536 counters. Every
iteration that does not fault has `i + 15 < length`, so `length + 1`
iterations are never used up. -/
def poker16Tally (sequence : List Nat) : Outcome (Nat × List Nat) :=
  poker16Loop sequence (sequence.length + 1) 0 0 (List.replicate 65536 0)

/-- The statistic of `TestPoker16` from `k` and the table:
`x += table[i]*table[i]` over the table, the product being an `unsigned long`
product that is then converted to `double`, and `x = ((65536.0/k)*x) - k`:
the divisor `k` is zero when no block was tallied. -/
def poker16Statistic (k : Nat) (table : List Nat) : FloatValue :=
  let x : ℚ := (table.map (fun t => (((t * t) % ULONG_SIZE : Nat) : ℚ))).sum
  ((((FloatValue.num 65536).div (FloatValue.num (k : ℚ))).mul (FloatValue.num x)).sub
    (FloatValue.num (k : ℚ)))

/-- The part of `TestPoker16` after the block loop, from the outcome of the
loop: the statistic, the thresholds and the verdict. -/
def poker16Result (tally : Outcome (Nat × List Nat)) : Outcome FloatResult :=
  match tally with
  | Outcome.done (k, table) =>
    let x := poker16Statistic k table
    Outcome.done
      { result := x
        corrhi := 65999.3936
        corrlo := 66659.4697
        name := "POKER 16"
        pass := some (threeWayFloat x 65999.3936 66659.4697)
        extra := Extra.empty }
  | Outcome.memoryFault => Outcome.memoryFault
  | Outcome.outOfFuel => Outcome.outOfFuel

/-- The function `TestPoker16`. -/
def TestPoker16 (sequence : List Nat) : Outcome FloatResult :=
  poker16Result (poker16Tally sequence)

/-! ## TestRuns -/

/-- The table `corrhi` of `TestRuns`. -/
def runsCorrhi : List ℚ :=
  [0.0000, 0.0000, 4.6052, 7.7794, 10.6446, 13.3616, 15.9872, 18.5493, 21.0641, 23.5418,
   25.9894, 28.4120, 30.8133, 33.1962, 35.5632, 37.9159, 40.2560, 42.5847, 44.9031, 47.2121]

/-- The table `corrlo` of `TestRuns`. -/
def runsCorrlo : List ℚ :=
  [0.0000, 0.0000, 13.8155, 18.4668, 22.4577, 26.1245, 29.5883, 32.9095, 36.1233, 39.2524,
   42.3124, 45.3147, 48.2679, 51.1786, 54.0520, 56.8923, 59.7031, 62.4872, 65.2472, 67.9851]

/-- The expression `(length-i+3.0)/pow(2.0,i+2.0)`. -/
def runsE (length i : Nat) : ℚ :=
  (((usub length i : Nat) : ℚ) + 3) / (2 : ℚ) ^ (i + 2)

/-- The value of `i` after the loop
`for(i=1;i<=length;i++) { x = ...; if(x<5.0) break; }`: the first `i` in
`1..length` with `x < 5`, and `length + 1` when there is none. -/
def runsBreakIndex (length : Nat) : Nat :=
  (((List.range length).map (fun j => j + 1)).find? (fun i => decide (runsE length i < 5))).getD
    (length + 1)

/-- The parameter `k = i-1` of `TestRuns`. -/
def runsK (length : Nat) : Nat := usub (runsBreakIndex length) 1

/-- The scalar variables and the two counter arrays of the scan of `TestRuns`. -/
structure RunsScan where
  bl : Nat
  gl : Nat
  rt : Nat
  b : List Nat
  g : List Nat
deriving DecidableEq, Repr

/-- The statement `a[i]++` on an array of `unsigned long`. -/
def increment (a : List Nat) (i : Nat) : Option (List Nat) := do
  let v ← a[i]?
  pure (a.set i ((v + 1) % ULONG_SIZE))

/-- The state before the scan: `b[i] = g[i] = 0` for `i` in `1..k` (element 0
of the two arrays is neither initialised nor accessed), and the `if` on
`sequence[0]`. -/
def runsInit (sequence : List Nat) (k : Nat) : Option RunsScan := do
  let x ← sequence[0]?
  if x = 0 then
    pure { bl := 0, gl := 1, rt := 0, b := List.replicate (k + 1) 0, g := List.replicate (k + 1) 0 }
  else
    pure { bl := 1, gl := 0, rt := 1, b := List.replicate (k + 1) 0, g := List.replicate (k + 1) 0 }

/-- One iteration of the scan `for(i=1;i<length;i++)` of `TestRuns`. -/
def runsStep (sequence : List Nat) (k : Nat) (st : RunsScan) (i : Nat) : Option RunsScan := do
  let x ← sequence[i]?
  if x = 0 then
    if st.rt = 0 then
      pure { st with gl := st.gl + 1 }
    else
      let g ← if st.bl ≤ k then increment st.g st.bl else pure st.g
      pure { st with g := g, gl := 1, bl := 0, rt := 0 }
  else
    if st.rt = 1 then
      pure { st with bl := st.bl + 1 }
    else
      let b ← if st.gl ≤ k then increment st.b st.gl else pure st.b
      pure { st with b := b, bl := 1, gl := 0, rt := 1 }

/-- The scan of `TestRuns`. -/
def runsScan (sequence : List Nat) (k : Nat) : Option RunsScan := do
  let st ← runsInit sequence k
  ((List.range (sequence.length - 1)).map (fun j => j + 1)).foldlM (runsStep sequence k) st

/-- The loop `for(i=1;i<=k;i++) { xb += pow(b[i]-e[i],2)/e[i]; xg += pow(g[i]-e[i],2)/e[i]; }`
and `x = xb + xg`, with `e[i] = (length-i+3.0)/pow(2.0,i+2.0)`. -/
def runsStatistic (length k : Nat) (b g : List Nat) : Option ℚ := do
  let acc ← ((List.range k).map (fun j => j + 1)).foldlM (fun (acc : ℚ × ℚ) i => do
    let bi : Nat ← b[i]?
    let gi : Nat ← g[i]?
    pure (acc.1 + ((bi : ℚ) - runsE length i) ^ 2 / runsE length i,
          acc.2 + ((gi : ℚ) - runsE length i) ^ 2 / runsE length i)) ((0 : ℚ), (0 : ℚ))
  pure (acc.1 + acc.2)

/-- The function `TestRuns`. -/
def TestRuns (sequence : List Nat) : Option TestResult := do
  let k := runsK sequence.length
  let st ← runsScan sequence k
  let x ← runsStatistic sequence.length k st.b st.g
  if k > 19 then
    pure { result := x
           corrhi := 0
           corrlo := 0
           name := "RUNS"
           pass := none
           extra := Extra.unsupportedLength k }
  else
    let hi ← runsCorrhi[k]?
    let lo ← runsCorrlo[k]?
    pure { result := x
           corrhi := hi
           corrlo := lo
           name := "RUNS"
           pass := some (threeWay x hi lo)
           extra := Extra.runsK k }

/-! ## TestAutocorrelation

The statistic of this analyzer goes through `sqrt`, so its values are real
numbers: the counting loop is computable, the values built on `sqrt` are not. -/

/-- The inner loop of `TestAutocorrelation` for the shift `d`:
`a=0; for(i=0;i<length-d;i++) if(sequence[i] != sequence[i+d]) a++;`. -/
def autocorrCount (sequence : List Nat) (d : Nat) : Option Nat :=
  (List.range (usub sequence.length d)).foldlM (fun a i => do
    let x ← sequence[i]?
    let y ← sequence[i + d]?
    pure (if x ≠ y then a + 1 else a)) 0

/-- The value under the square root for the shift `d`, from the count `a`:
`x = 2*a; x = x-length; x = x+d; y = length-d; x = pow(x,2.0); x = x/y;`
(`2*a` and `length-d` are `unsigned long` expressions). -/
def autocorrSquare (length a d : Nat) : ℚ :=
  ((((2 * a) % ULONG_SIZE : Nat) : ℚ) - (length : ℚ) + (d : ℚ)) ^ 2 / ((usub length d : Nat) : ℚ)

/-- The value `x = sqrt(x)` for the shift `d`. -/
noncomputable def autocorrX (length a d : Nat) : ℝ :=
  Real.sqrt ((autocorrSquare length a d : ℚ) : ℝ)

/-- The variables `worst`, `worstd` and `avg` of `TestAutocorrelation`;
`worstd` is `none` while the variable has not been assigned. -/
structure AutocorrScan where
  worst : ℝ
  worstd : Option Nat
  avg : ℝ

/-- One iteration of the loop `for(d=1;d<=length/2;d++)` of
`TestAutocorrelation`. -/
noncomputable def autocorrStep (sequence : List Nat) (st : AutocorrScan) (d : Nat) :
    Option AutocorrScan := do
  let a ← autocorrCount sequence d
  let x := autocorrX sequence.length a d
  if x > st.worst then
    pure { worst := x, worstd := some d, avg := st.avg + x }
  else
    pure { st with avg := st.avg + x }

/-- The loop over the shifts of `TestAutocorrelation`, from `worst = 0.0`,
`avg = 0.0` and `worstd` not assigned. -/
noncomputable def autocorrScan (sequence : List Nat) : Option AutocorrScan :=
  ((List.range (sequence.length / 2)).map (fun j => j + 1)).foldlM (autocorrStep sequence)
    { worst := 0, worstd := none, avg := 0 }

/-- The `TestResult` of `TestAutocorrelation`, with real values; `worst` and
`worstd` are the two values printed into `res.extra` by
`sprintf(res.extra,"worst = %.4f, worstd = %ld", worst, worstd)`, `worstd`
being `none` when the variable printed was never assigned. -/
structure AutocorrResult where
  result : ℝ
  corrhi : ℝ
  corrlo : ℝ
  name : String
  pass : Option Verdict
  worst : ℝ
  worstd : Option Nat

/-- The verdict chain of `threeWay` on real values. -/
noncomputable def threeWayReal (result corrhi corrlo : ℝ) : Verdict :=
  if result ≤ corrhi then Verdict.OK
  else if result ≤ corrlo then Verdict.MEH
  else Verdict.FAILED

/-- The function `TestAutocorrelation`: `avg = avg/(length*0.5)` after the
loop. -/
noncomputable def TestAutocorrelation (sequence : List Nat) : Option AutocorrResult := do
  let st ← autocorrScan sequence
  let avg : ℝ := st.avg / ((sequence.length : ℝ) * 0.5)
  pure { result := avg
         corrhi := 1.282
         corrlo := 3.090
         name := "AUTOCORR"
         pass := some (threeWayReal avg 1.282 3.090)
         worst := st.worst
         worstd := st.worstd }

/-! ## TestLinearComplexity -/

/-- The loop `for(i=1;i<=L;++i) d ^= C[i] & sequence[n-i];` started from
`d = d0`. -/
def discrepancy (C sequence : List Nat) (n L d0 : Nat) : Option Nat :=
  ((List.range L).map (fun j => j + 1)).foldlM (fun d i => do
    let c ← C[i]?
    let x ← sequence[usub n i]?
    pure (d ^^^ (c &&& x))) d0

/-- The statements `C[i] ^= B[j]` for `i = start, start+1, ...` and
`j = 0, 1, ...`, executed `cnt` times. -/
def xorLoop (C B : List Nat) (start cnt : Nat) : Option (List Nat) :=
  (List.range cnt).foldlM (fun C j => do
    let c ← C[start + j]?
    let b ← B[j]?
    pure (C.set (start + j) (c ^^^ b))) C

/-- The loop `for(i = n-m,j=0;i<=n+1;++i,++j) C[i] ^= B[j];`: it starts at
the `unsigned long` difference `n-m` and runs `n + 2 - (n-m)` times. -/
def xorShift (C B : List Nat) (n m : Nat) : Option (List Nat) :=
  xorLoop C B (usub n m) (n + 2 - usub n m)

/-- The call `memcpy(dst,src,cnt)`. -/
def memcpy (dst src : List Nat) (cnt : Nat) : Option (List Nat) :=
  if cnt ≤ src.length ∧ cnt ≤ dst.length then some (src.take cnt ++ dst.drop cnt) else none

/-- The buffers and variables of `TestLinearComplexity` that live across
iterations of the `while` loop. -/
structure LCState where
  C : List Nat
  B : List Nat
  T : List Nat
  L : Nat
  m : Nat
deriving DecidableEq, Repr

/-- The body of `while(n<length)` in `TestLinearComplexity`, at index `n`. -/
def lcStep (sequence : List Nat) (st : LCState) (n : Nat) : Option LCState := do
  let d0 ← sequence[n]?
  let d ← discrepancy st.C sequence n st.L d0
  if d ≠ 0 then
    let T ← memcpy st.T st.C (n + 1)
    let C ← xorShift st.C st.B n st.m
    if st.L ≤ n / 2 then
      let B ← memcpy st.B T (n + 1)
      pure { C := C, B := B, T := T, L := n + 1 - st.L, m := n }
    else
      pure { st with C := C, T := T }
  else
    pure st

/-- The state before the `while` loop: three buffers of `length+4` bytes whose
contents are those of the memory `malloc` returned (`heapC`, `heapB`, `heapT`
give the byte at each offset), then `C[0] = B[0] = 1`, `L = 0` and `m = -1`. -/
def lcInit (heapC heapB heapT : Nat → Nat) (length : Nat) : LCState :=
  { C := ((List.range (length + 4)).map heapC).set 0 1
    B := ((List.range (length + 4)).map heapB).set 0 1
    T := (List.range (length + 4)).map heapT
    L := 0
    m := ULONG_SIZE - 1 }

/-- The `while` loop of `TestLinearComplexity`: `n` runs from 0 to `length-1`. -/
def lcLoop (heapC heapB heapT : Nat → Nat) (sequence : List Nat) : Option LCState :=
  (List.range sequence.length).foldlM (lcStep sequence)
    (lcInit heapC heapB heapT sequence.length)

/-- The value of `L` when the `while` loop of `TestLinearComplexity` ends. -/
def linearComplexity (heapC heapB heapT : Nat → Nat) (sequence : List Nat) : Option Nat :=
  (lcLoop heapC heapB heapT sequence).map (fun st => st.L)

/-- The function `TestLinearComplexity`. -/
def TestLinearComplexity (heapC heapB heapT : Nat → Nat) (sequence : List Nat) :
    Option TestResult := do
  let L ← linearComplexity heapC heapB heapT sequence
  let corr : ℚ := (sequence.length : ℚ) / 2
  pure { result := (L : ℚ)
         corrhi := corr
         corrlo := corr
         name := "LC"
         pass := some (if (L : ℚ) ≥ corr then Verdict.OK else Verdict.FAILED)
         extra := Extra.empty }

/-- Memory that `malloc` returns zero-filled. -/
def zeroHeap : Nat → Nat := fun _ => 0

/-! ## Notions of the specification -/

/-- The sequence element `s[n]` as an element of GF(2). -/
def seqAt (s : List Nat) (n : Nat) : ZMod 2 := ((s.getD n 0 : Nat) : ZMod 2)

/-- There are coefficients `c_1..c_l` in GF(2) with
`s[n] = c_1*s[n-1] + ... + c_l*s[n-l]` for every `n` with `l ≤ n < N`. -/
def IsRecurrenceLength (s : List Nat) (l : Nat) : Prop :=
  ∃ c : Nat → ZMod 2, ∀ n, l ≤ n → n < s.length →
    seqAt s n = ∑ i in Finset.Icc 1 l, c i * seqAt s (n - i)

/-- The number of elements of `s` equal to 0. -/
def countZero : List Nat → Nat
  | [] => 0
  | x :: rest => if x = 0 then countZero rest + 1 else countZero rest

/-- The number of elements of `s` other than 0. -/
def countOther : List Nat → Nat
  | [] => 0
  | x :: rest => if x = 0 then countOther rest else countOther rest + 1

/-- The complement of a bit sequence. -/
def complement (s : List Nat) : List Nat := s.map (fun x => 1 - x)

/-! ## Notions used in the proof of the linear complexity -/

/-- The coefficient of index `k` of the product of two power series over
GF(2) given by their coefficients. -/
def conv (c σ : Nat → ZMod 2) (k : Nat) : ZMod 2 :=
  ∑ i in Finset.range (k + 1), c i * σ (k - i)

/-- The word `l` is a recurrence length of the first `n` elements of `s`. -/
def RecurrenceUpTo (s : List Nat) (n l : Nat) : Prop :=
  ∃ c : Nat → ZMod 2, ∀ k, l ≤ k → k < n →
    seqAt s k = ∑ i in Finset.Icc 1 l, c i * seqAt s (k - i)

/-- The invariant of the `while` loop of `TestLinearComplexity` at the start of
iteration `n`, for zero-filled buffers: `C` is a connection polynomial of
length `L` for the first `n` elements, `L` is the least such length, and `B` is
the connection polynomial before the last change of `L`, made at index `m`
where its discrepancy was 1. -/
structure BMInv (s : List Nat) (n : Nat) (st : LCState) : Prop where
  lenC : st.C.length = s.length + 4
  lenB : st.B.length = s.length + 4
  lenT : st.T.length = s.length + 4
  bitsC : ∀ i, st.C.getD i 0 ≤ 1
  bitsB : ∀ i, st.B.getD i 0 ≤ 1
  L_le : st.L ≤ n
  c0 : seqAt st.C 0 = 1
  cHigh : ∀ i, st.L < i → seqAt st.C i = 0
  gen : ∀ k, st.L ≤ k → k < n → conv (seqAt st.C) (seqAt s) k = 0
  least : ∀ l, RecurrenceUpTo s n l → st.L ≤ l
  prev :
    (st.m = ULONG_SIZE - 1 ∧ st.L = 0 ∧ seqAt st.B 0 = 1 ∧ ∀ i, 0 < i → seqAt st.B i = 0) ∨
    (st.m < n ∧ ∃ LB, LB ≤ st.m ∧ st.L = st.m + 1 - LB ∧
      (∀ i, LB < i → seqAt st.B i = 0) ∧
      (∀ k, LB ≤ k → k < st.m → conv (seqAt st.B) (seqAt s) k = 0) ∧
      conv (seqAt st.B) (seqAt s) st.m = 1)

/-! ## Inputs used below -/

/-- The sequence 0,1,0,1,... of 20 elements. -/
def alternating20 : List Nat := [0,1,0,1,0,1,0,1,0,1,0,1,0,1,0,1,0,1,0,1]

/-- The sequence 1,0,1,0,0. -/
def seq10100 : List Nat := [1, 0, 1, 0, 0]

/-- Memory whose byte at offset 1 is 1 and whose other bytes are 0. -/
def heapOneAt1 : Nat → Nat := fun i => if i = 1 then 1 else 0

/-! ## Notions used in the proofs about memory safety -/

/-- The part of the state of the loop of `TestLinearComplexity` that keeps its
memory accesses in bounds, at the start of iteration `n` on a sequence of
`N` elements: the three buffers have `N + 4` bytes, `L ≤ n`, and `m` is `-1`
or below `n`. -/
structure LCSafe (N n : Nat) (st : LCState) : Prop where
  lenC : st.C.length = N + 4
  lenB : st.B.length = N + 4
  lenT : st.T.length = N + 4
  L_le : st.L ≤ n
  m_ok : st.m = ULONG_SIZE - 1 ∨ st.m < n

/-! ## Notions of the specification, continued -/

/-- The thresholds are in order and the verdict is the function of the
statistic and the two thresholds: OK iff `result ≤ corrhi`, FAILED iff
`result > corrlo`, MARGINAL otherwise. -/
def IsThreeWay {α : Type} [LinearOrder α] (result corrhi corrlo : α) (pass : Option Verdict) :
    Prop :=
  corrhi ≤ corrlo ∧ (pass = some Verdict.OK ↔ result ≤ corrhi) ∧
  (pass = some Verdict.FAILED ↔ corrlo < result) ∧
  (pass = some Verdict.MEH ↔ corrhi < result ∧ result ≤ corrlo)

/-- The comparison `x > c` of a `FloatValue` with a number: false when `x` is
NaN. -/
def FloatValue.gt : FloatValue → ℚ → Bool
  | FloatValue.num q, c => decide (c < q)
  | FloatValue.posInf, _ => true
  | FloatValue.negInf, _ => false
  | FloatValue.nan, _ => false

/-- The rule of `IsThreeWay` for a statistic that is a `FloatValue`: OK iff
`result <= corrhi`, FAILED iff `result > corrlo`, MARGINAL otherwise. -/
def IsThreeWayFloat (result : FloatValue) (corrhi corrlo : ℚ) (pass : Option Verdict) : Prop :=
  corrhi ≤ corrlo ∧ (pass = some Verdict.OK ↔ result.le corrhi = true) ∧
  (pass = some Verdict.FAILED ↔ result.gt corrlo = true) ∧
  (pass = some Verdict.MEH ↔ result.le corrhi = false ∧ result.gt corrlo = false)

/-- The number of indices `i < j` with `(s[i], s[i+1]) = (a, b)`. -/
def pairCountBelow (s : List Nat) (a b j : Nat) : Nat :=
  (List.range j).countP (fun i => decide (s.getD i 0 = a ∧ s.getD (i + 1) 0 = b))

/-- The number of indices `i` in `0..n-2` with `(s[i], s[i+1]) = (a, b)`. -/
def pairCount (s : List Nat) (a b : Nat) : Nat := pairCountBelow s a b (s.length - 1)

/-- The number of indices `i < j` with `s[i] = a`. -/
def indexCountBelow (s : List Nat) (a j : Nat) : Nat :=
  (List.range j).countP (fun i => decide (s.getD i 0 = a))

/-- The number of indices `i` in `0..n-1` with `s[i] = a`. -/
def indexCount (s : List Nat) (a : Nat) : Nat := indexCountBelow s a s.length

/-- The expected count `e[i] = (n - i + 3)/2^(i+2)` of the Runs test, as a
rational. -/
def expectedRuns (n i : Nat) : ℚ := ((n : ℚ) - (i : ℚ) + 3) / (2 : ℚ) ^ (i + 2)

/-- The Poker statistic `(M/k) * sum_v count[v]^2 - k` as a rational, for a
table of `M` counts. -/
def pokerFormula (M k : Nat) (table : List Nat) : ℚ :=
  ((M : ℚ) / (k : ℚ)) * (table.map (fun (t : Nat) => (t : ℚ) ^ 2)).sum - (k : ℚ)

/-- The number of indices `i < j` with `s[i] ≠ s[i+d]`. -/
def mismatchCountBelow (s : List Nat) (d j : Nat) : Nat :=
  (List.range j).countP (fun i => decide (s.getD i 0 ≠ s.getD (i + d) 0))

/-- The number `a(d)` of indices `i` in `0..n-d-1` with `s[i] ≠ s[i+d]`. -/
def mismatchCount (s : List Nat) (d : Nat) : Nat := mismatchCountBelow s d (s.length - d)

/-- The value `x(d) = sqrt((2*a(d) - n + d)^2/(n - d))` in exact real
arithmetic. -/
noncomputable def shiftStatistic (s : List Nat) (d : Nat) : ℝ :=
  Real.sqrt ((2 * (mismatchCount s d : ℝ) - (s.length : ℝ) + (d : ℝ)) ^ 2 /
    ((s.length : ℝ) - (d : ℝ)))

/-- The number of maximal runs of the symbol `a` of length exactly `i` in the
sequence `s`. -/
def runCount (s : List Nat) (a i : Nat) : Nat :=
  (s.splitBy (fun x y => decide (x = y))).countP
    (fun run => decide (run.head? = some a ∧ run.length = i))

/-- The value of block `j` of `m` elements of the sequence `s`, bit `t` of the
block being its `t`-th element: `sum_{t<m} s[m*j+t]*2^t`. -/
def blockValue (s : List Nat) (m j : Nat) : Nat :=
  ((List.range m).map (fun t => s.getD (m * j + t) 0 * 2 ^ t)).sum

/-- The number of blocks `j < k` of `m` elements with value `v`. -/
def blockCount (s : List Nat) (m k v : Nat) : Nat :=
  (List.range k).countP (fun j => decide (blockValue s m j = v))

/-! # Theorems -/

/-! ## Operations on values that are numbers -/

theorem FloatValue.div_num (a b : ℚ) (hb : b ≠ 0) :
    (FloatValue.num a).div (FloatValue.num b) = FloatValue.num (a / b) := by
  simp only [FloatValue.div, if_neg hb]

theorem FloatValue.div_zero_zero :
    (FloatValue.num 0).div (FloatValue.num 0) = FloatValue.nan := by
  simp [FloatValue.div, FloatValue.signedInf]

theorem FloatValue.div_pos_zero (a : ℚ) (ha : 0 < a) :
    (FloatValue.num a).div (FloatValue.num 0) = FloatValue.posInf := by
  simp [FloatValue.div, FloatValue.signedInf, ha, ne_of_gt ha]

theorem FloatValue.mul_num (a b : ℚ) :
    (FloatValue.num a).mul (FloatValue.num b) = FloatValue.num (a * b) := rfl

theorem FloatValue.add_num (a b : ℚ) :
    (FloatValue.num a).add (FloatValue.num b) = FloatValue.num (a + b) := rfl

theorem FloatValue.sub_num (a b : ℚ) :
    (FloatValue.num a).sub (FloatValue.num b) = FloatValue.num (a - b) := by
  simp only [FloatValue.sub, FloatValue.neg, FloatValue.add, sub_eq_add_neg]

theorem serialStatistic_num (c : SerialCounts) (length : Nat) (hlen : 2 ≤ length) :
    serialStatistic c length = FloatValue.num
      ((((c.n00 * c.n00 + c.n01 * c.n01 + c.n10 * c.n10 + c.n11 * c.n11) % ULONG_SIZE : Nat) : ℚ)
          * 4 / ((length : ℚ) - 1)
        - (((c.n0 * c.n0 + c.n1 * c.n1) % ULONG_SIZE : Nat) : ℚ) * 2 / (length : ℚ) + 1) := by
  have h2 : (2 : ℚ) ≤ (length : ℚ) := by exact_mod_cast hlen
  have hd1 : (length : ℚ) - 1 ≠ 0 := by intro h0; linarith
  have hd2 : (length : ℚ) ≠ 0 := by intro h0; linarith
  simp only [serialStatistic, FloatValue.div_num _ _ hd1, FloatValue.div_num _ _ hd2,
    FloatValue.sub_num, FloatValue.add_num]

theorem poker8Statistic_num (k : Nat) (table : List Nat) (hk : 1 ≤ k) :
    poker8Statistic k table = FloatValue.num
      ((256 / (k : ℚ)) * (table.map (fun (t : Nat) => (t : ℚ) * (t : ℚ))).sum - (k : ℚ)) := by
  have hk0 : (k : ℚ) ≠ 0 := by
    have : (1 : ℚ) ≤ (k : ℚ) := by exact_mod_cast hk
    intro h0; linarith
  simp only [poker8Statistic, FloatValue.div_num _ _ hk0, FloatValue.mul_num, FloatValue.sub_num]

theorem poker16Statistic_num (k : Nat) (table : List Nat) (hk : 1 ≤ k) :
    poker16Statistic k table = FloatValue.num
      ((65536 / (k : ℚ)) * (table.map (fun t => (((t * t) % ULONG_SIZE : Nat) : ℚ))).sum
        - (k : ℚ)) := by
  have hk0 : (k : ℚ) ≠ 0 := by
    have : (1 : ℚ) ≤ (k : ℚ) := by exact_mod_cast hk
    intro h0; linarith
  simp only [poker16Statistic, FloatValue.div_num _ _ hk0, FloatValue.mul_num,
    FloatValue.sub_num]

/-! ## Convolutions over GF(2) -/

theorem zmod2_add_self (x : ZMod 2) : x + x = 0 := by
  revert x; decide

theorem zmod2_eq_of_add_eq_zero (x y : ZMod 2) (h : x + y = 0) : x = y := by
  revert x y; decide

theorem sum_Icc_one (f : Nat → ZMod 2) (l : Nat) :
    ∑ i in Finset.Icc 1 l, f i = ∑ i in Finset.range l, f (i + 1) := by
  rw [← Nat.Ico_succ_right, Finset.sum_Ico_eq_sum_range]
  simp [Nat.add_comm]

/-- With `c 0 = 1` and no coefficient above `l`, the product coefficient at
`k ≥ l` is the recurrence expression. -/
theorem conv_eq_recurrence (c σ : Nat → ZMod 2) (l k : Nat) (h0 : c 0 = 1)
    (hH : ∀ i, l < i → c i = 0) (hk : l ≤ k) :
    conv c σ k = σ k + ∑ i in Finset.Icc 1 l, c i * σ (k - i) := by
  unfold conv
  rw [Finset.sum_range_succ', h0, sum_Icc_one]
  obtain ⟨r, rfl⟩ := Nat.exists_eq_add_of_le hk
  rw [Finset.sum_range_add]
  have hz : ∑ x in Finset.range r, c (l + x + 1) * σ (l + r - (l + x + 1)) = 0 := by
    apply Finset.sum_eq_zero
    intro x _
    rw [hH (l + x + 1) (by omega), zero_mul]
  rw [hz]
  simp
  ring

theorem conv_add_shift (c b σ : Nat → ZMod 2) (sh k : Nat) :
    conv (fun i => c i + (if sh ≤ i then b (i - sh) else 0)) σ k =
      conv c σ k + (if sh ≤ k then conv b σ (k - sh) else 0) := by
  unfold conv
  simp only [add_mul, Finset.sum_add_distrib]
  congr 1
  by_cases hsh : sh ≤ k
  · rw [if_pos hsh]
    obtain ⟨r, rfl⟩ := Nat.exists_eq_add_of_le hsh
    have : sh + r + 1 = sh + (r + 1) := by ring
    rw [this, Finset.sum_range_add]
    have hz : ∑ x in Finset.range sh, (if sh ≤ x then b (x - sh) else 0) * σ (sh + r - x) = 0 := by
      apply Finset.sum_eq_zero
      intro x hx
      have : ¬ sh ≤ x := by have := Finset.mem_range.mp hx; omega
      rw [if_neg this, zero_mul]
    rw [hz, zero_add, Nat.add_sub_cancel_left]
    apply Finset.sum_congr rfl
    intro x _
    have h1 : sh ≤ sh + x := Nat.le_add_right _ _
    rw [if_pos h1, Nat.add_sub_cancel_left, Nat.sub_add_eq, Nat.add_sub_cancel_left]
  · rw [if_neg hsh]
    apply Finset.sum_eq_zero
    intro x hx
    have : ¬ sh ≤ x := by have := Finset.mem_range.mp hx; omega
    rw [if_neg this, zero_mul]

theorem exists_poly (f : Nat → ZMod 2) (n : Nat) :
    ∃ P : Polynomial (ZMod 2), ∀ i, P.coeff i = if i < n then f i else 0 := by
  refine ⟨∑ i in Finset.range n, Polynomial.monomial i (f i), ?_⟩
  intro i
  rw [Polynomial.finset_sum_coeff]
  simp only [Polynomial.coeff_monomial]
  rw [Finset.sum_ite_eq']
  simp

theorem coeff_mul_eq_conv (P S : Polynomial (ZMod 2)) (c σ : Nat → ZMod 2) (n : Nat)
    (hP : ∀ i, P.coeff i = if i < n then c i else 0)
    (hS : ∀ i, S.coeff i = if i < n then σ i else 0) (k : Nat) (hk : k < n) :
    (P * S).coeff k = conv c σ k := by
  rw [Polynomial.coeff_mul, Finset.Nat.sum_antidiagonal_eq_sum_range_succ_mk]
  unfold conv
  apply Finset.sum_congr rfl
  intro i hi
  have := Finset.mem_range.mp hi
  rw [hP, hS, if_pos (by omega), if_pos (by omega)]

/-- Massey's bound: if `(c, L)` generates the first `n` elements but not
element `n`, every `(q, l)` that generates the first `n + 1` elements has
`n + 1 ≤ L + l`. -/
theorem length_lower_bound (c q σ : Nat → ZMod 2) (L l n : Nat)
    (hcH : ∀ i, L < i → c i = 0)
    (hgen : ∀ k, L ≤ k → k < n → conv c σ k = 0) (hd : conv c σ n = 1)
    (hq0 : q 0 = 1) (hqH : ∀ i, l < i → q i = 0)
    (hq : ∀ k, l ≤ k → k < n + 1 → conv q σ k = 0) : n + 1 ≤ L + l := by
  by_contra hlt
  have hle : L + l ≤ n := by omega
  obtain ⟨P, hP⟩ := exists_poly c (n + 1)
  obtain ⟨Q, hQ⟩ := exists_poly q (n + 1)
  obtain ⟨S, hS⟩ := exists_poly σ (n + 1)
  have hPS : ∀ k, k < n + 1 → (P * S).coeff k = conv c σ k := coeff_mul_eq_conv P S c σ _ hP hS
  have hQS : ∀ k, k < n + 1 → (Q * S).coeff k = conv q σ k := coeff_mul_eq_conv Q S q σ _ hQ hS
  have h1 : (Q * (P * S)).coeff n = 1 := by
    rw [Polynomial.coeff_mul, Finset.Nat.sum_antidiagonal_eq_sum_range_succ_mk,
      Finset.sum_range_succ']
    have hz : ∑ k in Finset.range n, Q.coeff (k + 1) * (P * S).coeff (n - (k + 1)) = 0 := by
      apply Finset.sum_eq_zero
      intro i hi
      have hin := Finset.mem_range.mp hi
      by_cases hil : l < i + 1
      · rw [hQ, if_pos (by omega), hqH _ hil, zero_mul]
      · rw [hPS _ (by omega), hgen _ (by omega) (by omega), mul_zero]
    rw [hz, zero_add, hQ, if_pos (by omega), hq0, Nat.sub_zero, hPS _ (by omega), hd, mul_one]
  have h0 : (P * (Q * S)).coeff n = 0 := by
    rw [Polynomial.coeff_mul, Finset.Nat.sum_antidiagonal_eq_sum_range_succ_mk]
    apply Finset.sum_eq_zero
    intro i hi
    have hin := Finset.mem_range.mp hi
    by_cases hiL : L < i
    · rw [hP, if_pos (by omega), hcH _ hiL, zero_mul]
    · rw [hQS _ (by omega), hq _ (by omega) (by omega), mul_zero]
  rw [mul_left_comm] at h1
  rw [h0] at h1
  exact zero_ne_one h1

/-- A recurrence of length `l` on the first `n` elements, as an annihilating
series. -/
theorem recurrence_as_conv (s : List Nat) (n l : Nat) (h : RecurrenceUpTo s n l) :
    ∃ q : Nat → ZMod 2, q 0 = 1 ∧ (∀ i, l < i → q i = 0) ∧
      ∀ k, l ≤ k → k < n → conv q (seqAt s) k = 0 := by
  obtain ⟨c, hc⟩ := h
  refine ⟨fun i => if i = 0 then 1 else if i ≤ l then c i else 0, by simp, ?_, ?_⟩
  · intro i hi
    simp only
    rw [if_neg (by omega), if_neg (by omega)]
  · intro k hlk hkn
    rw [conv_eq_recurrence _ _ l k (by simp) (by
      intro i hi
      rw [if_neg (by omega), if_neg (by omega)]) hlk]
    rw [hc k hlk hkn]
    have : ∑ i in Finset.Icc 1 l, (if i = 0 then 1 else if i ≤ l then c i else 0) * seqAt s (k - i)
        = ∑ i in Finset.Icc 1 l, c i * seqAt s (k - i) := by
      apply Finset.sum_congr rfl
      intro i hi
      have := Finset.mem_Icc.mp hi
      rw [if_neg (by omega), if_pos (by omega)]
    rw [this]
    exact zmod2_add_self _

theorem conv_as_recurrence (s : List Nat) (c : Nat → ZMod 2) (n l : Nat) (h0 : c 0 = 1)
    (hH : ∀ i, l < i → c i = 0)
    (hgen : ∀ k, l ≤ k → k < n → conv c (seqAt s) k = 0) : RecurrenceUpTo s n l := by
  refine ⟨c, ?_⟩
  intro k hlk hkn
  have := hgen k hlk hkn
  rw [conv_eq_recurrence c _ l k h0 hH hlk] at this
  exact zmod2_eq_of_add_eq_zero _ _ this

/-! ## The loops of TestLinearComplexity -/

theorem usub_of_le (a b : Nat) (hb : b ≤ a) (ha : a < ULONG_SIZE) : usub a b = a - b := by
  unfold usub ULONG_SIZE at *
  omega

theorem usub_minus_one (n : Nat) (hn : n + 1 < ULONG_SIZE) : usub n (ULONG_SIZE - 1) = n + 1 := by
  unfold usub ULONG_SIZE at *
  omega

theorem getElem?_eq_some_getD (l : List Nat) (i : Nat) (h : i < l.length) :
    l[i]? = some (l.getD i 0) := by
  simp [List.getElem?_eq_getElem h]

theorem bit_xor_and (d c x : Nat) (hd : d ≤ 1) (hc : c ≤ 1) (hx : x ≤ 1) :
    d ^^^ (c &&& x) ≤ 1 ∧
    ((d ^^^ (c &&& x) : Nat) : ZMod 2) = (d : ZMod 2) + (c : ZMod 2) * (x : ZMod 2) := by
  interval_cases d <;> interval_cases c <;> interval_cases x <;> decide

theorem bit_xor (c b : Nat) (hc : c ≤ 1) (hb : b ≤ 1) :
    c ^^^ b ≤ 1 ∧ ((c ^^^ b : Nat) : ZMod 2) = (c : ZMod 2) + (b : ZMod 2) := by
  interval_cases c <;> interval_cases b <;> decide

theorem bit_cast_eq_one (d : Nat) (hd : d ≤ 1) : ((d : Nat) : ZMod 2) = 1 ↔ d ≠ 0 := by
  interval_cases d <;> decide

theorem discrepancy_spec (C s : List Nat) (n d0 : Nat) (hC : ∀ i, C.getD i 0 ≤ 1)
    (hs : ∀ i, s.getD i 0 ≤ 1) (hd0 : d0 ≤ 1) (hn : n < s.length)
    (hN : s.length < ULONG_SIZE) :
    ∀ L, L ≤ n → L < C.length → ∃ d, discrepancy C s n L d0 = some d ∧ d ≤ 1 ∧
      ((d : Nat) : ZMod 2) =
        (d0 : ZMod 2) + ∑ i in Finset.range L, seqAt C (i + 1) * seqAt s (n - (i + 1)) := by
  intro L
  induction L with
  | zero =>
    intro _ _
    exact ⟨d0, by simp [discrepancy], hd0, by simp⟩
  | succ L ih =>
    intro hL hLC
    obtain ⟨d, hd, hd1, hdz⟩ := ih (by omega) (by omega)
    have hu : usub n (L + 1) = n - (L + 1) := usub_of_le _ _ hL (by omega)
    have hcr : C[L + 1]? = some (C.getD (L + 1) 0) := getElem?_eq_some_getD _ _ hLC
    have hsr : s[n - (L + 1)]? = some (s.getD (n - (L + 1)) 0) :=
      getElem?_eq_some_getD _ _ (by omega)
    have hb := bit_xor_and d (C.getD (L + 1) 0) (s.getD (n - (L + 1)) 0) hd1 (hC _) (hs _)
    refine ⟨d ^^^ (C.getD (L + 1) 0 &&& s.getD (n - (L + 1)) 0), ?_, hb.1, ?_⟩
    · unfold discrepancy at hd ⊢
      rw [List.range_succ, List.map_append, List.foldlM_append, hd]
      simp only [List.map_cons, List.map_nil, List.foldlM_cons, List.foldlM_nil,
        Option.bind_eq_bind, Option.some_bind, hu, hcr, hsr]
      rfl
    · rw [hb.2, hdz, Finset.sum_range_succ, add_assoc]
      rfl

theorem xorLoop_spec (B : List Nat) (start : Nat) :
    ∀ (cnt : Nat) (C : List Nat), start + cnt ≤ C.length → cnt ≤ B.length →
      ∃ C', xorLoop C B start cnt = some C' ∧ C'.length = C.length ∧
        ∀ i, C'.getD i 0 =
          if start ≤ i ∧ i < start + cnt then C.getD i 0 ^^^ B.getD (i - start) 0
          else C.getD i 0 := by
  intro cnt
  induction cnt with
  | zero =>
    intro C _ _
    refine ⟨C, by simp [xorLoop], rfl, ?_⟩
    intro i
    rw [if_neg (by omega)]
  | succ cnt ih =>
    intro C hC hB
    obtain ⟨C1, h1, hlen, hget⟩ := ih C (by omega) (by omega)
    have hcr : C1[start + cnt]? = some (C1.getD (start + cnt) 0) :=
      getElem?_eq_some_getD _ _ (by omega)
    have hbr : B[cnt]? = some (B.getD cnt 0) := getElem?_eq_some_getD _ _ (by omega)
    refine ⟨C1.set (start + cnt) (C1.getD (start + cnt) 0 ^^^ B.getD cnt 0), ?_, ?_, ?_⟩
    · unfold xorLoop at h1 ⊢
      rw [List.range_succ, List.foldlM_append, h1]
      simp only [List.foldlM_cons, List.foldlM_nil, Option.bind_eq_bind, Option.some_bind, hcr, hbr]
      rfl
    · simp [hlen]
    · intro i
      by_cases hi : i = start + cnt
      · subst hi
        rw [if_pos (by omega)]
        have h2 := hget (start + cnt)
        rw [if_neg (by omega)] at h2
        rw [List.getD_eq_getElem?_getD, List.getElem?_set_self (by omega), Option.getD_some, h2,
          Nat.add_sub_cancel_left]
      · have h2 := hget i
        have h3 : (C1.set (start + cnt) (C1.getD (start + cnt) 0 ^^^ B.getD cnt 0)).getD i 0
            = C1.getD i 0 := by
          simp only [List.getD_eq_getElem?_getD]
          rw [List.getElem?_set_ne (fun h => hi h.symm)]
        rw [h3, h2]
        by_cases hr : start ≤ i ∧ i < start + cnt
        · rw [if_pos hr, if_pos (by omega)]
        · rw [if_neg hr, if_neg (by omega)]

theorem memcpy_spec (dst src : List Nat) (cnt : Nat) (hs : cnt ≤ src.length)
    (hd : cnt ≤ dst.length) :
    ∃ r, memcpy dst src cnt = some r ∧ r.length = dst.length ∧
      ∀ i, r.getD i 0 = if i < cnt then src.getD i 0 else dst.getD i 0 := by
  refine ⟨src.take cnt ++ dst.drop cnt, by simp [memcpy, hs, hd], ?_, ?_⟩
  · simp [List.length_append, List.length_take, List.length_drop]
    omega
  · intro i
    by_cases hi : i < cnt
    · rw [if_pos hi, List.getD_append _ _ _ _ (by simp; omega)]
      simp [List.getD_eq_getElem?_getD, List.getElem?_take, hi]
    · rw [if_neg hi, List.getD_append_right _ _ _ _ (by simp; omega)]
      simp only [List.getD_eq_getElem?_getD, List.length_take, List.getElem?_drop]
      congr 2
      rw [Nat.min_eq_left hs]
      omega

/-! ## The invariant of the loop of TestLinearComplexity -/

theorem RecurrenceUpTo.mono (s : List Nat) (n l : Nat) (h : RecurrenceUpTo s (n + 1) l) :
    RecurrenceUpTo s n l := by
  obtain ⟨c, hc⟩ := h
  exact ⟨c, fun k hlk hkn => hc k hlk (by omega)⟩

theorem conv_congr (c c' σ : Nat → ZMod 2) (k : Nat) (h : ∀ i, i ≤ k → c i = c' i) :
    conv c σ k = conv c' σ k := by
  unfold conv
  apply Finset.sum_congr rfl
  intro i hi
  rw [h i (by have := Finset.mem_range.mp hi; omega)]

/-- The new connection polynomial `C + x^sh * B` annihilates one more
element. -/
theorem update_gen (c b σ : Nat → ZMod 2) (sh n L LB : Nat)
    (hgen : ∀ k, L ≤ k → k < n → conv c σ k = 0) (hd : conv c σ n = 1)
    (hside : (sh = n + 1 ∧ L = 0) ∨
      (sh ≤ n ∧ sh + LB + L = n + 1 ∧
        (∀ k, LB ≤ k → k < n - sh → conv b σ k = 0) ∧ conv b σ (n - sh) = 1)) :
    ∀ k, L ≤ k → n + 1 - L ≤ k → k < n + 1 →
      conv (fun i => c i + (if sh ≤ i then b (i - sh) else 0)) σ k = 0 := by
  intro k hLk hk1 hk2
  rw [conv_add_shift]
  rcases hside with ⟨_, hL0⟩ | ⟨hshn, hsum, hb, hbd⟩
  · omega
  · rw [if_pos (by omega)]
    by_cases hkn : k < n
    · rw [hgen k hLk hkn, hb (k - sh) (by omega) (by omega), add_zero]
    · have : k = n := by omega
      subst this
      rw [hd, hbd]
      exact zmod2_add_self 1

theorem lcStep_inv (s : List Nat) (hs : ∀ i, s.getD i 0 ≤ 1) (hN : s.length < ULONG_SIZE)
    (n : Nat) (hn : n < s.length) (st : LCState) (h : BMInv s n st) :
    ∃ st', lcStep s st n = some st' ∧ BMInv s (n + 1) st' := by
  obtain ⟨d, hdisc, hd1, hdz⟩ := discrepancy_spec st.C s n (s.getD n 0) h.bitsC hs (hs n) hn hN
    st.L h.L_le (by rw [h.lenC]; have := h.L_le; omega)
  have hsn : s[n]? = some (s.getD n 0) := getElem?_eq_some_getD _ _ hn
  have hconv : conv (seqAt st.C) (seqAt s) n = ((d : Nat) : ZMod 2) := by
    rw [conv_eq_recurrence _ _ st.L n h.c0 h.cHigh h.L_le, sum_Icc_one, hdz]
    rfl
  by_cases hd0 : d = 0
  · -- no discrepancy: the state is unchanged
    refine ⟨st, ?_, ?_⟩
    · unfold lcStep
      simp only [hsn, hdisc, Option.bind_eq_bind, Option.some_bind]
      rw [if_neg (by simp [hd0])]
      rfl
    · have hz : conv (seqAt st.C) (seqAt s) n = 0 := by rw [hconv, hd0]; rfl
      refine ⟨h.lenC, h.lenB, h.lenT, h.bitsC, h.bitsB, by have := h.L_le; omega, h.c0,
        h.cHigh, ?_, ?_, ?_⟩
      · intro k hLk hk
        by_cases hkn : k < n
        · exact h.gen k hLk hkn
        · have : k = n := by omega
          rw [this]; exact hz
      · intro l hl
        exact h.least l (RecurrenceUpTo.mono s n l hl)
      · rcases h.prev with h1 | ⟨hm, h2⟩
        · exact Or.inl h1
        · exact Or.inr ⟨by omega, h2⟩
  · -- discrepancy 1
    have hdone : conv (seqAt st.C) (seqAt s) n = 1 := by
      rw [hconv]; exact (bit_cast_eq_one d hd1).mpr hd0
    obtain ⟨T1, hT1, hT1len, hT1get⟩ := memcpy_spec st.T st.C (n + 1)
      (by rw [h.lenC]; omega) (by rw [h.lenT]; omega)
    -- the shift and the facts about `B` that both cases of `prev` give
    have hshift : ∃ sh LB, usub n st.m = sh ∧ 1 ≤ sh ∧ sh ≤ n + 1 ∧ sh + LB + st.L = n + 1 ∧
        (∀ i, LB < i → seqAt st.B i = 0) ∧
        ((sh = n + 1 ∧ st.L = 0) ∨
          (sh ≤ n ∧ sh + LB + st.L = n + 1 ∧
            (∀ k, LB ≤ k → k < n - sh → conv (seqAt st.B) (seqAt s) k = 0) ∧
            conv (seqAt st.B) (seqAt s) (n - sh) = 1)) ∧
        (∀ i, n < i → seqAt st.B i = 0) := by
      rcases h.prev with ⟨hm, hL0, _, hB⟩ | ⟨hm, LB, hLBm, hL, hBhigh, hBgen, hBd⟩
      · refine ⟨n + 1, 0, ?_, by omega, by omega, by omega, hB, Or.inl ⟨rfl, hL0⟩, ?_⟩
        · rw [hm]; exact usub_minus_one n (by omega)
        · intro i hi; exact hB i (by omega)
      · have hu : usub n st.m = n - st.m := usub_of_le _ _ (by omega) (by omega)
        have hnm : n - (n - st.m) = st.m := by omega
        refine ⟨n - st.m, LB, hu, by omega, by omega, by omega, hBhigh, Or.inr ⟨by omega,
          by omega, ?_, ?_⟩, ?_⟩
        · rw [hnm]; exact hBgen
        · rw [hnm]; exact hBd
        · intro i hi; exact hBhigh i (by omega)
    obtain ⟨sh, LB, hush, hsh1, hshn, hsum, hBhigh, hside, hBn⟩ := hshift
    obtain ⟨C1, hC1, hC1len, hC1get⟩ := xorLoop_spec st.B sh (n + 2 - sh) st.C
      (by rw [h.lenC]; omega) (by rw [h.lenB]; omega)
    have hxor : xorShift st.C st.B n st.m = some C1 := by
      unfold xorShift; rw [hush]; exact hC1
    have hC1bits : ∀ i, C1.getD i 0 ≤ 1 := by
      intro i
      rw [hC1get i]
      split
      · exact (bit_xor _ _ (h.bitsC i) (h.bitsB _)).1
      · exact h.bitsC i
    have hC1fun : seqAt C1 = fun i => seqAt st.C i + (if sh ≤ i then seqAt st.B (i - sh) else 0) := by
      funext i
      unfold seqAt
      rw [hC1get i]
      by_cases hr : sh ≤ i ∧ i < sh + (n + 2 - sh)
      · rw [if_pos hr, if_pos hr.1]
        exact (bit_xor _ _ (h.bitsC i) (h.bitsB _)).2
      · rw [if_neg hr]
        by_cases hi : sh ≤ i
        · rw [if_pos hi]
          have : seqAt st.B (i - sh) = 0 := hBhigh _ (by omega)
          unfold seqAt at this
          rw [this, add_zero]
        · rw [if_neg hi, add_zero]
    have hC1zero : seqAt C1 0 = 1 := by
      rw [hC1fun]
      simp only
      rw [if_neg (by omega), add_zero]
      exact h.c0
    have hC1high : ∀ i, st.L < i → n + 1 - st.L < i → seqAt C1 i = 0 := by
      intro i hi1 hi2
      rw [hC1fun]
      simp only
      rw [h.cHigh i hi1, zero_add]
      split
      · exact hBhigh _ (by omega)
      · rfl
    have hC1gen : ∀ k, st.L ≤ k → n + 1 - st.L ≤ k → k < n + 1 →
        conv (seqAt C1) (seqAt s) k = 0 := by
      rw [hC1fun]
      exact update_gen _ _ _ sh n st.L LB h.gen hdone hside
    by_cases hLn : st.L ≤ n / 2
    · -- the length changes
      obtain ⟨B1, hB1, hB1len, hB1get⟩ := memcpy_spec st.B T1 (n + 1)
        (by rw [hT1len, h.lenT]; omega) (by rw [h.lenB]; omega)
      have hB1C : ∀ i, i < n + 1 → B1.getD i 0 = st.C.getD i 0 := by
        intro i hi
        rw [hB1get i, if_pos hi, hT1get i, if_pos hi]
      have hB1B : ∀ i, ¬ i < n + 1 → B1.getD i 0 = st.B.getD i 0 := by
        intro i hi
        rw [hB1get i, if_neg hi]
      refine ⟨{ C := C1, B := B1, T := T1, L := n + 1 - st.L, m := n }, ?_, ?_⟩
      · unfold lcStep
        simp only [hsn, hdisc, Option.bind_eq_bind, Option.some_bind]
        rw [if_pos (by simpa using hd0)]
        simp only [hT1, hxor, Option.bind_eq_bind, Option.some_bind]
        rw [if_pos hLn]
        simp only [hB1, Option.bind_eq_bind, Option.some_bind]
        rfl
      · refine ⟨by rw [hC1len]; exact h.lenC, by rw [hB1len]; exact h.lenB,
          by rw [hT1len]; exact h.lenT, hC1bits, ?_, ?_, hC1zero, ?_, ?_, ?_, ?_⟩
        · intro i
          by_cases hi : i < n + 1
          · rw [hB1C i hi]; exact h.bitsC i
          · rw [hB1B i hi]; exact h.bitsB i
        · show n + 1 - st.L ≤ n + 1
          omega
        · intro i hi
          have hi' : n + 1 - st.L < i := hi
          exact hC1high i (by omega) hi'
        · intro k hk1 hk2
          have hk1' : n + 1 - st.L ≤ k := hk1
          exact hC1gen k (by omega) hk1' hk2
        · intro l hl
          show n + 1 - st.L ≤ l
          obtain ⟨q, hq0, hqH, hq⟩ := recurrence_as_conv s (n + 1) l hl
          have := length_lower_bound (seqAt st.C) q (seqAt s) st.L l n h.cHigh h.gen hdone
            hq0 hqH hq
          omega
        · refine Or.inr ⟨Nat.lt_succ_self n, st.L, h.L_le, rfl, ?_, ?_, ?_⟩
          · intro i hi
            unfold seqAt
            by_cases hin : i < n + 1
            · rw [hB1C i hin]; exact h.cHigh i hi
            · rw [hB1B i hin]; exact hBn i (by omega)
          · intro k hk1 hk2
            have hk2' : k < n := hk2
            rw [conv_congr (seqAt B1) (seqAt st.C) _ k (by
              intro i hi; unfold seqAt; rw [hB1C i (by omega)])]
            exact h.gen k hk1 hk2'
          · show conv (seqAt B1) (seqAt s) n = 1
            rw [conv_congr (seqAt B1) (seqAt st.C) _ n (by
              intro i hi; unfold seqAt; rw [hB1C i (by omega)])]
            exact hdone
    · -- the length stays
      refine ⟨{ st with C := C1, T := T1 }, ?_, ?_⟩
      · unfold lcStep
        simp only [hsn, hdisc, Option.bind_eq_bind, Option.some_bind]
        rw [if_pos (by simpa using hd0)]
        simp only [hT1, hxor, Option.bind_eq_bind, Option.some_bind]
        rw [if_neg hLn]
        rfl
      · refine ⟨by rw [hC1len]; exact h.lenC, h.lenB, by rw [hT1len]; exact h.lenT, hC1bits,
          h.bitsB, ?_, hC1zero, ?_, ?_, ?_, ?_⟩
        · show st.L ≤ n + 1
          have := h.L_le; omega
        · intro i hi
          have hi' : st.L < i := hi
          exact hC1high i hi' (by omega)
        · intro k hk1 hk2
          have hk1' : st.L ≤ k := hk1
          exact hC1gen k hk1' (by omega) hk2
        · intro l hl
          exact h.least l (RecurrenceUpTo.mono s n l hl)
        · rcases h.prev with ⟨_, hL0, _, _⟩ | ⟨hm, h2⟩
          · exfalso
            have : st.L ≤ n / 2 := by rw [hL0]; exact Nat.zero_le _
            exact hLn this
          · exact Or.inr ⟨by show st.m < n + 1; omega, h2⟩

theorem zeroBuffer_getD (len i : Nat) :
    (((List.range (len + 4)).map zeroHeap).set 0 1).getD i 0 = if i = 0 then 1 else 0 := by
  rw [List.getD_eq_getElem?_getD, List.getElem?_set]
  by_cases hi : i = 0
  · subst hi
    simp
  · rw [if_neg (fun h => hi h.symm), if_neg hi, List.getElem?_map]
    by_cases hlt : i < len + 4
    · rw [List.getElem?_range hlt]
      rfl
    · rw [List.getElem?_eq_none (by simpa using hlt)]
      rfl

theorem lcInit_inv (s : List Nat) :
    BMInv s 0 (lcInit zeroHeap zeroHeap zeroHeap s.length) := by
  have hz : ∀ i, 0 < i →
      seqAt (((List.range (s.length + 4)).map zeroHeap).set 0 1) i = 0 := by
    intro i hi
    unfold seqAt
    rw [zeroBuffer_getD, if_neg (by omega)]
    rfl
  have h1 : seqAt (((List.range (s.length + 4)).map zeroHeap).set 0 1) 0 = 1 := by
    unfold seqAt
    rw [zeroBuffer_getD, if_pos rfl]
    rfl
  have hb : ∀ i, (((List.range (s.length + 4)).map zeroHeap).set 0 1).getD i 0 ≤ 1 := by
    intro i
    rw [zeroBuffer_getD]
    split <;> omega
  refine ⟨by simp [lcInit], by simp [lcInit], by simp [lcInit], hb, hb, Nat.le_refl _, h1, ?_,
    ?_, ?_, ?_⟩
  · intro i hi; exact hz i (by omega)
  · intro k _ hk; omega
  · intro l _; exact Nat.zero_le _
  · exact Or.inl ⟨rfl, rfl, h1, hz⟩

theorem lcLoop_inv (s : List Nat) (hs : ∀ i, s.getD i 0 ≤ 1) (hN : s.length < ULONG_SIZE) :
    ∀ n, n ≤ s.length →
      ∃ st, (List.range n).foldlM (lcStep s) (lcInit zeroHeap zeroHeap zeroHeap s.length)
          = some st ∧ BMInv s n st := by
  intro n
  induction n with
  | zero =>
    intro _
    exact ⟨_, rfl, lcInit_inv s⟩
  | succ n ih =>
    intro hn
    obtain ⟨st, hst, hinv⟩ := ih (by omega)
    obtain ⟨st', hstep, hinv'⟩ := lcStep_inv s hs hN n (by omega) st hinv
    refine ⟨st', ?_, hinv'⟩
    rw [List.range_succ, List.foldlM_append, hst]
    simp only [Option.bind_eq_bind, Option.some_bind, List.foldlM_cons, List.foldlM_nil, hstep]
    rfl

/-- C1: for every sequence `s` of bits (of a length that an `unsigned long`
holds), with zero-filled working buffers, the loop of `TestLinearComplexity`
ends with `L` equal to the linear complexity of `s`: the least `l` for which
coefficients `c_1..c_l` in GF(2) exist with
`s[n] = c_1*s[n-1] + ... + c_l*s[n-l]` for every `n` with `l ≤ n < N`; this `L`
is the reported statistic. -/
theorem linearComplexity_correct (s : List Nat) (hbits : ∀ x ∈ s, x ≤ 1)
    (hN : s.length < ULONG_SIZE) :
    ∃ L, linearComplexity zeroHeap zeroHeap zeroHeap s = some L ∧
      IsLeast {l | IsRecurrenceLength s l} L ∧
      (TestLinearComplexity zeroHeap zeroHeap zeroHeap s).map (fun r => r.result)
        = some (L : ℚ) := by
  have hs : ∀ i, s.getD i 0 ≤ 1 := by
    intro i
    by_cases hi : i < s.length
    · rw [List.getD_eq_getElem _ _ hi]
      exact hbits _ (List.getElem_mem hi)
    · rw [List.getD_eq_default _ _ (by omega)]
      omega
  obtain ⟨st, hst, hinv⟩ := lcLoop_inv s hs hN s.length (Nat.le_refl _)
  have hL : linearComplexity zeroHeap zeroHeap zeroHeap s = some st.L := by
    unfold linearComplexity lcLoop
    rw [hst]
    rfl
  refine ⟨st.L, hL, ⟨?_, ?_⟩, ?_⟩
  · exact conv_as_recurrence s (seqAt st.C) s.length st.L hinv.c0 hinv.cHigh hinv.gen
  · intro l hl
    exact hinv.least l hl
  · simp [TestLinearComplexity, hL]

/-- C1, witness: the sequence 1,1,1,0,1,0,0 has `L = 3`. -/
theorem linearComplexity_correct_witness :
    linearComplexity zeroHeap zeroHeap zeroHeap [1, 1, 1, 0, 1, 0, 0] = some 3 ∧
    IsLeast {l | IsRecurrenceLength [1, 1, 1, 0, 1, 0, 0] l} 3 := by
  obtain ⟨L, hL, hleast, _⟩ :=
    linearComplexity_correct [1, 1, 1, 0, 1, 0, 0] (by decide) (by decide)
  have h3 : linearComplexity zeroHeap zeroHeap zeroHeap [1, 1, 1, 0, 1, 0, 0] = some 3 := by
    decide
  rw [h3] at hL
  cases hL
  exact ⟨h3, hleast⟩

/-! ## Facts about TestLinearComplexity -/

theorem lcStep_of_zero (s : List Nat) (st : LCState) (n : Nat) (hn : s[n]? = some 0)
    (hL : st.L = 0) : lcStep s st n = some st := by
  simp [lcStep, discrepancy, hn, hL]

theorem lcLoop_allZero (N : Nat) (st : LCState) (hL : st.L = 0) :
    ∀ l : List Nat, (∀ n ∈ l, n < N) →
      l.foldlM (lcStep (List.replicate N 0)) st = some st := by
  intro l
  induction l with
  | nil => intro _; rfl
  | cons n rest ih =>
    intro h
    have hn : n < N := h n (List.mem_cons_self _ _)
    have h0 : (List.replicate N 0)[n]? = some 0 := by
      simp [List.getElem?_replicate, hn]
    rw [List.foldlM_cons, lcStep_of_zero _ _ _ h0 hL]
    exact ih (fun k hk => h k (List.mem_cons_of_mem _ hk))

/-- C3: for every length `N ≥ 0` and whatever the contents of the working
buffers, `TestLinearComplexity` on the all-zero sequence of length `N` ends
its loop with `L = 0` and reports the statistic 0. -/
theorem linearComplexity_allZero (heapC heapB heapT : Nat → Nat) (N : Nat) :
    linearComplexity heapC heapB heapT (List.replicate N 0) = some 0 ∧
    (TestLinearComplexity heapC heapB heapT (List.replicate N 0)).map (fun r => r.result)
      = some 0 := by
  have h : linearComplexity heapC heapB heapT (List.replicate N 0) = some 0 := by
    unfold linearComplexity lcLoop
    rw [lcLoop_allZero N _ rfl _ (by intro n hn; simpa using hn)]
    rfl
  refine ⟨h, ?_⟩
  simp [TestLinearComplexity, h]

/-- C2, at the failing input: on the sequence 1,0,1,0,0 the loop of
`TestLinearComplexity` ends with `L = 3` and the verdict OK when the buffers
are zero-filled, and with `L = 2` and the verdict FAILED when the byte at
offset 1 of the buffer `B` is 1. -/
theorem linearComplexity_depends_on_heap :
    linearComplexity zeroHeap zeroHeap zeroHeap seq10100 = some 3 ∧
    linearComplexity zeroHeap heapOneAt1 zeroHeap seq10100 = some 2 ∧
    (TestLinearComplexity zeroHeap zeroHeap zeroHeap seq10100).map (fun r => r.pass)
      = some (some Verdict.OK) ∧
    (TestLinearComplexity zeroHeap heapOneAt1 zeroHeap seq10100).map (fun r => r.pass)
      = some (some Verdict.FAILED) := by
  have h3 : linearComplexity zeroHeap zeroHeap zeroHeap seq10100 = some 3 := by decide
  have h2 : linearComplexity zeroHeap heapOneAt1 zeroHeap seq10100 = some 2 := by decide
  refine ⟨h3, h2, ?_, ?_⟩
  · simp only [TestLinearComplexity, h3]
    norm_num [seq10100]
  · simp only [TestLinearComplexity, h2]
    norm_num [seq10100]

/-! ## Facts about the decoders -/

theorem and_two_pow_ne_zero (data t : Nat) :
    (if data &&& 2 ^ t ≠ 0 then 1 else 0) = data / 2 ^ t % 2 := by
  have h := Nat.and_two_pow data t
  have h2 := @Nat.testBit_to_div_mod t data
  have hpos : 0 < 2 ^ t := Nat.pos_pow_of_pos t (by norm_num)
  by_cases hb : data.testBit t = true
  · have : data / 2 ^ t % 2 = 1 := by simpa [hb] using h2.symm
    rw [this, h, hb]
    simp
  · have hb2 : data.testBit t = false := by simpa using hb
    have : ¬ (data / 2 ^ t % 2 = 1) := by
      intro hh
      rw [hb2] at h2
      simp [hh] at h2
    have h0 : data / 2 ^ t % 2 = 0 := by omega
    rw [h0, h, hb2]
    simp

theorem unpackByte_getElem (data j : Nat) (hj : j < 8) :
    (unpackByte data)[j]? = some (data / 2 ^ (7 - j) % 2) := by
  have h7 := and_two_pow_ne_zero data 7
  have h6 := and_two_pow_ne_zero data 6
  have h5 := and_two_pow_ne_zero data 5
  have h4 := and_two_pow_ne_zero data 4
  have h3 := and_two_pow_ne_zero data 3
  have h2 := and_two_pow_ne_zero data 2
  have h1 := and_two_pow_ne_zero data 1
  have h0 := and_two_pow_ne_zero data 0
  norm_num at h7 h6 h5 h4 h3 h2 h1 h0
  interval_cases j <;> simp [unpackByte] <;> assumption

theorem unpackByte_length (data : Nat) : (unpackByte data).length = 8 := rfl

theorem readPacked_length (bytes : List Nat) : (readPacked bytes).length = bytes.length * 8 := by
  induction bytes with
  | nil => rfl
  | cons d rest ih => simp [readPacked, unpackByte_length, ih]; ring

theorem readPacked_getElem (bytes : List Nat) :
    ∀ (i : Nat) (hi : i < bytes.length) (j : Nat), j < 8 →
      (readPacked bytes)[8 * i + j]? = some (bytes[i] / 2 ^ (7 - j) % 2) := by
  induction bytes with
  | nil => intro i hi; simp at hi
  | cons d rest ih =>
    intro i hi j hj
    cases i with
    | zero =>
      simp only [readPacked, Nat.mul_zero, Nat.zero_add, List.getElem_cons_zero]
      rw [List.getElem?_append_left (by rw [unpackByte_length]; exact hj)]
      exact unpackByte_getElem d j hj
    | succ i =>
      have hi2 : i < rest.length := by simpa using hi
      simp only [readPacked, List.getElem_cons_succ]
      rw [List.getElem?_append_right (by rw [unpackByte_length]; omega)]
      rw [unpackByte_length]
      have : 8 * (i + 1) + j - 8 = 8 * i + j := by omega
      rw [this]
      exact ih i hi2 j hj

/-- C4: packed-mode decoding of `bytes` returns the length `8 * |bytes|` and
a sequence of that many elements in which element `8i+j` is bit `7-j` of byte
`i` (most significant bit first), a value in {0,1}. -/
theorem packed_decoding (bytes : List Nat) :
    (ReadSequence (some bytes) Mode.packed).2 = 8 * bytes.length ∧
    (ReadSequence (some bytes) Mode.packed).1.length = 8 * bytes.length ∧
    ∀ (i : Nat) (hi : i < bytes.length) (j : Nat), j < 8 →
      (ReadSequence (some bytes) Mode.packed).1[8 * i + j]? = some (bytes[i] / 2 ^ (7 - j) % 2) ∧
      bytes[i] / 2 ^ (7 - j) % 2 ≤ 1 := by
  refine ⟨?_, ?_, ?_⟩
  · simp [ReadSequence, Nat.mul_comm]
  · simp [ReadSequence, readPacked_length, Nat.mul_comm]
  · intro i hi j hj
    refine ⟨?_, ?_⟩
    · simpa [ReadSequence] using readPacked_getElem bytes i hi j hj
    · omega

theorem readText_eq (bytes : List Nat) :
    readText bytes = (bytes.filter (fun b => decide (b = 48 ∨ b = 49))).map (fun b => b - 48) := by
  induction bytes with
  | nil => rfl
  | cons b rest ih =>
    by_cases h0 : b = 48
    · subst h0; simp [readText, ih]
    · by_cases h1 : b = 49
      · subst h1; simp [readText, ih]
      · simp [readText, h0, h1, ih]

/-- C5: text-mode decoding of `bytes` returns exactly the characters `'0'`
(48) and `'1'` (49) of `bytes`, in their order, mapped to the bits 0 and 1;
the returned length is the number of such characters. -/
theorem text_decoding (bytes : List Nat) :
    (ReadSequence (some bytes) Mode.text).1 =
      (bytes.filter (fun b => decide (b = 48 ∨ b = 49))).map (fun b => b - 48) ∧
    (ReadSequence (some bytes) Mode.text).2 =
      bytes.countP (fun b => decide (b = 48 ∨ b = 49)) ∧
    ((∀ b ∈ bytes, b ≠ 48 ∧ b ≠ 49) → (ReadSequence (some bytes) Mode.text).2 = 0) := by
  refine ⟨?_, ?_, ?_⟩
  · simp [ReadSequence, readText_eq]
  · simp [ReadSequence, readText_eq, List.countP_eq_length_filter]
  · intro h
    simp only [ReadSequence, readText_eq, List.length_map]
    rw [List.length_eq_zero, List.filter_eq_nil_iff]
    intro b hb
    have := h b hb
    simp [this.1, this.2]

/-! ## Facts about TestPoker8 -/

theorem poker8Byte_isSome (s : List Nat) (i : Nat) (h : i + 7 < s.length) :
    ∃ byte, poker8Byte s i = some byte := by
  unfold poker8Byte
  rw [List.getElem?_eq_getElem h, List.getElem?_eq_getElem (by omega : i + 6 < s.length),
    List.getElem?_eq_getElem (by omega : i + 5 < s.length),
    List.getElem?_eq_getElem (by omega : i + 4 < s.length),
    List.getElem?_eq_getElem (by omega : i + 3 < s.length),
    List.getElem?_eq_getElem (by omega : i + 2 < s.length),
    List.getElem?_eq_getElem (by omega : i + 1 < s.length),
    List.getElem?_eq_getElem (by omega : i < s.length)]
  exact ⟨_, rfl⟩

theorem poker8Loop_blocks (s : List Nat) (h7 : 7 ≤ s.length) (hN : s.length < ULONG_SIZE) :
    ∀ (fuel i k : Nat) (table : List Nat), i ≤ s.length → (s.length - i) / 8 < fuel →
      ∃ table', poker8Loop s fuel i k table = Outcome.done (k + (s.length - i) / 8, table') := by
  have hu : usub s.length 7 = s.length - 7 := usub_of_le _ _ h7 hN
  intro fuel
  induction fuel with
  | zero => intro i k table _ hf; omega
  | succ fuel ih =>
    intro i k table hi hf
    rw [poker8Loop]
    simp only [hu]
    by_cases hlt : i < s.length - 7
    · rw [if_pos hlt]
      obtain ⟨byte, hb⟩ := poker8Byte_isSome s i (by omega)
      have hmod : (i + 8) % ULONG_SIZE = i + 8 := Nat.mod_eq_of_lt (by omega)
      simp only [hb, hmod]
      obtain ⟨t', ht'⟩ := ih (i + 8) (k + 1) (table.set byte (table.getD byte 0 + 1))
        (by omega) (by omega)
      refine ⟨t', ?_⟩
      have hk : k + 1 + (s.length - (i + 8)) / 8 = k + (s.length - i) / 8 := by omega
      rw [ht', hk]
    · rw [if_neg hlt]
      refine ⟨table, ?_⟩
      have hk : (s.length - i) / 8 = 0 := by omega
      rw [hk, Nat.add_zero]

/-- For a sequence of at least 7 elements the block loop of `TestPoker8`
returns with `k = floor(length/8)`. -/
theorem poker8Tally_blocks (s : List Nat) (h7 : 7 ≤ s.length) (hN : s.length < ULONG_SIZE) :
    ∃ table, poker8Tally s = Outcome.done (s.length / 8, table) := by
  obtain ⟨t, ht⟩ := poker8Loop_blocks s h7 hN (s.length + 1) 0 0 (List.replicate 256 0)
    (Nat.zero_le _) (by omega)
  refine ⟨t, ?_⟩
  unfold poker8Tally
  rw [ht]
  simp

/-- C6, at the failing input: on the sequence 1,0,1 of length 3 the bound
`length-7` of the block loop wraps to `2^64 - 4`, the loop body is entered at
`i = 0` and reads `sequence[7]`, outside the sequence. -/
theorem poker8_short_sequence :
    usub [1, 0, 1].length 7 = 2 ^ 64 - 4 ∧
    poker8Tally [1, 0, 1] = Outcome.memoryFault := by
  constructor
  · decide
  · decide

/-! ## Facts about TestRuns -/

theorem runsBreakIndex_20 : runsBreakIndex 20 = 1 := by
  simp [runsBreakIndex, List.range_succ, runsE, usub, ULONG_SIZE]
  norm_num

theorem runsK_20 : runsK 20 = 0 := by
  rw [runsK, runsBreakIndex_20]; decide

/-- The branch `k>19` of `TestRuns`: whenever the function returns on a
sequence with `k > 19`, no verdict is assigned and the detail is the
`unsupported length` one. -/
theorem runs_unsupported_above_19 (s : List Nat) (r : TestResult)
    (hk : runsK s.length > 19) (hr : TestRuns s = some r) :
    r.pass = none ∧ r.extra = Extra.unsupportedLength (runsK s.length) ∧
      r.corrhi = 0 ∧ r.corrlo = 0 := by
  unfold TestRuns at hr
  simp only [Option.bind_eq_bind, Option.bind_eq_some] at hr
  obtain ⟨st, _, x, _, hx⟩ := hr
  rw [if_pos hk] at hx
  cases hx
  exact ⟨rfl, rfl, rfl, rfl⟩

/-- C7, at the failing input: on the all-zero sequence of length 20 the
derived parameter is `k = 0`, and `TestRuns` takes the thresholds
`corrhi[0] = corrlo[0] = 0` from its tables, writes the detail `k=0` and
assigns the verdict OK. -/
theorem runs_short_sequence :
    runsK (List.replicate 20 0).length = 0 ∧
    (TestRuns (List.replicate 20 0)).map (fun r => (r.corrhi, r.corrlo, r.pass, r.extra))
      = some (0, 0, some Verdict.OK, Extra.runsK 0) := by
  have hk : runsK (List.replicate 20 0).length = 0 := by simpa using runsK_20
  refine ⟨hk, ?_⟩
  have hscan : runsScan (List.replicate 20 0) 0
      = some { bl := 0, gl := 20, rt := 0, b := [0], g := [0] } := by decide
  simp only [TestRuns, hk, hscan]
  simp [runsStatistic, runsCorrhi, runsCorrlo, threeWay]
  norm_num

/-! ## Facts about TestSerial -/

/-- C8, refuted as stated: on the alternating sequence of 20 elements the
counters of `TestSerial` are not `n0 = n1 = 10, n00 = 0, n01 = 9, n10 = 9, n11 = 0`. -/
theorem serial_alternating_not_nine :
    serialCounts alternating20 ≠
      some { n0 := 10, n1 := 10, n00 := 0, n01 := 9, n10 := 9, n11 := 0 } := by
  decide

/-- C8, amended: on the alternating sequence 0,1,0,1,... of 20 elements the
counters of `TestSerial` are `n0 = n1 = 10`, `n00 = 0`, `n11 = 0`, `n01 = 10`
and `n10 = 9`, and the statistic is the value of the formula on these counts,
`363/19`. -/
theorem serial_alternating :
    serialCounts alternating20 =
      some { n0 := 10, n1 := 10, n00 := 0, n01 := 10, n10 := 9, n11 := 0 } ∧
    (TestSerial alternating20).map (fun r => r.result) =
      some (serialStatistic { n0 := 10, n1 := 10, n00 := 0, n01 := 10, n10 := 9, n11 := 0 } 20) ∧
    serialStatistic { n0 := 10, n1 := 10, n00 := 0, n01 := 10, n10 := 9, n11 := 0 } 20
      = FloatValue.num
          (4 * (0 ^ 2 + 10 ^ 2 + 9 ^ 2 + 0 ^ 2) / (20 - 1) - 2 * (10 ^ 2 + 10 ^ 2) / 20 + 1) := by
  have hc : serialCounts alternating20 =
      some { n0 := 10, n1 := 10, n00 := 0, n01 := 10, n10 := 9, n11 := 0 } := by decide
  refine ⟨hc, ?_, ?_⟩
  · simp only [TestSerial, hc]
    rfl
  · rw [serialStatistic_num _ 20 (by norm_num)]
    congr 1
    norm_num [ULONG_SIZE]

/-! ## Facts about TestFrequency -/

theorem frequencyCounts_foldl (s : List Nat) (a b : Nat) :
    s.foldl (fun c x => if x = 0 then (c.1 + 1, c.2) else (c.1, c.2 + 1)) (a, b) =
      (a + countZero s, b + countOther s) := by
  induction s generalizing a b with
  | nil => simp [countZero, countOther]
  | cons x rest ih =>
    by_cases hx : x = 0
    · simp [List.foldl_cons, ih, hx, countZero, countOther]
      omega
    · simp [List.foldl_cons, ih, hx, countZero, countOther]
      omega

theorem frequencyCounts_eq (s : List Nat) :
    frequencyCounts s = (countZero s, countOther s) := by
  unfold frequencyCounts
  rw [frequencyCounts_foldl]
  simp

theorem countZero_add_countOther (s : List Nat) : countZero s + countOther s = s.length := by
  induction s with
  | nil => rfl
  | cons x rest ih =>
    by_cases hx : x = 0
    · simp [countZero, countOther, hx]; omega
    · simp [countZero, countOther, hx]; omega

theorem complement_count (s : List Nat) (hs : ∀ x ∈ s, x ≤ 1) :
    countZero (complement s) = countOther s ∧ countOther (complement s) = countZero s := by
  induction s with
  | nil => exact ⟨rfl, rfl⟩
  | cons x rest ih =>
    have hx : x ≤ 1 := hs x (List.mem_cons_self _ _)
    have ih2 := ih (fun y hy => hs y (List.mem_cons_of_mem _ hy))
    unfold complement at ih2 ⊢
    interval_cases x
    · simp [countZero, countOther, ih2.1, ih2.2]
    · simp [countZero, countOther, ih2.1, ih2.2]

/-- C10: for a sequence of length `n ≥ 1` the statistic of `TestFrequency`
is `(n0 - n1)^2 / n` as a rational, where `n0` is the number of elements equal
to 0 and `n1` the number of other elements; these are the reported counts,
the divisor `n` is not 0, `n0 + n1 = n`, and the statistic is 0 when
`n0 = n1`. -/
theorem frequency_statistic (s : List Nat) (hn : 1 ≤ s.length) :
    (TestFrequency s).result =
      (((countZero s : Nat) : ℚ) - ((countOther s : Nat) : ℚ)) ^ 2
        / (s.length : ℚ) ∧
    (s.length : ℚ) ≠ 0 ∧
    (TestFrequency s).extra =
      Extra.counts (countZero s) (countOther s) ∧
    countZero s + countOther s = s.length ∧
    (countZero s = countOther s → (TestFrequency s).result = 0) := by
  refine ⟨?_, ?_, ?_, countZero_add_countOther s, ?_⟩
  · simp only [TestFrequency, frequencyCounts_eq, frequencyStatistic]
    ring
  · have : (0 : ℚ) < (s.length : ℚ) := by exact_mod_cast hn
    exact ne_of_gt this
  · simp only [TestFrequency, frequencyCounts_eq]
  · intro h
    simp only [TestFrequency, frequencyCounts_eq, frequencyStatistic]
    rw [h]
    simp

/-- C10, witness: the alternating sequence of 20 elements has
`n0 = n1 = 10` and statistic 0. -/
theorem frequency_statistic_witness :
    (TestFrequency [0,1,0,1,0,1,0,1,0,1,0,1,0,1,0,1,0,1,0,1]).extra = Extra.counts 10 10 ∧
    (TestFrequency [0,1,0,1,0,1,0,1,0,1,0,1,0,1,0,1,0,1,0,1]).result = 0 :=
  ⟨(frequency_statistic [0,1,0,1,0,1,0,1,0,1,0,1,0,1,0,1,0,1,0,1] (by decide)).2.2.1,
   (frequency_statistic [0,1,0,1,0,1,0,1,0,1,0,1,0,1,0,1,0,1,0,1] (by decide)).2.2.2.2
     (by decide)⟩

/-- C9: for a sequence of bits of length `n ≥ 1`, complementing every bit
leaves the statistic and the verdict of `TestFrequency` unchanged and
exchanges the reported counts `n0` and `n1`. -/
theorem frequency_complement (s : List Nat) (hs : ∀ x ∈ s, x ≤ 1) (_hn : 1 ≤ s.length) :
    (TestFrequency (complement s)).result = (TestFrequency s).result ∧
    (TestFrequency (complement s)).pass = (TestFrequency s).pass ∧
    (TestFrequency s).extra = Extra.counts (countZero s) (countOther s) ∧
    (TestFrequency (complement s)).extra = Extra.counts (countOther s) (countZero s) := by
  have hc := complement_count s hs
  have hlen : (complement s).length = s.length := by simp [complement]
  have hres : (TestFrequency (complement s)).result = (TestFrequency s).result := by
    simp only [TestFrequency, frequencyCounts_eq, frequencyStatistic, hc.1, hc.2, hlen]
    ring
  refine ⟨hres, ?_, ?_, ?_⟩
  · simp only [TestFrequency, frequencyCounts_eq, frequencyStatistic, hc.1, hc.2, hlen]
    congr 2
    ring
  · simp only [TestFrequency, frequencyCounts_eq]
  · simp only [TestFrequency, frequencyCounts_eq, hc.1, hc.2]

/-- C9, witness: the sequence 0,0,1 and its complement 1,1,0. -/
theorem frequency_complement_witness :
    (TestFrequency (complement [0, 0, 1])).result = (TestFrequency [0, 0, 1]).result ∧
    (TestFrequency (complement [0, 0, 1])).pass = (TestFrequency [0, 0, 1]).pass ∧
    (TestFrequency [0, 0, 1]).extra = Extra.counts (countZero [0, 0, 1]) (countOther [0, 0, 1]) ∧
    (TestFrequency (complement [0, 0, 1])).extra =
      Extra.counts (countOther [0, 0, 1]) (countZero [0, 0, 1]) :=
  frequency_complement [0, 0, 1] (by decide) (by decide)

/-! ## Memory safety of the loop of TestLinearComplexity -/

theorem discrepancy_isSome (C s : List Nat) (n d0 : Nat) (hn : n < s.length)
    (hN : s.length < ULONG_SIZE) :
    ∀ L, L ≤ n → L < C.length → ∃ d, discrepancy C s n L d0 = some d := by
  intro L
  induction L with
  | zero =>
    intro _ _
    exact ⟨d0, by simp [discrepancy]⟩
  | succ L ih =>
    intro hL hLC
    obtain ⟨d, hd⟩ := ih (by omega) (by omega)
    have hu : usub n (L + 1) = n - (L + 1) := usub_of_le _ _ hL (by omega)
    have hcr : C[L + 1]? = some (C.getD (L + 1) 0) := getElem?_eq_some_getD _ _ hLC
    have hsr : s[n - (L + 1)]? = some (s.getD (n - (L + 1)) 0) :=
      getElem?_eq_some_getD _ _ (by omega)
    refine ⟨d ^^^ (C.getD (L + 1) 0 &&& s.getD (n - (L + 1)) 0), ?_⟩
    unfold discrepancy at hd ⊢
    rw [List.range_succ, List.map_append, List.foldlM_append, hd]
    simp only [List.map_cons, List.map_nil, List.foldlM_cons, List.foldlM_nil,
      Option.bind_eq_bind, Option.some_bind, hu, hcr, hsr]
    rfl

theorem lcStep_safe (s : List Nat) (hN : s.length < ULONG_SIZE) (n : Nat) (hn : n < s.length)
    (st : LCState) (h : LCSafe s.length n st) :
    ∃ st', lcStep s st n = some st' ∧ LCSafe s.length (n + 1) st' := by
  obtain ⟨d, hdisc⟩ := discrepancy_isSome st.C s n (s.getD n 0) hn hN st.L h.L_le
    (by rw [h.lenC]; have := h.L_le; omega)
  have hsn : s[n]? = some (s.getD n 0) := getElem?_eq_some_getD _ _ hn
  by_cases hd0 : d = 0
  · refine ⟨st, ?_, ?_⟩
    · unfold lcStep
      simp only [hsn, hdisc, Option.bind_eq_bind, Option.some_bind]
      rw [if_neg (by simp [hd0])]
      rfl
    · refine ⟨h.lenC, h.lenB, h.lenT, by have := h.L_le; omega, ?_⟩
      rcases h.m_ok with h1 | h2
      · exact Or.inl h1
      · exact Or.inr (by omega)
  · obtain ⟨T1, hT1, hT1len, _⟩ := memcpy_spec st.T st.C (n + 1)
      (by rw [h.lenC]; omega) (by rw [h.lenT]; omega)
    have hsh : 1 ≤ usub n st.m ∧ usub n st.m ≤ n + 1 := by
      rcases h.m_ok with h1 | h2
      · rw [h1, usub_minus_one n (by omega)]
        omega
      · rw [usub_of_le _ _ (by omega) (by omega)]
        omega
    obtain ⟨C1, hC1, hC1len, _⟩ := xorLoop_spec st.B (usub n st.m) (n + 2 - usub n st.m) st.C
      (by rw [h.lenC]; omega) (by rw [h.lenB]; omega)
    have hxor : xorShift st.C st.B n st.m = some C1 := hC1
    by_cases hLn : st.L ≤ n / 2
    · obtain ⟨B1, hB1, hB1len, _⟩ := memcpy_spec st.B T1 (n + 1)
        (by rw [hT1len, h.lenT]; omega) (by rw [h.lenB]; omega)
      refine ⟨{ C := C1, B := B1, T := T1, L := n + 1 - st.L, m := n }, ?_, ?_⟩
      · unfold lcStep
        simp only [hsn, hdisc, Option.bind_eq_bind, Option.some_bind]
        rw [if_pos (by simpa using hd0)]
        simp only [hT1, hxor, Option.bind_eq_bind, Option.some_bind]
        rw [if_pos hLn]
        simp only [hB1, Option.bind_eq_bind, Option.some_bind]
        rfl
      · refine ⟨by rw [hC1len]; exact h.lenC, by rw [hB1len]; exact h.lenB,
          by rw [hT1len]; exact h.lenT, ?_, ?_⟩
        · show n + 1 - st.L ≤ n + 1
          omega
        · exact Or.inr (Nat.lt_succ_self n)
    · refine ⟨{ st with C := C1, T := T1 }, ?_, ?_⟩
      · unfold lcStep
        simp only [hsn, hdisc, Option.bind_eq_bind, Option.some_bind]
        rw [if_pos (by simpa using hd0)]
        simp only [hT1, hxor, Option.bind_eq_bind, Option.some_bind]
        rw [if_neg hLn]
        rfl
      · refine ⟨by rw [hC1len]; exact h.lenC, h.lenB, by rw [hT1len]; exact h.lenT, ?_, ?_⟩
        · show st.L ≤ n + 1
          have := h.L_le; omega
        · rcases h.m_ok with h1 | h2
          · exact Or.inl h1
          · exact Or.inr (by show st.m < n + 1; omega)

theorem lcInit_safe (heapC heapB heapT : Nat → Nat) (N : Nat) :
    LCSafe N 0 (lcInit heapC heapB heapT N) :=
  ⟨by simp [lcInit], by simp [lcInit], by simp [lcInit], Nat.le_refl _, Or.inl rfl⟩

theorem lcLoop_safe (heapC heapB heapT : Nat → Nat) (s : List Nat)
    (hN : s.length < ULONG_SIZE) :
    ∀ n, n ≤ s.length →
      ∃ st, (List.range n).foldlM (lcStep s) (lcInit heapC heapB heapT s.length) = some st ∧
        LCSafe s.length n st := by
  intro n
  induction n with
  | zero =>
    intro _
    exact ⟨_, rfl, lcInit_safe heapC heapB heapT s.length⟩
  | succ n ih =>
    intro hn
    obtain ⟨st, hst, hsafe⟩ := ih (by omega)
    obtain ⟨st', hstep, hsafe'⟩ := lcStep_safe s hN n (by omega) st hsafe
    refine ⟨st', ?_, hsafe'⟩
    rw [List.range_succ, List.foldlM_append, hst]
    simp only [Option.bind_eq_bind, Option.some_bind, List.foldlM_cons, List.foldlM_nil, hstep]
    rfl

theorem linearComplexity_isSome (heapC heapB heapT : Nat → Nat) (s : List Nat)
    (hN : s.length < ULONG_SIZE) :
    ∃ L, linearComplexity heapC heapB heapT s = some L ∧ L ≤ s.length := by
  obtain ⟨st, hst, hsafe⟩ := lcLoop_safe heapC heapB heapT s hN s.length (Nat.le_refl _)
  refine ⟨st.L, ?_, hsafe.L_le⟩
  unfold linearComplexity lcLoop
  rw [hst]
  rfl

/-- C19: in `TestLinearComplexity`, for every sequence (of a length that an
`unsigned long` holds) and whatever the contents of the buffers, the state at
the start of every iteration `n` exists (no access leaves its buffer) and has
`L ≤ n` and `m = -1` or `m < n`; every index `n-i` read in the discrepancy
loop for `1 ≤ i ≤ L` is below `n`, every index written in `C` at iteration
`n < N` is at most `n+1 ≤ N`, and the loop ends with `L ≤ N`. -/
theorem linearComplexity_indices (heapC heapB heapT : Nat → Nat) (s : List Nat)
    (hN : s.length < ULONG_SIZE) :
    (∀ n, n ≤ s.length →
      ∃ st, (List.range n).foldlM (lcStep s) (lcInit heapC heapB heapT s.length) = some st ∧
        st.L ≤ n ∧ (st.m = ULONG_SIZE - 1 ∨ st.m < n) ∧
        (∀ i, 1 ≤ i → i ≤ st.L → usub n i < n) ∧
        (n < s.length → ∀ j, j < n + 2 - usub n st.m →
          usub n st.m + j ≤ n + 1 ∧ n + 1 ≤ s.length)) ∧
    ∃ L, linearComplexity heapC heapB heapT s = some L ∧ 0 ≤ L ∧ L ≤ s.length := by
  constructor
  · intro n hn
    obtain ⟨st, hst, hsafe⟩ := lcLoop_safe heapC heapB heapT s hN n hn
    refine ⟨st, hst, hsafe.L_le, hsafe.m_ok, ?_, ?_⟩
    · intro i hi1 hi2
      have := hsafe.L_le
      rw [usub_of_le _ _ (by omega) (by omega)]
      omega
    · intro hlt j hj
      omega
  · obtain ⟨L, hL, hle⟩ := linearComplexity_isSome heapC heapB heapT s hN
    exact ⟨L, hL, Nat.zero_le _, hle⟩

/-- C19, witness: the sequence 1,0,1,0,0 with a non-zero byte in the buffer
`B`. -/
theorem linearComplexity_indices_witness :
    ∃ L, linearComplexity zeroHeap heapOneAt1 zeroHeap seq10100 = some L ∧ 0 ≤ L ∧
      L ≤ seq10100.length :=
  (linearComplexity_indices zeroHeap heapOneAt1 zeroHeap seq10100 (by decide)).2

/-- C14: for every sequence of length `n ≥ 1` (that an `unsigned long` holds)
and whatever the contents of the buffers, `TestLinearComplexity` returns a
result whose statistic is the computed `L`, whose two thresholds are `n/2`,
and whose verdict is OK exactly when `2*L ≥ n` and FAILED otherwise, never
MARGINAL. -/
theorem linearComplexity_verdict (heapC heapB heapT : Nat → Nat) (s : List Nat)
    (hn : 1 ≤ s.length) (hN : s.length < ULONG_SIZE) :
    ∃ r L, TestLinearComplexity heapC heapB heapT s = some r ∧
      linearComplexity heapC heapB heapT s = some L ∧
      r.result = (L : ℚ) ∧ r.corrhi = (s.length : ℚ) / 2 ∧ r.corrlo = (s.length : ℚ) / 2 ∧
      (s.length : ℚ) / 2 ≠ 0 ∧
      (r.pass = some Verdict.OK ↔ s.length ≤ 2 * L) ∧
      (r.pass = some Verdict.FAILED ↔ 2 * L < s.length) ∧
      r.pass ≠ some Verdict.MEH := by
  obtain ⟨L, hL, _⟩ := linearComplexity_isSome heapC heapB heapT s hN
  have hiff : ((L : ℚ) ≥ (s.length : ℚ) / 2) ↔ s.length ≤ 2 * L := by
    rw [ge_iff_le, div_le_iff₀ (by norm_num : (0 : ℚ) < 2)]
    constructor
    · intro h
      have h2 : ((s.length : ℕ) : ℚ) ≤ ((2 * L : ℕ) : ℚ) := by push_cast; linarith
      exact_mod_cast h2
    · intro h
      have h2 : ((s.length : ℕ) : ℚ) ≤ ((2 * L : ℕ) : ℚ) := by exact_mod_cast h
      push_cast at h2; linarith
  have hne : (s.length : ℚ) / 2 ≠ 0 := by
    have : (0 : ℚ) < (s.length : ℚ) := by exact_mod_cast hn
    positivity
  refine ⟨_, L, by simp only [TestLinearComplexity, hL, Option.bind_eq_bind, Option.some_bind]; rfl,
    hL, rfl, rfl, rfl, hne, ?_, ?_, ?_⟩
  · by_cases h : s.length ≤ 2 * L
    · simp [hiff.mpr h, h]
    · simp [mt hiff.mp h, h]
  · by_cases h : s.length ≤ 2 * L
    · simp [hiff.mpr h]; omega
    · simp [mt hiff.mp h]; omega
  · by_cases h : s.length ≤ 2 * L
    · simp [hiff.mpr h]
    · simp [mt hiff.mp h]

/-- C14, witness: the sequence 1,0,1,0,0 with zero-filled buffers. -/
theorem linearComplexity_verdict_witness :
    ∃ r L, TestLinearComplexity zeroHeap zeroHeap zeroHeap seq10100 = some r ∧
      linearComplexity zeroHeap zeroHeap zeroHeap seq10100 = some L ∧
      r.result = (L : ℚ) ∧ r.corrhi = (seq10100.length : ℚ) / 2 ∧
      r.corrlo = (seq10100.length : ℚ) / 2 ∧
      (seq10100.length : ℚ) / 2 ≠ 0 ∧
      (r.pass = some Verdict.OK ↔ seq10100.length ≤ 2 * L) ∧
      (r.pass = some Verdict.FAILED ↔ 2 * L < seq10100.length) ∧
      r.pass ≠ some Verdict.MEH :=
  linearComplexity_verdict zeroHeap zeroHeap zeroHeap seq10100 (by decide) (by decide)

/-! ## The verdict chain -/

theorem threeWay_isThreeWay (x hi lo : ℚ) (h : hi ≤ lo) :
    IsThreeWay x hi lo (some (threeWay x hi lo)) := by
  unfold IsThreeWay threeWay
  refine ⟨h, ?_, ?_, ?_⟩
  · split_ifs with h1 h2
    · exact ⟨fun _ => h1, fun _ => rfl⟩
    · exact ⟨fun e => (by cases e), fun e => absurd e h1⟩
    · exact ⟨fun e => (by cases e), fun e => absurd e h1⟩
  · split_ifs with h1 h2
    · exact ⟨fun e => (by cases e), fun e => absurd (le_trans h1 h) (not_le.mpr e)⟩
    · exact ⟨fun e => (by cases e), fun e => absurd h2 (not_le.mpr e)⟩
    · exact ⟨fun _ => lt_of_not_le h2, fun _ => rfl⟩
  · split_ifs with h1 h2
    · exact ⟨fun e => (by cases e), fun e => absurd h1 (not_le.mpr e.1)⟩
    · exact ⟨fun _ => ⟨lt_of_not_le h1, h2⟩, fun _ => rfl⟩
    · exact ⟨fun e => (by cases e), fun e => absurd e.2 h2⟩

theorem threeWayReal_isThreeWay (x hi lo : ℝ) (h : hi ≤ lo) :
    IsThreeWay x hi lo (some (threeWayReal x hi lo)) := by
  unfold IsThreeWay threeWayReal
  refine ⟨h, ?_, ?_, ?_⟩
  · split_ifs with h1 h2
    · exact ⟨fun _ => h1, fun _ => rfl⟩
    · exact ⟨fun e => (by cases e), fun e => absurd e h1⟩
    · exact ⟨fun e => (by cases e), fun e => absurd e h1⟩
  · split_ifs with h1 h2
    · exact ⟨fun e => (by cases e), fun e => absurd (le_trans h1 h) (not_le.mpr e)⟩
    · exact ⟨fun e => (by cases e), fun e => absurd h2 (not_le.mpr e)⟩
    · exact ⟨fun _ => lt_of_not_le h2, fun _ => rfl⟩
  · split_ifs with h1 h2
    · exact ⟨fun e => (by cases e), fun e => absurd h1 (not_le.mpr e.1)⟩
    · exact ⟨fun _ => ⟨lt_of_not_le h1, h2⟩, fun _ => rfl⟩
    · exact ⟨fun e => (by cases e), fun e => absurd e.2 h2⟩

/-! ## The counters of TestSerial -/

theorem countP_range_succ (p : Nat → Bool) (j : Nat) :
    (List.range (j + 1)).countP p = (List.range j).countP p + (if p j then 1 else 0) := by
  rw [List.range_succ, List.countP_append]
  simp [List.countP_cons]

theorem getD_le_one_of_bits (s : List Nat) (hbits : ∀ x ∈ s, x ≤ 1) (i : Nat) :
    s.getD i 0 ≤ 1 := by
  by_cases hi : i < s.length
  · rw [List.getD_eq_getElem _ _ hi]
    exact hbits _ (List.getElem_mem hi)
  · rw [List.getD_eq_default _ _ (by omega)]
    omega

theorem serialStep_spec (s : List Nat) (hs : ∀ i, s.getD i 0 ≤ 1) (j : Nat)
    (hj : j + 1 < s.length) (c : SerialCounts) :
    serialStep s c j = some
      { n0 := c.n0 + (if s.getD j 0 = 0 then 1 else 0)
        n1 := c.n1 + (if s.getD j 0 = 1 then 1 else 0)
        n00 := c.n00 + (if s.getD j 0 = 0 ∧ s.getD (j + 1) 0 = 0 then 1 else 0)
        n01 := c.n01 + (if s.getD j 0 = 0 ∧ s.getD (j + 1) 0 = 1 then 1 else 0)
        n10 := c.n10 + (if s.getD j 0 = 1 ∧ s.getD (j + 1) 0 = 0 then 1 else 0)
        n11 := c.n11 + (if s.getD j 0 = 1 ∧ s.getD (j + 1) 0 = 1 then 1 else 0) } := by
  have hx : s[j]? = some (s.getD j 0) := getElem?_eq_some_getD _ _ (by omega)
  have hy : s[j + 1]? = some (s.getD (j + 1) 0) := getElem?_eq_some_getD _ _ hj
  have hx1 := hs j
  have hy1 := hs (j + 1)
  unfold serialStep
  simp only [hx, hy, Option.bind_eq_bind, Option.some_bind]
  generalize s.getD j 0 = x at hx1
  generalize s.getD (j + 1) 0 = y at hy1
  interval_cases x <;> interval_cases y <;> rfl

theorem serialLoop_spec (s : List Nat) (hs : ∀ i, s.getD i 0 ≤ 1) :
    ∀ j, j + 1 ≤ s.length →
      (List.range j).foldlM (serialStep s)
          { n0 := 0, n1 := 0, n00 := 0, n01 := 0, n10 := 0, n11 := 0 } =
        some { n0 := indexCountBelow s 0 j
               n1 := indexCountBelow s 1 j
               n00 := pairCountBelow s 0 0 j
               n01 := pairCountBelow s 0 1 j
               n10 := pairCountBelow s 1 0 j
               n11 := pairCountBelow s 1 1 j } := by
  intro j
  induction j with
  | zero => intro _; rfl
  | succ j ih =>
    intro hj
    rw [List.range_succ, List.foldlM_append, ih (by omega)]
    simp only [Option.bind_eq_bind, Option.some_bind, List.foldlM_cons, List.foldlM_nil]
    rw [serialStep_spec s hs j (by omega)]
    simp only [indexCountBelow, pairCountBelow, countP_range_succ, decide_eq_true_eq]
    rfl

theorem indexCountBelow_succ (s : List Nat) (a j : Nat) :
    indexCountBelow s a (j + 1) =
      indexCountBelow s a j + (if s.getD j 0 = a then 1 else 0) := by
  simp only [indexCountBelow, countP_range_succ, decide_eq_true_eq]

theorem pairCountBelow_succ (s : List Nat) (a b j : Nat) :
    pairCountBelow s a b (j + 1) =
      pairCountBelow s a b j + (if s.getD j 0 = a ∧ s.getD (j + 1) 0 = b then 1 else 0) := by
  simp only [pairCountBelow, countP_range_succ, decide_eq_true_eq]

theorem indexCountBelow_add (s : List Nat) (hs : ∀ i, s.getD i 0 ≤ 1) (j : Nat) :
    indexCountBelow s 0 j + indexCountBelow s 1 j = j := by
  induction j with
  | zero => rfl
  | succ j ih =>
    rw [indexCountBelow_succ, indexCountBelow_succ]
    have h := hs j
    generalize s.getD j 0 = x at h
    interval_cases x <;> simp <;> omega

theorem pairCountBelow_add (s : List Nat) (hs : ∀ i, s.getD i 0 ≤ 1) (j : Nat) :
    pairCountBelow s 0 0 j + pairCountBelow s 0 1 j + pairCountBelow s 1 0 j
      + pairCountBelow s 1 1 j = j := by
  induction j with
  | zero => rfl
  | succ j ih =>
    rw [pairCountBelow_succ, pairCountBelow_succ, pairCountBelow_succ, pairCountBelow_succ]
    have hx := hs j
    have hy := hs (j + 1)
    generalize s.getD j 0 = x at hx
    generalize s.getD (j + 1) 0 = y at hy
    interval_cases x <;> interval_cases y <;> simp <;> omega

theorem serialCounts_spec (s : List Nat) (hs : ∀ i, s.getD i 0 ≤ 1) (hn : 1 ≤ s.length)
    (hN : s.length < ULONG_SIZE) :
    serialCounts s = some
      { n0 := indexCount s 0, n1 := indexCount s 1, n00 := pairCount s 0 0,
        n01 := pairCount s 0 1, n10 := pairCount s 1 0, n11 := pairCount s 1 1 } := by
  have hu : usub s.length 1 = s.length - 1 := usub_of_le _ _ hn hN
  have hz : s[s.length - 1]? = some (s.getD (s.length - 1) 0) :=
    getElem?_eq_some_getD _ _ (by omega)
  unfold serialCounts
  rw [hu, serialLoop_spec s hs (s.length - 1) (by omega)]
  simp only [Option.bind_eq_bind, Option.some_bind, hz]
  have hlen : s.length = (s.length - 1) + 1 := by omega
  have h0 : indexCount s 0 = indexCountBelow s 0 (s.length - 1)
      + (if s.getD (s.length - 1) 0 = 0 then 1 else 0) := by
    unfold indexCount
    conv_lhs => rw [hlen]
    simp only [indexCountBelow, countP_range_succ, decide_eq_true_eq]
  have h1 : indexCount s 1 = indexCountBelow s 1 (s.length - 1)
      + (if s.getD (s.length - 1) 0 = 1 then 1 else 0) := by
    unfold indexCount
    conv_lhs => rw [hlen]
    simp only [indexCountBelow, countP_range_succ, decide_eq_true_eq]
  rw [h0, h1]
  unfold pairCount
  have hb := hs (s.length - 1)
  generalize s.getD (s.length - 1) 0 = x at hb
  interval_cases x <;> rfl

theorem sum_sq_le_sq (a b c d m : Nat) (h : a + b + c + d = m) :
    a * a + b * b + c * c + d * d ≤ m * m := by
  subst h
  nlinarith [Nat.zero_le (a * b), Nat.zero_le (a * c), Nat.zero_le (a * d), Nat.zero_le (b * c),
    Nat.zero_le (b * d), Nat.zero_le (c * d)]

theorem sum_sq_le_sq2 (a b m : Nat) (h : a + b = m) : a * a + b * b ≤ m * m := by
  subst h
  nlinarith [Nat.zero_le (a * b)]

/-- C12: for every sequence of bits of length `n ≥ 2`, with `n < 2^32` so that
the squared counts do not overflow, `TestSerial` returns, its counters are the
numbers `n_ab` of indices `i` in `0..n-2` with `(s[i], s[i+1]) = (a, b)` and
`n_a` of indices `i` in `0..n-1` with `s[i] = a`, its statistic is
`4*(n00^2+n01^2+n10^2+n11^2)/(n-1) - 2*(n0^2+n1^2)/n + 1` as a rational (the
two divisors being non-zero), and `n00+n01+n10+n11 = n-1`, `n0+n1 = n`. -/
theorem serial_statistic (s : List Nat) (hbits : ∀ x ∈ s, x ≤ 1) (hn : 2 ≤ s.length)
    (hsmall : s.length < 2 ^ 32) :
    ∃ r, TestSerial s = some r ∧
      serialCounts s = some
        { n0 := indexCount s 0, n1 := indexCount s 1, n00 := pairCount s 0 0,
          n01 := pairCount s 0 1, n10 := pairCount s 1 0, n11 := pairCount s 1 1 } ∧
      r.result = FloatValue.num
        (4 * ((pairCount s 0 0 : ℚ) ^ 2 + (pairCount s 0 1 : ℚ) ^ 2 + (pairCount s 1 0 : ℚ) ^ 2
            + (pairCount s 1 1 : ℚ) ^ 2) / ((s.length : ℚ) - 1)
          - 2 * ((indexCount s 0 : ℚ) ^ 2 + (indexCount s 1 : ℚ) ^ 2) / (s.length : ℚ) + 1) ∧
      (s.length : ℚ) - 1 ≠ 0 ∧ (s.length : ℚ) ≠ 0 ∧
      pairCount s 0 0 + pairCount s 0 1 + pairCount s 1 0 + pairCount s 1 1 = s.length - 1 ∧
      indexCount s 0 + indexCount s 1 = s.length := by
  have hs := getD_le_one_of_bits s hbits
  have hN : s.length < ULONG_SIZE := by unfold ULONG_SIZE; omega
  have hc := serialCounts_spec s hs (by omega) hN
  have hp := pairCountBelow_add s hs (s.length - 1)
  have hi := indexCountBelow_add s hs s.length
  have hp' : pairCount s 0 0 + pairCount s 0 1 + pairCount s 1 0 + pairCount s 1 1
      = s.length - 1 := hp
  have hi' : indexCount s 0 + indexCount s 1 = s.length := hi
  have hsq1 := sum_sq_le_sq _ _ _ _ _ hp'
  have hsq2 := sum_sq_le_sq2 _ _ _ hi'
  have hnn : s.length * s.length < ULONG_SIZE := by
    unfold ULONG_SIZE
    have : s.length * s.length < 2 ^ 32 * 2 ^ 32 := Nat.mul_lt_mul'' hsmall hsmall
    norm_num at this ⊢
    exact this
  have hmm : (s.length - 1) * (s.length - 1) ≤ s.length * s.length :=
    Nat.mul_le_mul (Nat.sub_le _ _) (Nat.sub_le _ _)
  have hmod1 : (pairCount s 0 0 * pairCount s 0 0 + pairCount s 0 1 * pairCount s 0 1
      + pairCount s 1 0 * pairCount s 1 0 + pairCount s 1 1 * pairCount s 1 1) % ULONG_SIZE
      = pairCount s 0 0 * pairCount s 0 0 + pairCount s 0 1 * pairCount s 0 1
      + pairCount s 1 0 * pairCount s 1 0 + pairCount s 1 1 * pairCount s 1 1 :=
    Nat.mod_eq_of_lt (by omega)
  have hmod2 : (indexCount s 0 * indexCount s 0 + indexCount s 1 * indexCount s 1) % ULONG_SIZE
      = indexCount s 0 * indexCount s 0 + indexCount s 1 * indexCount s 1 :=
    Nat.mod_eq_of_lt (by omega)
  have hd1 : (s.length : ℚ) - 1 ≠ 0 := by
    have : (2 : ℚ) ≤ (s.length : ℚ) := by exact_mod_cast hn
    intro h0; linarith
  have hd2 : (s.length : ℚ) ≠ 0 := by
    have : (2 : ℚ) ≤ (s.length : ℚ) := by exact_mod_cast hn
    intro h0; linarith
  refine ⟨_, by simp only [TestSerial, hc, Option.bind_eq_bind, Option.some_bind]; rfl, hc, ?_,
    hd1, hd2, hp', hi'⟩
  show serialStatistic _ s.length = _
  rw [serialStatistic_num _ _ hn]
  simp only [hmod1, hmod2]
  refine congrArg FloatValue.num ?_
  push_cast
  ring

/-- C12, witness: the alternating sequence of 20 elements. -/
theorem serial_statistic_witness :
    ∃ r, TestSerial alternating20 = some r ∧
      serialCounts alternating20 = some
        { n0 := indexCount alternating20 0, n1 := indexCount alternating20 1,
          n00 := pairCount alternating20 0 0, n01 := pairCount alternating20 0 1,
          n10 := pairCount alternating20 1 0, n11 := pairCount alternating20 1 1 } ∧
      pairCount alternating20 0 1 = 10 ∧ pairCount alternating20 1 0 = 9 := by
  obtain ⟨r, hr, hc, _⟩ := serial_statistic alternating20 (by decide) (by decide) (by decide)
  exact ⟨r, hr, hc, by decide, by decide⟩

/-! ## The parameter k of TestRuns -/

theorem find_first_spec (p : Nat → Bool) :
    ∀ (m b : Nat), ((List.range m).map (fun j => j + 1)).find? p = some b →
      1 ≤ b ∧ b ≤ m ∧ p b = true ∧ ∀ i, 1 ≤ i → i < b → p i = false := by
  intro m
  induction m with
  | zero => intro b h; simp at h
  | succ m ih =>
    intro b h
    rw [List.range_succ, List.map_append, List.find?_append] at h
    cases hf : ((List.range m).map (fun j => j + 1)).find? p with
    | some b' =>
      rw [hf] at h
      simp only [Option.or_some] at h
      have hbb : b' = b := Option.some.inj h
      obtain ⟨h1, h2, h3, h4⟩ := ih b' hf
      rw [← hbb]
      exact ⟨h1, by omega, h3, h4⟩
    | none =>
      rw [hf] at h
      simp only [Option.none_or, List.map_cons, List.map_nil, List.find?_singleton] at h
      have hnone := List.find?_eq_none.mp hf
      by_cases hp : p (m + 1) = true
      · rw [if_pos hp] at h
        have hbb : m + 1 = b := Option.some.inj h
        rw [← hbb]
        refine ⟨by omega, Nat.le_refl _, hp, ?_⟩
        intro i hi1 hi2
        have hmem : i ∈ (List.range m).map (fun j => j + 1) := by
          rw [List.mem_map]
          exact ⟨i - 1, List.mem_range.mpr (by omega), by omega⟩
        have := hnone i hmem
        simpa using this
      · rw [if_neg hp] at h
        cases h

theorem runsE_eq_expectedRuns (n i : Nat) (hi : i ≤ n) (hN : n < ULONG_SIZE) :
    runsE n i = expectedRuns n i := by
  unfold runsE expectedRuns
  rw [usub_of_le _ _ hi hN, Nat.cast_sub hi]

theorem expectedRuns_ge_iff (n i : Nat) (hi : i ≤ n) :
    5 ≤ expectedRuns n i ↔ 5 * 2 ^ (i + 2) ≤ n - i + 3 := by
  unfold expectedRuns
  rw [le_div_iff₀ (by positivity)]
  have h1 : ((n : ℚ) - (i : ℚ) + 3) = ((n - i + 3 : Nat) : ℚ) := by
    rw [Nat.cast_add, Nat.cast_sub hi]; norm_num
  have h2 : (5 : ℚ) * 2 ^ (i + 2) = ((5 * 2 ^ (i + 2) : Nat) : ℚ) := by norm_num
  rw [h1, h2, Nat.cast_le]

theorem runsBreakIndex_spec (n : Nat) (hn : 1 ≤ n) (hN : n < ULONG_SIZE) :
    1 ≤ runsBreakIndex n ∧ runsBreakIndex n ≤ n ∧ runsE n (runsBreakIndex n) < 5 ∧
      ∀ i, 1 ≤ i → i < runsBreakIndex n → 5 ≤ runsE n i := by
  have hlast : runsE n n < 5 := by
    rw [runsE_eq_expectedRuns n n (Nat.le_refl _) hN]
    have := (expectedRuns_ge_iff n n (Nat.le_refl _)).not
    rw [not_le] at this
    rw [this]
    have : 0 < 2 ^ (n + 2) := Nat.pos_pow_of_pos _ (by norm_num)
    have h8 : 2 ^ 2 ≤ 2 ^ (n + 2) := Nat.pow_le_pow_right (by norm_num) (by omega)
    omega
  cases hf : ((List.range n).map (fun j => j + 1)).find? (fun i => decide (runsE n i < 5)) with
  | none =>
    exfalso
    have hnone := List.find?_eq_none.mp hf
    have hmem : n ∈ (List.range n).map (fun j => j + 1) := by
      rw [List.mem_map]
      exact ⟨n - 1, List.mem_range.mpr (by omega), by omega⟩
    have := hnone n hmem
    simp only [decide_eq_true_eq] at this
    exact this hlast
  | some b =>
    obtain ⟨h1, h2, h3, h4⟩ := find_first_spec _ n b hf
    have hb : runsBreakIndex n = b := by
      unfold runsBreakIndex
      rw [hf]
      rfl
    rw [hb]
    refine ⟨h1, h2, by simpa using h3, ?_⟩
    intro i hi1 hi2
    have := h4 i hi1 hi2
    simp only [decide_eq_false_iff_not, not_lt] at this
    exact this

/-- C16: for every length `n ≥ 1` (that an `unsigned long` holds) the scan for
`k` stops at an index `i ≤ n`, `k = i - 1`, `e[i] ≥ 5` (so `e[i] > 0`) for every
`i` in `1..k`, `e[k+1] < 5`, and `k` is the largest integer with `e[i] ≥ 5`
for all `1 ≤ i ≤ k`; `k ≥ 2` iff `n ≥ 79`, and `k ≤ 19` iff `n < 20971537`. -/
theorem runs_parameter (n : Nat) (hn : 1 ≤ n) (hN : n < ULONG_SIZE) :
    runsBreakIndex n ≤ n ∧ runsK n + 1 = runsBreakIndex n ∧
    (∀ i, 1 ≤ i → i ≤ runsK n →
      runsE n i = expectedRuns n i ∧ 5 ≤ expectedRuns n i ∧ 0 < expectedRuns n i) ∧
    runsE n (runsK n + 1) = expectedRuns n (runsK n + 1) ∧
    expectedRuns n (runsK n + 1) < 5 ∧
    (∀ k', (∀ i, 1 ≤ i → i ≤ k' → 5 ≤ expectedRuns n i) → k' ≤ runsK n) ∧
    (2 ≤ runsK n ↔ 79 ≤ n) ∧ (runsK n ≤ 19 ↔ n < 20971537) := by
  obtain ⟨hb1, hbn, hblt, hbge⟩ := runsBreakIndex_spec n hn hN
  have hk : runsK n = runsBreakIndex n - 1 := by
    unfold runsK
    exact usub_of_le _ _ hb1 (by omega)
  have hk1 : runsK n + 1 = runsBreakIndex n := by omega
  have hge : ∀ i, 1 ≤ i → i ≤ runsK n → 5 ≤ expectedRuns n i := by
    intro i hi1 hi2
    rw [← runsE_eq_expectedRuns n i (by omega) hN]
    exact hbge i hi1 (by omega)
  have hlt : expectedRuns n (runsK n + 1) < 5 := by
    rw [hk1, ← runsE_eq_expectedRuns n _ hbn hN]
    exact hblt
  have hmax : ∀ k', (∀ i, 1 ≤ i → i ≤ k' → 5 ≤ expectedRuns n i) → k' ≤ runsK n := by
    intro k' hk'
    by_contra hcon
    have := hk' (runsK n + 1) (by omega) (by omega)
    exact absurd hlt (not_lt.mpr this)
  refine ⟨hbn, hk1, ?_, ?_, hlt, hmax, ?_, ?_⟩
  · intro i hi1 hi2
    have h5 := hge i hi1 hi2
    exact ⟨runsE_eq_expectedRuns n i (by omega) hN, h5, by linarith⟩
  · exact runsE_eq_expectedRuns n _ (by omega) hN
  · constructor
    · intro h2
      have := (expectedRuns_ge_iff n 2 (by omega)).mp (hge 2 (by omega) h2)
      norm_num at this
      omega
    · intro h79
      apply hmax 2
      intro i hi1 hi2
      rw [expectedRuns_ge_iff n i (by omega)]
      have hi : i = 1 ∨ i = 2 := by omega
      rcases hi with rfl | rfl <;> norm_num <;> omega
  · constructor
    · intro h19
      by_contra hcon
      have h20 : 20 ≤ runsK n := by
        apply hmax 20
        intro i hi1 hi2
        rw [expectedRuns_ge_iff n i (by omega)]
        have hpow : 2 ^ (i + 2) ≤ 2 ^ 22 := Nat.pow_le_pow_right (by norm_num) (by omega)
        norm_num at hpow
        omega
      omega
    · intro hsmall
      by_contra hcon
      have h20 := (expectedRuns_ge_iff n 20 (by omega)).mp (hge 20 (by omega) (by omega))
      norm_num at h20
      omega

/-- C16, witness: the length 79 has `k = 2`. -/
theorem runs_parameter_witness : (2 ≤ runsK 79 ↔ 79 ≤ 79) ∧ (runsK 79 ≤ 19 ↔ 79 < 20971537) :=
  ⟨(runs_parameter 79 (by decide) (by decide)).2.2.2.2.2.2.1,
   (runs_parameter 79 (by decide) (by decide)).2.2.2.2.2.2.2⟩


/-! ## The scan of TestRuns -/

theorem runsK_eq (n k : Nat) (hn : k + 1 ≤ n) (hN : n < ULONG_SIZE)
    (hge : ∀ i, 1 ≤ i → i ≤ k → 5 ≤ expectedRuns n i) (hlt : expectedRuns n (k + 1) < 5) :
    runsK n = k := by
  obtain ⟨hb1, hbn, hblt, hbge⟩ := runsBreakIndex_spec n (by omega) hN
  have h1 : runsBreakIndex n ≤ k + 1 := by
    by_contra hcon
    have := hbge (k + 1) (by omega) (by omega)
    rw [runsE_eq_expectedRuns n (k + 1) hn hN] at this
    exact absurd hlt (not_lt.mpr this)
  have h2 : k + 1 ≤ runsBreakIndex n := by
    by_contra hcon
    have := hge (runsBreakIndex n) hb1 (by omega)
    rw [← runsE_eq_expectedRuns n _ hbn hN] at this
    exact absurd hblt (not_lt.mpr this)
  unfold runsK
  rw [usub_of_le _ _ hb1 (by omega)]
  omega

theorem runsK_38 : runsK 38 = 1 := by
  apply runsK_eq 38 1 (by norm_num) (by unfold ULONG_SIZE; norm_num)
  · intro i h1 h2
    have : i = 1 := by omega
    rw [this]
    unfold expectedRuns
    norm_num
  · unfold expectedRuns
    norm_num

/-- C15, at two failing inputs of length 38, where `k = 1`. On a 1 followed by
37 zeros there is one maximal run of 1s of length 1 and no maximal run of 0s
of length 1, and the scan of `TestRuns` ends with `b[1] = 0` and `g[1] = 1`:
the run of 1s is counted in `g`. On 37 zeros followed by a 1 there is again
one maximal run of 1s of length 1, and the scan ends with `b[1] = 0` and
`g[1] = 0`: the last run of the sequence is counted nowhere. -/
theorem runs_histogram_mismatch :
    (1 :: List.replicate 37 0).length = 38 ∧ (List.replicate 37 0 ++ [1]).length = 38 ∧
    runsK 38 = 1 ∧
    runCount (1 :: List.replicate 37 0) 1 1 = 1 ∧
    runCount (1 :: List.replicate 37 0) 0 1 = 0 ∧
    runsScan (1 :: List.replicate 37 0) 1
      = some { bl := 0, gl := 37, rt := 0, b := [0, 0], g := [0, 1] } ∧
    runCount (List.replicate 37 0 ++ [1]) 1 1 = 1 ∧
    runCount (List.replicate 37 0 ++ [1]) 0 1 = 0 ∧
    runsScan (List.replicate 37 0 ++ [1]) 1
      = some { bl := 1, gl := 0, rt := 1, b := [0, 0], g := [0, 0] } := by
  refine ⟨rfl, rfl, runsK_38, ?_, ?_, ?_, ?_, ?_, ?_⟩ <;> decide

/-! ## The block loops of TestPoker8 and TestPoker16 -/

theorem table_increment (table : List Nat) (v : Nat) (hv : v < table.length) :
    (table.set v (table.getD v 0 + 1)).length = table.length ∧
    (table.set v (table.getD v 0 + 1)).sum = table.sum + 1 := by
  constructor
  · simp
  · induction table generalizing v with
    | nil => simp at hv
    | cons c rest ih =>
      cases v with
      | zero =>
        simp only [List.set_cons_zero, List.sum_cons, List.getD_cons_zero]
        omega
      | succ v =>
        have hv' : v < rest.length := by simpa using hv
        simp only [List.set_cons_succ, List.sum_cons, List.getD_cons_succ]
        rw [ih v hv']
        omega

theorem poker8Byte_lt (s : List Nat) (hs : ∀ x ∈ s, x < 256) (i : Nat)
    (h : i + 7 < s.length) : ∃ byte, poker8Byte s i = some byte ∧ byte < 256 := by
  unfold poker8Byte
  rw [List.getElem?_eq_getElem h, List.getElem?_eq_getElem (by omega : i + 6 < s.length),
    List.getElem?_eq_getElem (by omega : i + 5 < s.length),
    List.getElem?_eq_getElem (by omega : i + 4 < s.length),
    List.getElem?_eq_getElem (by omega : i + 3 < s.length),
    List.getElem?_eq_getElem (by omega : i + 2 < s.length),
    List.getElem?_eq_getElem (by omega : i + 1 < s.length),
    List.getElem?_eq_getElem (by omega : i < s.length)]
  refine ⟨_, rfl, ?_⟩
  have h0 : s[i] < 2 ^ 8 := hs _ (List.getElem_mem _)
  exact Nat.or_lt_two_pow (Nat.mod_lt _ (by norm_num)) h0

theorem poker16High_isSome (s : List Nat) (i : Nat) (h : i + 15 < s.length) :
    ∃ hi, poker16High s i = some (hi % 65536) := by
  unfold poker16High
  rw [List.getElem?_eq_getElem h, List.getElem?_eq_getElem (by omega : i + 14 < s.length),
    List.getElem?_eq_getElem (by omega : i + 13 < s.length),
    List.getElem?_eq_getElem (by omega : i + 12 < s.length),
    List.getElem?_eq_getElem (by omega : i + 11 < s.length),
    List.getElem?_eq_getElem (by omega : i + 10 < s.length),
    List.getElem?_eq_getElem (by omega : i + 9 < s.length),
    List.getElem?_eq_getElem (by omega : i + 8 < s.length)]
  exact ⟨_, rfl⟩

theorem poker16Word_lt (s : List Nat) (hs : ∀ x ∈ s, x < 256) (i : Nat)
    (h : i + 15 < s.length) : ∃ word, poker16Word s i = some word ∧ word < 65536 := by
  obtain ⟨hi, hhi⟩ := poker16High_isSome s i h
  unfold poker16Word
  rw [hhi]
  simp only [Option.bind_eq_bind, Option.some_bind]
  rw [List.getElem?_eq_getElem (by omega : i + 7 < s.length),
    List.getElem?_eq_getElem (by omega : i + 6 < s.length),
    List.getElem?_eq_getElem (by omega : i + 5 < s.length),
    List.getElem?_eq_getElem (by omega : i + 4 < s.length),
    List.getElem?_eq_getElem (by omega : i + 3 < s.length),
    List.getElem?_eq_getElem (by omega : i + 2 < s.length),
    List.getElem?_eq_getElem (by omega : i + 1 < s.length),
    List.getElem?_eq_getElem (by omega : i < s.length)]
  refine ⟨_, rfl, ?_⟩
  have h0 : s[i] < 2 ^ 16 := lt_trans (hs _ (List.getElem_mem _)) (by norm_num)
  exact Nat.or_lt_two_pow (Nat.mod_lt _ (by norm_num)) h0

theorem poker8Loop_table (s : List Nat) (hs : ∀ x ∈ s, x < 256) (h7 : 7 ≤ s.length)
    (hN : s.length < ULONG_SIZE) :
    ∀ (fuel i k : Nat) (table : List Nat), i ≤ s.length → (s.length - i) / 8 < fuel →
      table.length = 256 →
      ∃ table', poker8Loop s fuel i k table = Outcome.done (k + (s.length - i) / 8, table') ∧
        table'.length = 256 ∧ table'.sum = table.sum + (s.length - i) / 8 := by
  have hu : usub s.length 7 = s.length - 7 := usub_of_le _ _ h7 hN
  intro fuel
  induction fuel with
  | zero => intro i k table _ hf; omega
  | succ fuel ih =>
    intro i k table hi hf hlen
    rw [poker8Loop]
    simp only [hu]
    by_cases hlt : i < s.length - 7
    · rw [if_pos hlt]
      obtain ⟨byte, hb, hb256⟩ := poker8Byte_lt s hs i (by omega)
      have hmod : (i + 8) % ULONG_SIZE = i + 8 := Nat.mod_eq_of_lt (by omega)
      simp only [hb, hmod]
      obtain ⟨hl, hsum⟩ := table_increment table byte (by omega)
      obtain ⟨t', ht', hl', hs'⟩ := ih (i + 8) (k + 1) (table.set byte (table.getD byte 0 + 1))
        (by omega) (by omega) (by rw [hl]; exact hlen)
      refine ⟨t', ?_, hl', ?_⟩
      · have hk : k + 1 + (s.length - (i + 8)) / 8 = k + (s.length - i) / 8 := by omega
        rw [ht', hk]
      · rw [hs', hsum]
        omega
    · rw [if_neg hlt]
      refine ⟨table, ?_, hlen, ?_⟩
      · have hk : (s.length - i) / 8 = 0 := by omega
        rw [hk, Nat.add_zero]
      · have hk : (s.length - i) / 8 = 0 := by omega
        rw [hk, Nat.add_zero]

theorem poker16Loop_table (s : List Nat) (hs : ∀ x ∈ s, x < 256) (h15 : 15 ≤ s.length)
    (hN : s.length < ULONG_SIZE) :
    ∀ (fuel i k : Nat) (table : List Nat), i ≤ s.length → (s.length - i) / 16 < fuel →
      table.length = 65536 →
      ∃ table', poker16Loop s fuel i k table = Outcome.done (k + (s.length - i) / 16, table') ∧
        table'.length = 65536 ∧ table'.sum = table.sum + (s.length - i) / 16 := by
  have hu : usub s.length 15 = s.length - 15 := usub_of_le _ _ h15 hN
  intro fuel
  induction fuel with
  | zero => intro i k table _ hf; omega
  | succ fuel ih =>
    intro i k table hi hf hlen
    rw [poker16Loop]
    simp only [hu]
    by_cases hlt : i < s.length - 15
    · rw [if_pos hlt]
      obtain ⟨word, hb, hb256⟩ := poker16Word_lt s hs i (by omega)
      have hmod : (i + 16) % ULONG_SIZE = i + 16 := Nat.mod_eq_of_lt (by omega)
      simp only [hb, hmod]
      obtain ⟨hl, hsum⟩ := table_increment table word (by omega)
      obtain ⟨t', ht', hl', hs'⟩ := ih (i + 16) (k + 1) (table.set word (table.getD word 0 + 1))
        (by omega) (by omega) (by rw [hl]; exact hlen)
      refine ⟨t', ?_, hl', ?_⟩
      · have hk : k + 1 + (s.length - (i + 16)) / 16 = k + (s.length - i) / 16 := by omega
        rw [ht', hk]
      · rw [hs', hsum]
        omega
    · rw [if_neg hlt]
      refine ⟨table, ?_, hlen, ?_⟩
      · have hk : (s.length - i) / 16 = 0 := by omega
        rw [hk, Nat.add_zero]
      · have hk : (s.length - i) / 16 = 0 := by omega
        rw [hk, Nat.add_zero]

theorem poker8Tally_table (s : List Nat) (hs : ∀ x ∈ s, x < 256) (h7 : 7 ≤ s.length)
    (hN : s.length < ULONG_SIZE) :
    ∃ table, poker8Tally s = Outcome.done (s.length / 8, table) ∧ table.length = 256 ∧
      table.sum = s.length / 8 := by
  obtain ⟨t, ht, hl, hsum⟩ := poker8Loop_table s hs h7 hN (s.length + 1) 0 0
    (List.replicate 256 0) (Nat.zero_le _) (by omega) (List.length_replicate _ _)
  refine ⟨t, ?_, hl, ?_⟩
  · unfold poker8Tally
    rw [ht, Nat.zero_add, Nat.sub_zero]
  · rw [hsum, List.sum_replicate, smul_zero, Nat.zero_add, Nat.sub_zero]

theorem poker16Tally_table (s : List Nat) (hs : ∀ x ∈ s, x < 256) (h15 : 15 ≤ s.length)
    (hN : s.length < ULONG_SIZE) :
    ∃ table, poker16Tally s = Outcome.done (s.length / 16, table) ∧ table.length = 65536 ∧
      table.sum = s.length / 16 := by
  obtain ⟨t, ht, hl, hsum⟩ := poker16Loop_table s hs h15 hN (s.length + 1) 0 0
    (List.replicate 65536 0) (Nat.zero_le _) (by omega) (List.length_replicate _ _)
  refine ⟨t, ?_, hl, ?_⟩
  · unfold poker16Tally
    rw [ht, Nat.zero_add, Nat.sub_zero]
  · rw [hsum, List.sum_replicate, smul_zero, Nat.zero_add, Nat.sub_zero]

/-! ## The Poker statistic -/

theorem poker8Statistic_eq_formula (k : Nat) (table : List Nat) (hk : 1 ≤ k) :
    poker8Statistic k table = FloatValue.num (pokerFormula 256 k table) := by
  rw [poker8Statistic_num k table hk]
  congr 1
  unfold pokerFormula
  have : (fun t : Nat => (t : ℚ) * (t : ℚ)) = fun t : Nat => (t : ℚ) ^ 2 := by
    funext t; ring
  rw [this]
  norm_num

theorem le_sum_of_mem (t : List Nat) (x : Nat) (hx : x ∈ t) : x ≤ t.sum := by
  induction t with
  | nil => simp at hx
  | cons y rest ih =>
    simp only [List.mem_cons] at hx
    simp only [List.sum_cons]
    rcases hx with rfl | h
    · omega
    · have := ih h
      omega

theorem poker16Statistic_eq_formula (k : Nat) (table : List Nat) (hk : 1 ≤ k)
    (hsmall : table.sum < 2 ^ 32) :
    poker16Statistic k table = FloatValue.num (pokerFormula 65536 k table) := by
  rw [poker16Statistic_num k table hk]
  congr 1
  unfold pokerFormula
  have : table.map (fun t => (((t * t) % ULONG_SIZE : Nat) : ℚ))
      = table.map (fun t : Nat => (t : ℚ) ^ 2) := by
    apply List.map_congr_left
    intro t ht
    have hle := le_sum_of_mem table t ht
    have hlt : t * t < ULONG_SIZE := by
      unfold ULONG_SIZE
      have : t * t < 2 ^ 32 * 2 ^ 32 := Nat.mul_lt_mul'' (by omega) (by omega)
      norm_num at this ⊢
      exact this
    rw [Nat.mod_eq_of_lt hlt]
    push_cast
    ring
  rw [this]
  norm_num

theorem poker16Word_zeros (N i : Nat) (h : i + 15 < N) :
    poker16Word (List.replicate N 0) i = some 0 := by
  have hr : ∀ j, j < N → (List.replicate N 0)[j]? = some 0 := by
    intro j hj
    rw [List.getElem?_replicate, if_pos hj]
  unfold poker16Word poker16High
  rw [hr (i + 15) h, hr (i + 14) (by omega), hr (i + 13) (by omega), hr (i + 12) (by omega),
    hr (i + 11) (by omega), hr (i + 10) (by omega), hr (i + 9) (by omega),
    hr (i + 8) (by omega), hr (i + 7) (by omega), hr (i + 6) (by omega), hr (i + 5) (by omega),
    hr (i + 4) (by omega), hr (i + 3) (by omega), hr (i + 2) (by omega), hr (i + 1) (by omega),
    hr i (by omega)]
  rfl

theorem poker16Loop_zeros (N : Nat) (h15 : 15 ≤ N) (hN : N < ULONG_SIZE) :
    ∀ (fuel i k c : Nat) (rest : List Nat), i ≤ N → (N - i) / 16 < fuel →
      poker16Loop (List.replicate N 0) fuel i k (c :: rest) =
        Outcome.done (k + (N - i) / 16, (c + (N - i) / 16) :: rest) := by
  have hu : usub (List.replicate N 0).length 15 = N - 15 := by
    rw [List.length_replicate]
    exact usub_of_le _ _ h15 hN
  intro fuel
  induction fuel with
  | zero => intro i k c rest _ hf; omega
  | succ fuel ih =>
    intro i k c rest hi hf
    rw [poker16Loop]
    simp only [hu]
    by_cases hlt : i < N - 15
    · rw [if_pos hlt]
      have hmod : (i + 16) % ULONG_SIZE = i + 16 := Nat.mod_eq_of_lt (by omega)
      simp only [poker16Word_zeros N i (by omega), hmod, List.set_cons_zero, List.getD_cons_zero]
      rw [ih (i + 16) (k + 1) (c + 1) rest (by omega) (by omega)]
      have hk : k + 1 + (N - (i + 16)) / 16 = k + (N - i) / 16 := by omega
      have hc : c + 1 + (N - (i + 16)) / 16 = c + (N - i) / 16 := by omega
      rw [hk, hc]
    · rw [if_neg hlt]
      have hk : (N - i) / 16 = 0 := by omega
      rw [hk, Nat.add_zero, Nat.add_zero]

theorem poker16Tally_zeros (N : Nat) (h15 : 15 ≤ N) (hN : N < ULONG_SIZE) :
    poker16Tally (List.replicate N 0) =
      Outcome.done (N / 16, (N / 16) :: List.replicate 65535 0) := by
  have hrep : List.replicate 65536 0 = 0 :: List.replicate 65535 0 := rfl
  unfold poker16Tally
  rw [hrep, poker16Loop_zeros N h15 hN _ 0 0 0 _ (Nat.zero_le _)
    (by rw [List.length_replicate]; omega), Nat.zero_add, Nat.sub_zero]

theorem poker16Tally_zeros36 :
    poker16Tally (List.replicate (2 ^ 36) 0) =
      Outcome.done (2 ^ 32, 2 ^ 32 :: List.replicate 65535 0) := by
  have h := poker16Tally_zeros (2 ^ 36) (by norm_num) (by unfold ULONG_SIZE; norm_num)
  have hdiv : 2 ^ 36 / 16 = 2 ^ 32 := by norm_num
  rw [hdiv] at h
  exact h

theorem poker16Statistic_cons_zeros (k c n : Nat) (hk : 1 ≤ k) :
    poker16Statistic k (c :: List.replicate n 0) =
      FloatValue.num (65536 / (k : ℚ) * (((c * c) % ULONG_SIZE : Nat) : ℚ) - (k : ℚ)) := by
  rw [poker16Statistic_num k _ hk]
  congr 1
  simp [List.map_replicate, List.sum_replicate]

theorem pokerFormula_cons_zeros (M k c n : Nat) :
    pokerFormula M k (c :: List.replicate n 0) = (M : ℚ) / (k : ℚ) * (c : ℚ) ^ 2 - (k : ℚ) := by
  unfold pokerFormula
  simp [List.map_replicate, List.sum_replicate]

theorem poker16Statistic_zeros36 :
    poker16Statistic (2 ^ 32) (2 ^ 32 :: List.replicate 65535 0)
      = FloatValue.num (-(2 ^ 32)) := by
  rw [poker16Statistic_cons_zeros _ _ _ (by norm_num)]
  congr 1
  norm_num [ULONG_SIZE]

theorem pokerFormula_zeros36 :
    pokerFormula 65536 (2 ^ 32) (2 ^ 32 :: List.replicate 65535 0) = 2 ^ 48 - 2 ^ 32 := by
  rw [pokerFormula_cons_zeros]
  norm_num

theorem TestPoker16_of_tally (s : List Nat) (k : Nat) (table : List Nat)
    (h : poker16Tally s = Outcome.done (k, table)) :
    ∃ r, TestPoker16 s = Outcome.done r ∧ r.result = poker16Statistic k table ∧
      r.corrhi = 65999.3936 ∧ r.corrlo = 66659.4697 ∧
      r.pass = some (threeWayFloat (poker16Statistic k table) 65999.3936 66659.4697) := by
  have hr : TestPoker16 s = poker16Result (Outcome.done (k, table)) := by
    rw [← h]
    rfl
  exact ⟨_, hr, rfl, rfl, rfl, rfl⟩

theorem TestPoker8_of_tally (s : List Nat) (k : Nat) (table : List Nat)
    (h : poker8Tally s = Outcome.done (k, table)) :
    ∃ r, TestPoker8 s = Outcome.done r ∧ r.result = poker8Statistic k table ∧
      r.corrhi = 284.3 ∧ r.corrlo = 330.5 ∧
      r.pass = some (threeWayFloat (poker8Statistic k table) 284.3 330.5) := by
  have hr : TestPoker8 s = poker8Result (Outcome.done (k, table)) := by
    rw [← h]
    rfl
  exact ⟨_, hr, rfl, rfl, rfl, rfl⟩

/-- C13, at the failing input: on the sequence of `2^36` zero bits the block
loop of `TestPoker16` returns `k = 2^32` and `count[0] = 2^32`; the
`unsigned long` product `table[0]*table[0]` wraps to 0, so the statistic that
`TestPoker16` reports is `-2^32`, while `(2^16/k)*sum_v count[v]^2 - k` is
`2^48 - 2^32`. -/
theorem poker16_square_overflow :
    poker16Tally (List.replicate (2 ^ 36) 0) =
      Outcome.done (2 ^ 32, 2 ^ 32 :: List.replicate 65535 0) ∧
    poker16Statistic (2 ^ 32) (2 ^ 32 :: List.replicate 65535 0)
      = FloatValue.num (-(2 ^ 32)) ∧
    pokerFormula 65536 (2 ^ 32) (2 ^ 32 :: List.replicate 65535 0) = 2 ^ 48 - 2 ^ 32 ∧
    ∃ r, TestPoker16 (List.replicate (2 ^ 36) 0) = Outcome.done r ∧
      r.result = FloatValue.num (-(2 ^ 32)) := by
  refine ⟨poker16Tally_zeros36, poker16Statistic_zeros36, pokerFormula_zeros36, ?_⟩
  obtain ⟨r, hr, hres, _⟩ := TestPoker16_of_tally _ _ _ poker16Tally_zeros36
  exact ⟨r, hr, hres.trans poker16Statistic_zeros36⟩


/-! ## The block values and the counts of TestPoker8 and TestPoker16 -/

theorem shift_first (a M : Nat) (h : 2 * a < M) : (a <<< 1) % M = 2 * a := by
  rw [Nat.shiftLeft_eq, Nat.mod_eq_of_lt (by omega)]
  omega

theorem double_or_bit (V a : Nat) (ha : a ≤ 1) : 2 * V ||| a = 2 * V + a := by
  have h := Nat.mul_add_lt_is_or (show a < 2 ^ 1 by omega) V
  rw [pow_one] at h
  exact h.symm

theorem shift_step (V a M : Nat) (ha : a ≤ 1) (h : 2 * (2 * V + a) < M) :
    ((2 * V ||| a) <<< 1) % M = 2 * (2 * V + a) := by
  rw [double_or_bit V a ha, Nat.shiftLeft_eq, Nat.mod_eq_of_lt (by omega)]
  omega

theorem blockValue_8 (s : List Nat) (j : Nat) :
    blockValue s 8 j = s.getD (8 * j) 0 + 2 * s.getD (8 * j + 1) 0 + 4 * s.getD (8 * j + 2) 0
      + 8 * s.getD (8 * j + 3) 0 + 16 * s.getD (8 * j + 4) 0 + 32 * s.getD (8 * j + 5) 0
      + 64 * s.getD (8 * j + 6) 0 + 128 * s.getD (8 * j + 7) 0 := by
  unfold blockValue
  simp only [List.range_succ, List.range_zero, List.nil_append, List.cons_append, List.map_cons,
    List.map_nil, List.sum_cons, List.sum_nil]
  norm_num
  ring

theorem poker8Byte_value (s : List Nat) (hs : ∀ i, s.getD i 0 ≤ 1) (j : Nat)
    (h : 8 * j + 7 < s.length) : poker8Byte s (8 * j) = some (blockValue s 8 j) := by
  have h0 := hs (8 * j)
  have h1 := hs (8 * j + 1)
  have h2 := hs (8 * j + 2)
  have h3 := hs (8 * j + 3)
  have h4 := hs (8 * j + 4)
  have h5 := hs (8 * j + 5)
  have h6 := hs (8 * j + 6)
  have h7 := hs (8 * j + 7)
  rw [blockValue_8]
  unfold poker8Byte
  rw [getElem?_eq_some_getD s (8 * j + 7) h, getElem?_eq_some_getD s (8 * j + 6) (by omega),
    getElem?_eq_some_getD s (8 * j + 5) (by omega), getElem?_eq_some_getD s (8 * j + 4) (by omega),
    getElem?_eq_some_getD s (8 * j + 3) (by omega), getElem?_eq_some_getD s (8 * j + 2) (by omega),
    getElem?_eq_some_getD s (8 * j + 1) (by omega), getElem?_eq_some_getD s (8 * j) (by omega)]
  simp only [Option.bind_eq_bind, Option.some_bind, Option.pure_def]
  rw [shift_first (s.getD (8 * j + 7) 0) 256 (by omega),
    shift_step _ (s.getD (8 * j + 6) 0) 256 h6 (by omega),
    shift_step _ (s.getD (8 * j + 5) 0) 256 h5 (by omega),
    shift_step _ (s.getD (8 * j + 4) 0) 256 h4 (by omega),
    shift_step _ (s.getD (8 * j + 3) 0) 256 h3 (by omega),
    shift_step _ (s.getD (8 * j + 2) 0) 256 h2 (by omega),
    shift_step _ (s.getD (8 * j + 1) 0) 256 h1 (by omega),
    double_or_bit _ (s.getD (8 * j) 0) h0]
  congr 1
  omega

theorem blockValue_16 (s : List Nat) (j : Nat) :
    blockValue s 16 j = s.getD (16 * j) 0 + 2 * s.getD (16 * j + 1) 0
      + 4 * s.getD (16 * j + 2) 0 + 8 * s.getD (16 * j + 3) 0 + 16 * s.getD (16 * j + 4) 0
      + 32 * s.getD (16 * j + 5) 0 + 64 * s.getD (16 * j + 6) 0 + 128 * s.getD (16 * j + 7) 0
      + 256 * s.getD (16 * j + 8) 0 + 512 * s.getD (16 * j + 9) 0
      + 1024 * s.getD (16 * j + 10) 0 + 2048 * s.getD (16 * j + 11) 0
      + 4096 * s.getD (16 * j + 12) 0 + 8192 * s.getD (16 * j + 13) 0
      + 16384 * s.getD (16 * j + 14) 0 + 32768 * s.getD (16 * j + 15) 0 := by
  unfold blockValue
  simp only [List.range_succ, List.range_zero, List.nil_append, List.cons_append, List.map_cons,
    List.map_nil, List.sum_cons, List.sum_nil]
  norm_num
  ring

theorem poker16High_value (s : List Nat) (hs : ∀ i, s.getD i 0 ≤ 1) (j : Nat)
    (h : 16 * j + 15 < s.length) :
    poker16High s (16 * j) = some (2 * (s.getD (16 * j + 8) 0 + 2 * s.getD (16 * j + 9) 0
      + 4 * s.getD (16 * j + 10) 0 + 8 * s.getD (16 * j + 11) 0 + 16 * s.getD (16 * j + 12) 0
      + 32 * s.getD (16 * j + 13) 0 + 64 * s.getD (16 * j + 14) 0
      + 128 * s.getD (16 * j + 15) 0)) := by
  have h8 := hs (16 * j + 8)
  have h9 := hs (16 * j + 9)
  have h10 := hs (16 * j + 10)
  have h11 := hs (16 * j + 11)
  have h12 := hs (16 * j + 12)
  have h13 := hs (16 * j + 13)
  have h14 := hs (16 * j + 14)
  have h15 := hs (16 * j + 15)
  unfold poker16High
  rw [getElem?_eq_some_getD s (16 * j + 15) h,
    getElem?_eq_some_getD s (16 * j + 14) (by omega),
    getElem?_eq_some_getD s (16 * j + 13) (by omega),
    getElem?_eq_some_getD s (16 * j + 12) (by omega),
    getElem?_eq_some_getD s (16 * j + 11) (by omega),
    getElem?_eq_some_getD s (16 * j + 10) (by omega),
    getElem?_eq_some_getD s (16 * j + 9) (by omega),
    getElem?_eq_some_getD s (16 * j + 8) (by omega)]
  simp only [Option.bind_eq_bind, Option.some_bind, Option.pure_def]
  rw [shift_first (s.getD (16 * j + 15) 0) 65536 (by omega),
    shift_step _ (s.getD (16 * j + 14) 0) 65536 h14 (by omega),
    shift_step _ (s.getD (16 * j + 13) 0) 65536 h13 (by omega),
    shift_step _ (s.getD (16 * j + 12) 0) 65536 h12 (by omega),
    shift_step _ (s.getD (16 * j + 11) 0) 65536 h11 (by omega),
    shift_step _ (s.getD (16 * j + 10) 0) 65536 h10 (by omega),
    shift_step _ (s.getD (16 * j + 9) 0) 65536 h9 (by omega),
    shift_step _ (s.getD (16 * j + 8) 0) 65536 h8 (by omega)]
  congr 1
  omega

theorem poker16Word_value (s : List Nat) (hs : ∀ i, s.getD i 0 ≤ 1) (j : Nat)
    (h : 16 * j + 15 < s.length) : poker16Word s (16 * j) = some (blockValue s 16 j) := by
  have h0 := hs (16 * j)
  have h1 := hs (16 * j + 1)
  have h2 := hs (16 * j + 2)
  have h3 := hs (16 * j + 3)
  have h4 := hs (16 * j + 4)
  have h5 := hs (16 * j + 5)
  have h6 := hs (16 * j + 6)
  have h7 := hs (16 * j + 7)
  have h8 := hs (16 * j + 8)
  have h9 := hs (16 * j + 9)
  have h10 := hs (16 * j + 10)
  have h11 := hs (16 * j + 11)
  have h12 := hs (16 * j + 12)
  have h13 := hs (16 * j + 13)
  have h14 := hs (16 * j + 14)
  have h15 := hs (16 * j + 15)
  rw [blockValue_16]
  unfold poker16Word
  rw [poker16High_value s hs j h,
    getElem?_eq_some_getD s (16 * j + 7) (by omega),
    getElem?_eq_some_getD s (16 * j + 6) (by omega),
    getElem?_eq_some_getD s (16 * j + 5) (by omega),
    getElem?_eq_some_getD s (16 * j + 4) (by omega),
    getElem?_eq_some_getD s (16 * j + 3) (by omega),
    getElem?_eq_some_getD s (16 * j + 2) (by omega),
    getElem?_eq_some_getD s (16 * j + 1) (by omega),
    getElem?_eq_some_getD s (16 * j) (by omega)]
  simp only [Option.bind_eq_bind, Option.some_bind, Option.pure_def]
  rw [shift_step _ (s.getD (16 * j + 7) 0) 65536 h7 (by omega),
    shift_step _ (s.getD (16 * j + 6) 0) 65536 h6 (by omega),
    shift_step _ (s.getD (16 * j + 5) 0) 65536 h5 (by omega),
    shift_step _ (s.getD (16 * j + 4) 0) 65536 h4 (by omega),
    shift_step _ (s.getD (16 * j + 3) 0) 65536 h3 (by omega),
    shift_step _ (s.getD (16 * j + 2) 0) 65536 h2 (by omega),
    shift_step _ (s.getD (16 * j + 1) 0) 65536 h1 (by omega),
    double_or_bit _ (s.getD (16 * j) 0) h0]
  congr 1
  omega

theorem blockValue_lt_8 (s : List Nat) (hs : ∀ i, s.getD i 0 ≤ 1) (j : Nat) :
    blockValue s 8 j < 256 := by
  have h0 := hs (8 * j)
  have h1 := hs (8 * j + 1)
  have h2 := hs (8 * j + 2)
  have h3 := hs (8 * j + 3)
  have h4 := hs (8 * j + 4)
  have h5 := hs (8 * j + 5)
  have h6 := hs (8 * j + 6)
  have h7 := hs (8 * j + 7)
  rw [blockValue_8]
  omega

theorem blockValue_lt_16 (s : List Nat) (hs : ∀ i, s.getD i 0 ≤ 1) (j : Nat) :
    blockValue s 16 j < 65536 := by
  have h0 := hs (16 * j)
  have h1 := hs (16 * j + 1)
  have h2 := hs (16 * j + 2)
  have h3 := hs (16 * j + 3)
  have h4 := hs (16 * j + 4)
  have h5 := hs (16 * j + 5)
  have h6 := hs (16 * j + 6)
  have h7 := hs (16 * j + 7)
  have h8 := hs (16 * j + 8)
  have h9 := hs (16 * j + 9)
  have h10 := hs (16 * j + 10)
  have h11 := hs (16 * j + 11)
  have h12 := hs (16 * j + 12)
  have h13 := hs (16 * j + 13)
  have h14 := hs (16 * j + 14)
  have h15 := hs (16 * j + 15)
  rw [blockValue_16]
  omega

theorem blockCount_succ (s : List Nat) (m k v : Nat) :
    blockCount s m (k + 1) v = blockCount s m k v + (if blockValue s m k = v then 1 else 0) := by
  simp only [blockCount, countP_range_succ, decide_eq_true_eq]

theorem getD_set_increment (table : List Nat) (w v : Nat) (hw : w < table.length) :
    (table.set w (table.getD w 0 + 1)).getD v 0 = table.getD v 0 + (if w = v then 1 else 0) := by
  by_cases hwv : w = v
  · subst hwv
    rw [if_pos rfl, List.getD_eq_getElem _ _ (by simpa using hw)]
    simp
  · rw [if_neg hwv]
    by_cases hv : v < table.length
    · rw [List.getD_eq_getElem _ _ (by simpa using hv), List.getD_eq_getElem _ _ hv,
        List.getElem_set_ne hwv]
      rfl
    · rw [List.getD_eq_default _ _ (by simpa using Nat.le_of_not_lt hv),
        List.getD_eq_default _ _ (Nat.le_of_not_lt hv)]

theorem getD_replicate_zero (n v : Nat) : (List.replicate n 0).getD v 0 = 0 := by
  by_cases hv : v < n
  · rw [List.getD_eq_getElem _ _ (by rw [List.length_replicate]; exact hv),
      List.getElem_replicate]
  · rw [List.getD_eq_default _ _ (by rw [List.length_replicate]; omega)]

theorem poker8Loop_counts (s : List Nat) (hs : ∀ i, s.getD i 0 ≤ 1) (h7 : 7 ≤ s.length)
    (hN : s.length < ULONG_SIZE) :
    ∀ (fuel j : Nat) (table : List Nat), 8 * j ≤ s.length → (s.length - 8 * j) / 8 < fuel →
      table.length = 256 →
      ∃ table', poker8Loop s fuel (8 * j) j table = Outcome.done (s.length / 8, table') ∧
        table'.length = 256 ∧
        ∀ v, table'.getD v 0 + blockCount s 8 j v =
          table.getD v 0 + blockCount s 8 (s.length / 8) v := by
  have hu : usub s.length 7 = s.length - 7 := usub_of_le _ _ h7 hN
  intro fuel
  induction fuel with
  | zero => intro j table _ hf; omega
  | succ fuel ih =>
    intro j table hj hf hlen
    rw [poker8Loop]
    simp only [hu]
    by_cases hlt : 8 * j < s.length - 7
    · rw [if_pos hlt]
      have hb := poker8Byte_value s hs j (by omega)
      have hmod : (8 * j + 8) % ULONG_SIZE = 8 * (j + 1) := by
        rw [Nat.mod_eq_of_lt (by omega)]
        omega
      simp only [hb, hmod]
      have hlt256 := blockValue_lt_8 s hs j
      obtain ⟨t', ht', hl', hc'⟩ := ih (j + 1)
        (table.set (blockValue s 8 j) (table.getD (blockValue s 8 j) 0 + 1))
        (by omega) (by omega) (by rw [List.length_set]; exact hlen)
      refine ⟨t', ht', hl', ?_⟩
      intro v
      have h1 := hc' v
      rw [blockCount_succ, getD_set_increment table _ v (by omega)] at h1
      omega
    · rw [if_neg hlt]
      have hk : j = s.length / 8 := by omega
      refine ⟨table, ?_, hlen, ?_⟩
      · rw [← hk]
      · intro v
        rw [← hk]

theorem poker16Loop_counts (s : List Nat) (hs : ∀ i, s.getD i 0 ≤ 1) (h15 : 15 ≤ s.length)
    (hN : s.length < ULONG_SIZE) :
    ∀ (fuel j : Nat) (table : List Nat), 16 * j ≤ s.length → (s.length - 16 * j) / 16 < fuel →
      table.length = 65536 →
      ∃ table', poker16Loop s fuel (16 * j) j table = Outcome.done (s.length / 16, table') ∧
        table'.length = 65536 ∧
        ∀ v, table'.getD v 0 + blockCount s 16 j v =
          table.getD v 0 + blockCount s 16 (s.length / 16) v := by
  have hu : usub s.length 15 = s.length - 15 := usub_of_le _ _ h15 hN
  intro fuel
  induction fuel with
  | zero => intro j table _ hf; omega
  | succ fuel ih =>
    intro j table hj hf hlen
    rw [poker16Loop]
    simp only [hu]
    by_cases hlt : 16 * j < s.length - 15
    · rw [if_pos hlt]
      have hb := poker16Word_value s hs j (by omega)
      have hmod : (16 * j + 16) % ULONG_SIZE = 16 * (j + 1) := by
        rw [Nat.mod_eq_of_lt (by omega)]
        omega
      simp only [hb, hmod]
      have hlt65536 := blockValue_lt_16 s hs j
      obtain ⟨t', ht', hl', hc'⟩ := ih (j + 1)
        (table.set (blockValue s 16 j) (table.getD (blockValue s 16 j) 0 + 1))
        (by omega) (by omega) (by rw [List.length_set]; exact hlen)
      refine ⟨t', ht', hl', ?_⟩
      intro v
      have h1 := hc' v
      rw [blockCount_succ, getD_set_increment table _ v (by omega)] at h1
      omega
    · rw [if_neg hlt]
      have hk : j = s.length / 16 := by omega
      refine ⟨table, ?_, hlen, ?_⟩
      · rw [← hk]
      · intro v
        rw [← hk]

/-- The part of C13 that the code satisfies. For `m = 8` and `m = 16` and
every sequence of bits of length `n ≥ m` (that an `unsigned long` holds), the
block loop returns `k = floor(n/m)` and a table in which `count[v]` is the
number of blocks `j < k` whose value `sum_{t<m} s[m*j+t]*2^t` is `v`; every
block value is below `2^m`; the statistic of `TestPoker8` is
`(2^8/k)*sum_v count[v]^2 - k`, and that of `TestPoker16` is
`(2^16/k)*sum_v count[v]^2 - k` as long as `n < 2^36`. -/
theorem poker_tally_counts (s : List Nat) (hbits : ∀ x ∈ s, x ≤ 1)
    (hN : s.length < ULONG_SIZE) :
    (8 ≤ s.length →
      ∃ table r, poker8Tally s = Outcome.done (s.length / 8, table) ∧
        TestPoker8 s = Outcome.done r ∧
        (∀ j, blockValue s 8 j < 2 ^ 8) ∧
        (∀ v, table.getD v 0 = blockCount s 8 (s.length / 8) v) ∧
        r.result = FloatValue.num (pokerFormula 256 (s.length / 8) table)) ∧
    (16 ≤ s.length →
      ∃ table r, poker16Tally s = Outcome.done (s.length / 16, table) ∧
        TestPoker16 s = Outcome.done r ∧
        (∀ j, blockValue s 16 j < 2 ^ 16) ∧
        (∀ v, table.getD v 0 = blockCount s 16 (s.length / 16) v) ∧
        (s.length < 2 ^ 36 →
          r.result = FloatValue.num (pokerFormula 65536 (s.length / 16) table))) := by
  have hs := getD_le_one_of_bits s hbits
  have hbytes : ∀ x ∈ s, x < 256 := fun x hx => lt_of_le_of_lt (hbits x hx) (by norm_num)
  constructor
  · intro h8
    obtain ⟨t, ht, hl, hc⟩ := poker8Loop_counts s hs (by omega) hN (s.length + 1) 0
      (List.replicate 256 0) (by omega) (by omega) (List.length_replicate _ _)
    have htally : poker8Tally s = Outcome.done (s.length / 8, t) := ht
    obtain ⟨r, hr, hres, _⟩ := TestPoker8_of_tally s _ _ htally
    refine ⟨t, r, htally, hr, blockValue_lt_8 s hs, ?_, ?_⟩
    · intro v
      have h1 := hc v
      rw [getD_replicate_zero] at h1
      have h0 : blockCount s 8 0 v = 0 := rfl
      omega
    · rw [hres, poker8Statistic_eq_formula _ _ (by omega)]
  · intro h16
    obtain ⟨t, ht, hl, hc⟩ := poker16Loop_counts s hs (by omega) hN (s.length + 1) 0
      (List.replicate 65536 0) (by omega) (by omega) (List.length_replicate _ _)
    have htally : poker16Tally s = Outcome.done (s.length / 16, t) := ht
    obtain ⟨r, hr, hres, _⟩ := TestPoker16_of_tally s _ _ htally
    refine ⟨t, r, htally, hr, blockValue_lt_16 s hs, ?_, ?_⟩
    · intro v
      have h1 := hc v
      rw [getD_replicate_zero] at h1
      have h0 : blockCount s 16 0 v = 0 := rfl
      omega
    · intro hsmall
      obtain ⟨t2, ht2, _, hsum⟩ := poker16Tally_table s hbytes (by omega) hN
      have heq : t2 = t := by
        have := ht2.symm.trans htally
        exact (Prod.mk.inj (Outcome.done.inj this)).2
      rw [hres]
      exact poker16Statistic_eq_formula _ _ (by omega) (by rw [← heq, hsum]; omega)

/-! ## Facts about TestAutocorrelation -/

theorem mismatchCountBelow_succ (s : List Nat) (d j : Nat) :
    mismatchCountBelow s d (j + 1) =
      mismatchCountBelow s d j + (if s.getD j 0 ≠ s.getD (j + d) 0 then 1 else 0) := by
  simp only [mismatchCountBelow, countP_range_succ, decide_eq_true_eq]

theorem mismatchCountBelow_le (s : List Nat) (d j : Nat) : mismatchCountBelow s d j ≤ j := by
  unfold mismatchCountBelow
  calc (List.range j).countP _ ≤ (List.range j).length := List.countP_le_length _
    _ = j := List.length_range j

theorem autocorrCount_spec (s : List Nat) (d : Nat) (hd : d ≤ s.length)
    (hN : s.length < ULONG_SIZE) : autocorrCount s d = some (mismatchCount s d) := by
  have key : ∀ j, j + d ≤ s.length →
      (List.range j).foldlM (fun a i => do
        let x ← s[i]?
        let y ← s[i + d]?
        pure (if x ≠ y then a + 1 else a)) 0 = some (mismatchCountBelow s d j) := by
    intro j
    induction j with
    | zero => intro _; rfl
    | succ j ih =>
      intro hj
      rw [List.range_succ, List.foldlM_append, ih (by omega)]
      have hx : s[j]? = some (s.getD j 0) := getElem?_eq_some_getD _ _ (by omega)
      have hy : s[j + d]? = some (s.getD (j + d) 0) := getElem?_eq_some_getD _ _ (by omega)
      simp only [Option.bind_eq_bind, Option.some_bind, List.foldlM_cons, List.foldlM_nil, hx, hy]
      rw [mismatchCountBelow_succ]
      split_ifs <;> rfl
  unfold autocorrCount mismatchCount
  rw [usub_of_le _ _ hd hN]
  exact key _ (by omega)

theorem autocorrX_eq (s : List Nat) (d : Nat) (hd : d ≤ s.length) (hN : s.length < 2 ^ 63) :
    autocorrX s.length (mismatchCount s d) d = shiftStatistic s d := by
  have ha : mismatchCount s d ≤ s.length - d := mismatchCountBelow_le _ _ _
  have h2 : (2 * mismatchCount s d) % ULONG_SIZE = 2 * mismatchCount s d := by
    apply Nat.mod_eq_of_lt
    unfold ULONG_SIZE
    omega
  have hu : usub s.length d = s.length - d := usub_of_le _ _ hd (by unfold ULONG_SIZE; omega)
  unfold autocorrX autocorrSquare shiftStatistic
  rw [h2, hu]
  congr 1
  push_cast [Nat.cast_sub hd]
  rfl

theorem autocorrStep_spec (s : List Nat) (st : AutocorrScan) (d : Nat) (hd : d ≤ s.length)
    (hN : s.length < 2 ^ 63) :
    autocorrStep s st d = some
      (if shiftStatistic s d > st.worst then
        { worst := shiftStatistic s d, worstd := some d, avg := st.avg + shiftStatistic s d }
      else { st with avg := st.avg + shiftStatistic s d }) := by
  unfold autocorrStep
  rw [autocorrCount_spec s d hd (by unfold ULONG_SIZE; omega)]
  simp only [Option.bind_eq_bind, Option.some_bind]
  rw [autocorrX_eq s d hd hN]
  split_ifs <;> rfl

theorem autocorrLoop_spec (s : List Nat) (hN : s.length < 2 ^ 63) :
    ∀ m, m ≤ s.length →
      ∃ st, ((List.range m).map (fun j => j + 1)).foldlM (autocorrStep s)
          { worst := 0, worstd := none, avg := 0 } = some st ∧
        st.avg = ∑ d ∈ Finset.Icc 1 m, shiftStatistic s d ∧
        (∀ d, 1 ≤ d → d ≤ m → shiftStatistic s d ≤ st.worst) ∧
        ((st.worstd = none ∧ st.worst = 0) ∨
          ∃ w, st.worstd = some w ∧ 1 ≤ w ∧ w ≤ m ∧ shiftStatistic s w = st.worst ∧
            0 < st.worst ∧ ∀ d, 1 ≤ d → d < w → shiftStatistic s d < st.worst) := by
  intro m
  induction m with
  | zero =>
    intro _
    refine ⟨_, rfl, by simp, ?_, Or.inl ⟨rfl, rfl⟩⟩
    intro d h1 h2
    omega
  | succ m ih =>
    intro hm
    obtain ⟨st, hst, havg, hle, hcase⟩ := ih (by omega)
    rw [List.range_succ, List.map_append, List.foldlM_append, hst]
    simp only [Option.bind_eq_bind, Option.some_bind, List.map_cons, List.map_nil,
      List.foldlM_cons, List.foldlM_nil]
    rw [autocorrStep_spec s st (m + 1) hm hN]
    simp only [Option.some_bind]
    have h0 : 0 ≤ st.worst := by
      rcases hcase with ⟨_, h⟩ | ⟨w, _, _, _, _, h, _⟩
      · exact le_of_eq h.symm
      · exact le_of_lt h
    by_cases hx : shiftStatistic s (m + 1) > st.worst
    · rw [if_pos hx]
      refine ⟨_, rfl, ?_, ?_, Or.inr ⟨m + 1, rfl, by omega, le_refl _, rfl, ?_, ?_⟩⟩
      · show st.avg + shiftStatistic s (m + 1) = _
        rw [Finset.sum_Icc_succ_top (by omega), havg]
      · intro d h1 h2
        show shiftStatistic s d ≤ shiftStatistic s (m + 1)
        by_cases hd : d ≤ m
        · exact le_trans (hle d h1 hd) (le_of_lt hx)
        · have : d = m + 1 := by omega
          rw [this]
      · exact lt_of_le_of_lt h0 hx
      · intro d h1 h2
        exact lt_of_le_of_lt (hle d h1 (by omega)) hx
    · rw [if_neg hx]
      refine ⟨_, rfl, ?_, ?_, ?_⟩
      · show st.avg + shiftStatistic s (m + 1) = _
        rw [Finset.sum_Icc_succ_top (by omega), havg]
      · intro d h1 h2
        show shiftStatistic s d ≤ st.worst
        by_cases hd : d ≤ m
        · exact hle d h1 hd
        · have : d = m + 1 := by omega
          rw [this]
          exact not_lt.mp hx
      · rcases hcase with h | ⟨w, hw, h1, h2, h3, h4, h5⟩
        · exact Or.inl h
        · exact Or.inr ⟨w, hw, h1, by omega, h3, h4, h5⟩

theorem autocorrScan_spec (s : List Nat) (hN : s.length < 2 ^ 63) :
    ∃ st, autocorrScan s = some st ∧
      st.avg = ∑ d ∈ Finset.Icc 1 (s.length / 2), shiftStatistic s d ∧
      (∀ d, 1 ≤ d → d ≤ s.length / 2 → shiftStatistic s d ≤ st.worst) ∧
      ((st.worstd = none ∧ st.worst = 0) ∨
        ∃ w, st.worstd = some w ∧ 1 ≤ w ∧ w ≤ s.length / 2 ∧ shiftStatistic s w = st.worst ∧
          0 < st.worst ∧ ∀ d, 1 ≤ d → d < w → shiftStatistic s d < st.worst) :=
  autocorrLoop_spec s hN (s.length / 2) (Nat.div_le_self _ _)

theorem TestAutocorrelation_of_scan (s : List Nat) (st : AutocorrScan)
    (h : autocorrScan s = some st) :
    ∃ r, TestAutocorrelation s = some r ∧ r.result = st.avg / ((s.length : ℝ) * 0.5) ∧
      r.corrhi = 1.282 ∧ r.corrlo = 3.090 ∧
      r.pass = some (threeWayReal r.result 1.282 3.090) ∧
      r.worst = st.worst ∧ r.worstd = st.worstd := by
  unfold TestAutocorrelation
  rw [h]
  exact ⟨_, rfl, rfl, rfl, rfl, rfl, rfl, rfl⟩

theorem shiftStatistic_abs (s : List Nat) (d : Nat) :
    shiftStatistic s d =
      |2 * (mismatchCount s d : ℝ) - ((s.length : ℝ) - (d : ℝ))| /
        Real.sqrt ((s.length : ℝ) - (d : ℝ)) := by
  unfold shiftStatistic
  rw [Real.sqrt_div (sq_nonneg _), Real.sqrt_sq_eq_abs]
  congr 2
  ring


theorem shiftStatistic_zeros3 : shiftStatistic [0, 0, 0] 1 = Real.sqrt 2 := by
  have ha : mismatchCount [0, 0, 0] 1 = 0 := by decide
  unfold shiftStatistic
  rw [ha]
  congr 1
  simp only [List.length_cons, List.length_nil]
  norm_num

theorem shiftStatistic_001 : shiftStatistic [0, 0, 1] 1 = 0 := by
  have ha : mismatchCount [0, 0, 1] 1 = 1 := by decide
  unfold shiftStatistic
  rw [ha]
  simp only [List.length_cons, List.length_nil]
  norm_num

/-- The pair `(worst, worstd)` of `TestAutocorrelation` on a sequence of fewer
than `2^63` elements: `worst` is the largest `x(d)` over the shifts and is not
negative; `worstd` is assigned exactly when `worst > 0`, and is then the
smallest shift at which `x(d) = worst`. -/
theorem autocorrelation_worst (s : List Nat) (hN : s.length < 2 ^ 63) :
    ∃ r, TestAutocorrelation s = some r ∧
      (∀ d, 1 ≤ d → d ≤ s.length / 2 → shiftStatistic s d ≤ r.worst) ∧
      ((r.worstd = none ∧ r.worst = 0) ∨
        ∃ w, r.worstd = some w ∧ 1 ≤ w ∧ w ≤ s.length / 2 ∧ shiftStatistic s w = r.worst ∧
          0 < r.worst ∧ ∀ d, 1 ≤ d → d < w → shiftStatistic s d < r.worst) := by
  obtain ⟨st, hst, _, hle, hcase⟩ := autocorrScan_spec s hN
  obtain ⟨r, hr, _, _, _, _, hw, hwd⟩ := TestAutocorrelation_of_scan s st hst
  refine ⟨r, hr, ?_, ?_⟩
  · rw [hw]; exact hle
  · rw [hw, hwd]; exact hcase

/-- C17, refuted as stated: on the sequence 0,0,0 there is one shift, `d = 1`,
with `x(1) = sqrt 2`, so the arithmetic mean of the `x(d)` is `sqrt 2`, and the
statistic reported by `TestAutocorrelation` is `sqrt 2 / 1.5`. -/
theorem autocorrelation_not_mean :
    ∃ r, TestAutocorrelation [0, 0, 0] = some r ∧ r.result = Real.sqrt 2 / 1.5 ∧
      (∑ d ∈ Finset.Icc 1 ([0, 0, 0].length / 2), shiftStatistic [0, 0, 0] d) /
        (([0, 0, 0].length / 2 : Nat) : ℝ) = Real.sqrt 2 ∧
      r.result ≠ (∑ d ∈ Finset.Icc 1 ([0, 0, 0].length / 2), shiftStatistic [0, 0, 0] d) /
        (([0, 0, 0].length / 2 : Nat) : ℝ) := by
  obtain ⟨st, hst, havg, _, _⟩ := autocorrScan_spec [0, 0, 0] (by norm_num)
  obtain ⟨r, hr, hres, _⟩ := TestAutocorrelation_of_scan _ st hst
  have hsum : (∑ d ∈ Finset.Icc 1 ([0, 0, 0].length / 2), shiftStatistic [0, 0, 0] d)
      = Real.sqrt 2 := by
    have h1 : [0, 0, 0].length / 2 = 1 := rfl
    rw [h1, Finset.Icc_self, Finset.sum_singleton, shiftStatistic_zeros3]
  have hmean : (∑ d ∈ Finset.Icc 1 ([0, 0, 0].length / 2), shiftStatistic [0, 0, 0] d) /
      (([0, 0, 0].length / 2 : Nat) : ℝ) = Real.sqrt 2 := by
    rw [hsum]
    have h1 : [0, 0, 0].length / 2 = 1 := rfl
    rw [h1]
    norm_num
  have hval : r.result = Real.sqrt 2 / 1.5 := by
    rw [hres, havg, hsum]
    simp only [List.length_cons, List.length_nil]
    norm_num
  refine ⟨r, hr, hval, hmean, ?_⟩
  rw [hmean, hval]
  have hpos : (0 : ℝ) < Real.sqrt 2 := Real.sqrt_pos.mpr (by norm_num)
  intro h
  have h2 : Real.sqrt 2 = Real.sqrt 2 * 1.5 := by
    have := (div_eq_iff (by norm_num : (1.5 : ℝ) ≠ 0)).mp h
    exact this
  nlinarith

/-- C17, amended: on every sequence of `n ≥ 2` elements (fewer than `2^63`),
`TestAutocorrelation` returns, and its statistic is the sum of the `x(d)` over
the shifts `d = 1..floor(n/2)` divided by `n/2` (the real number `n*0.5`);
there is at least one shift; when `n` is even this is the arithmetic mean of
the `x(d)`; and `x(d) = |2*a(d) - (n - d)|/sqrt(n - d)`. -/
theorem autocorrelation_statistic (s : List Nat) (hn : 2 ≤ s.length) (hN : s.length < 2 ^ 63) :
    ∃ r, TestAutocorrelation s = some r ∧
      r.result = (∑ d ∈ Finset.Icc 1 (s.length / 2), shiftStatistic s d) / ((s.length : ℝ) / 2) ∧
      1 ≤ s.length / 2 ∧
      (s.length % 2 = 0 →
        r.result = (∑ d ∈ Finset.Icc 1 (s.length / 2), shiftStatistic s d) /
          ((s.length / 2 : Nat) : ℝ)) ∧
      ∀ d, shiftStatistic s d =
        |2 * (mismatchCount s d : ℝ) - ((s.length : ℝ) - (d : ℝ))| /
          Real.sqrt ((s.length : ℝ) - (d : ℝ)) := by
  obtain ⟨st, hst, havg, _, _⟩ := autocorrScan_spec s hN
  obtain ⟨r, hr, hres, _⟩ := TestAutocorrelation_of_scan s st hst
  have hval : r.result =
      (∑ d ∈ Finset.Icc 1 (s.length / 2), shiftStatistic s d) / ((s.length : ℝ) / 2) := by
    rw [hres, havg]
    congr 1
    norm_num
    ring
  refine ⟨r, hr, hval, by omega, ?_, shiftStatistic_abs s⟩
  intro heven
  rw [hval]
  congr 1
  have h2 : s.length = 2 * (s.length / 2) := by omega
  have h3 : (s.length : ℝ) = 2 * ((s.length / 2 : Nat) : ℝ) := by
    exact_mod_cast h2
  rw [h3]
  ring

/-- C17, witness: the sequence 0,0,0,1. -/
theorem autocorrelation_statistic_witness :
    2 ≤ [0, 0, 0, 1].length ∧ [0, 0, 0, 1].length < 2 ^ 63 ∧
    ∃ r, TestAutocorrelation [0, 0, 0, 1] = some r ∧
      r.result = (∑ d ∈ Finset.Icc 1 ([0, 0, 0, 1].length / 2), shiftStatistic [0, 0, 0, 1] d) /
        (([0, 0, 0, 1].length : ℝ) / 2) ∧
      1 ≤ [0, 0, 0, 1].length / 2 ∧
      ([0, 0, 0, 1].length % 2 = 0 →
        r.result = (∑ d ∈ Finset.Icc 1 ([0, 0, 0, 1].length / 2), shiftStatistic [0, 0, 0, 1] d) /
          (([0, 0, 0, 1].length / 2 : Nat) : ℝ)) ∧
      ∀ d, shiftStatistic [0, 0, 0, 1] d =
        |2 * (mismatchCount [0, 0, 0, 1] d : ℝ) - (([0, 0, 0, 1].length : ℝ) - (d : ℝ))| /
          Real.sqrt (([0, 0, 0, 1].length : ℝ) - (d : ℝ)) :=
  ⟨by decide, by norm_num, autocorrelation_statistic [0, 0, 0, 1] (by decide) (by norm_num)⟩

/-- C18, at the failing input: on the sequence 0,0,1 the only shift is `d = 1`
and `x(1) = 0`, so the largest `x(d)` is `0` and is attained at `d = 1`;
`TestAutocorrelation` reports `worst = 0` and never assigns `worstd`. -/
theorem autocorrelation_worstd_unassigned :
    [0, 0, 1].length / 2 = 1 ∧ shiftStatistic [0, 0, 1] 1 = 0 ∧
    ∃ r, TestAutocorrelation [0, 0, 1] = some r ∧ r.worst = 0 ∧ r.worstd = none := by
  refine ⟨rfl, shiftStatistic_001, ?_⟩
  obtain ⟨st, hst, _, _, hcase⟩ := autocorrScan_spec [0, 0, 1] (by norm_num)
  obtain ⟨r, hr, _, _, _, _, hw, hwd⟩ := TestAutocorrelation_of_scan _ st hst
  refine ⟨r, hr, ?_, ?_⟩
  · rcases hcase with ⟨_, h⟩ | ⟨w, _, h1, h2, h3, h4, _⟩
    · rw [hw]; exact h
    · have hw1 : w = 1 := by
        have : [0, 0, 1].length / 2 = 1 := rfl
        omega
      rw [hw1, shiftStatistic_001] at h3
      rw [← h3] at h4
      exact absurd h4 (lt_irrefl _)
  · rcases hcase with ⟨h, _⟩ | ⟨w, _, h1, h2, h3, h4, _⟩
    · rw [hwd]; exact h
    · have hw1 : w = 1 := by
        have : [0, 0, 1].length / 2 = 1 := rfl
        omega
      rw [hw1, shiftStatistic_001] at h3
      rw [← h3] at h4
      exact absurd h4 (lt_irrefl _)


/-! ## The verdicts of the three-way analyzers -/

theorem runsTables_ordered (k : Nat) (hk : k ≤ 19) :
    ∃ hi lo, runsCorrhi[k]? = some hi ∧ runsCorrlo[k]? = some lo ∧ hi ≤ lo := by
  interval_cases k <;>
    exact ⟨_, _, rfl, rfl, by simp only [runsCorrhi, runsCorrlo, List.getElem_cons_succ,
      List.getElem_cons_zero]; norm_num⟩

theorem TestFrequency_threeWay (s : List Nat) :
    IsThreeWay (TestFrequency s).result (TestFrequency s).corrhi (TestFrequency s).corrlo
      (TestFrequency s).pass := by
  unfold TestFrequency
  exact threeWay_isThreeWay _ _ _ (by norm_num)

theorem threeWayFloat_num (q hi lo : ℚ) :
    threeWayFloat (FloatValue.num q) hi lo = threeWay q hi lo := by
  simp only [threeWayFloat, threeWay, FloatValue.le, decide_eq_true_eq]

theorem threeWayFloat_nan (hi lo : ℚ) :
    threeWayFloat FloatValue.nan hi lo = Verdict.FAILED := rfl

theorem not_isThreeWayFloat_nan (hi lo : ℚ) :
    ¬ IsThreeWayFloat FloatValue.nan hi lo (some Verdict.FAILED) := by
  intro h
  have h2 := h.2.2.1.mp rfl
  simp [FloatValue.gt] at h2

theorem TestSerial_threeWay (s : List Nat) (r : FloatResult) (h : TestSerial s = some r)
    (hn : 2 ≤ s.length) :
    ∃ q, r.result = FloatValue.num q ∧ IsThreeWay q r.corrhi r.corrlo r.pass := by
  unfold TestSerial at h
  simp only [Option.bind_eq_bind, Option.bind_eq_some] at h
  obtain ⟨c, _, hr⟩ := h
  have hr2 := Option.some.inj hr
  rw [← hr2]
  refine ⟨_, serialStatistic_num c s.length hn, ?_⟩
  show IsThreeWay _ _ _ (some (threeWayFloat (serialStatistic c s.length) _ _))
  rw [serialStatistic_num c s.length hn, threeWayFloat_num]
  exact threeWay_isThreeWay _ _ _ (by norm_num)

theorem poker8Result_threeWay (k : Nat) (table : List Nat) (r : FloatResult) (hk : 1 ≤ k)
    (h : poker8Result (Outcome.done (k, table)) = Outcome.done r) :
    ∃ q, r.result = FloatValue.num q ∧ IsThreeWay q r.corrhi r.corrlo r.pass := by
  have hr2 : _ = r := Outcome.done.inj h
  rw [← hr2]
  refine ⟨_, poker8Statistic_num k table hk, ?_⟩
  show IsThreeWay _ _ _ (some (threeWayFloat (poker8Statistic k table) _ _))
  rw [poker8Statistic_num k table hk, threeWayFloat_num]
  exact threeWay_isThreeWay _ _ _ (by norm_num)

theorem poker16Result_threeWay (k : Nat) (table : List Nat) (r : FloatResult) (hk : 1 ≤ k)
    (h : poker16Result (Outcome.done (k, table)) = Outcome.done r) :
    ∃ q, r.result = FloatValue.num q ∧ IsThreeWay q r.corrhi r.corrlo r.pass := by
  have hr2 : _ = r := Outcome.done.inj h
  rw [← hr2]
  refine ⟨_, poker16Statistic_num k table hk, ?_⟩
  show IsThreeWay _ _ _ (some (threeWayFloat (poker16Statistic k table) _ _))
  rw [poker16Statistic_num k table hk, threeWayFloat_num]
  exact threeWay_isThreeWay _ _ _ (by norm_num)

theorem TestPoker8_threeWay (s : List Nat) (r : FloatResult) (h : TestPoker8 s = Outcome.done r)
    (hn : 8 ≤ s.length) (hN : s.length < ULONG_SIZE) :
    ∃ q, r.result = FloatValue.num q ∧ IsThreeWay q r.corrhi r.corrlo r.pass := by
  obtain ⟨table, ht⟩ := poker8Tally_blocks s (by omega) hN
  have h2 : poker8Result (poker8Tally s) = Outcome.done r := h
  rw [ht] at h2
  exact poker8Result_threeWay _ table r (by omega) h2

theorem TestPoker16_threeWay (s : List Nat) (r : FloatResult)
    (h : TestPoker16 s = Outcome.done r) (hbytes : ∀ x ∈ s, x < 256) (hn : 16 ≤ s.length)
    (hN : s.length < ULONG_SIZE) :
    ∃ q, r.result = FloatValue.num q ∧ IsThreeWay q r.corrhi r.corrlo r.pass := by
  obtain ⟨table, ht, _⟩ := poker16Tally_table s hbytes (by omega) hN
  have h2 : poker16Result (poker16Tally s) = Outcome.done r := h
  rw [ht] at h2
  exact poker16Result_threeWay _ table r (by omega) h2

theorem TestAutocorrelation_threeWay (s : List Nat) (r : AutocorrResult)
    (h : TestAutocorrelation s = some r) : IsThreeWay r.result r.corrhi r.corrlo r.pass := by
  unfold TestAutocorrelation at h
  simp only [Option.bind_eq_bind, Option.bind_eq_some] at h
  obtain ⟨st, _, hr⟩ := h
  have hr2 := Option.some.inj hr
  rw [← hr2]
  exact threeWayReal_isThreeWay _ _ _ (by norm_num)

theorem TestRuns_threeWay (s : List Nat) (r : TestResult) (h : TestRuns s = some r)
    (hk : runsK s.length ≤ 19) :
    IsThreeWay r.result r.corrhi r.corrlo r.pass ∧
      runsCorrhi[runsK s.length]? = some r.corrhi ∧
      runsCorrlo[runsK s.length]? = some r.corrlo := by
  obtain ⟨hi, lo, hhi, hlo, hle⟩ := runsTables_ordered _ hk
  unfold TestRuns at h
  simp only [Option.bind_eq_bind, Option.bind_eq_some] at h
  obtain ⟨st, _, x, _, hx⟩ := h
  rw [if_neg (by omega), hhi, hlo] at hx
  simp only [Option.some_bind] at hx
  have hr2 := Option.some.inj hx
  rw [← hr2]
  exact ⟨threeWay_isThreeWay _ _ _ hle, hhi, hlo⟩

/-- The part of C11 that the code satisfies. On a sequence of bytes of at
least one element (and of a length that an `unsigned long` holds), whenever a
three-way analyzer returns a result and the divisors of its statistic are not
zero (`TestSerial` from 2 elements on, `TestPoker8` from 8, `TestPoker16` from
16; `TestRuns` with a parameter `k ≤ 19`), the statistic is a number, the
first threshold is at most the second, and the verdict is OK iff the
statistic is at most the first threshold, FAILED iff it is above the second,
and MARGINAL otherwise; the two tables of `TestRuns` are in this order at
every index `k` in `0..19`. -/
theorem threeWay_verdicts (s : List Nat) (hbytes : ∀ x ∈ s, x < 256) (_hn : 1 ≤ s.length)
    (hN : s.length < ULONG_SIZE) :
    IsThreeWay (TestFrequency s).result (TestFrequency s).corrhi (TestFrequency s).corrlo
      (TestFrequency s).pass ∧
    (∀ r, TestSerial s = some r → 2 ≤ s.length →
      ∃ q, r.result = FloatValue.num q ∧ IsThreeWay q r.corrhi r.corrlo r.pass) ∧
    (∀ r, TestPoker8 s = Outcome.done r → 8 ≤ s.length →
      ∃ q, r.result = FloatValue.num q ∧ IsThreeWay q r.corrhi r.corrlo r.pass) ∧
    (∀ r, TestPoker16 s = Outcome.done r → 16 ≤ s.length →
      ∃ q, r.result = FloatValue.num q ∧ IsThreeWay q r.corrhi r.corrlo r.pass) ∧
    (∀ r, TestAutocorrelation s = some r → IsThreeWay r.result r.corrhi r.corrlo r.pass) ∧
    (∀ r, TestRuns s = some r → runsK s.length ≤ 19 →
      IsThreeWay r.result r.corrhi r.corrlo r.pass ∧
        runsCorrhi[runsK s.length]? = some r.corrhi ∧
        runsCorrlo[runsK s.length]? = some r.corrlo) ∧
    (∀ k, k ≤ 19 → ∃ hi lo, runsCorrhi[k]? = some hi ∧ runsCorrlo[k]? = some lo ∧ hi ≤ lo) :=
  ⟨TestFrequency_threeWay s, TestSerial_threeWay s,
    fun r h h8 => TestPoker8_threeWay s r h h8 hN,
    fun r h h16 => TestPoker16_threeWay s r h hbytes h16 hN,
    TestAutocorrelation_threeWay s, TestRuns_threeWay s, runsTables_ordered⟩

theorem TestSerial_of_counts (s : List Nat) (c : SerialCounts) (h : serialCounts s = some c) :
    ∃ r, TestSerial s = some r ∧ r.result = serialStatistic c s.length := by
  unfold TestSerial
  rw [h]
  exact ⟨_, rfl, rfl⟩

theorem TestRuns_zeros20 : ∃ r, TestRuns (List.replicate 20 0) = some r := by
  have hk : runsK (List.replicate 20 0).length = 0 := by simpa using runsK_20
  have hscan : runsScan (List.replicate 20 0) 0
      = some { bl := 0, gl := 20, rt := 0, b := [0], g := [0] } := by decide
  simp only [TestRuns, hk, hscan]
  exact ⟨_, rfl⟩

/-- On the sequence of 20 zero bits every three-way analyzer returns a result
(`TestRuns` with `k = 0`) whose statistic is a number, and the result has the
verdict that its statistic and its two thresholds determine. -/
theorem threeWay_verdicts_witness :
    (∃ r q, TestSerial (List.replicate 20 0) = some r ∧ r.result = FloatValue.num q ∧
      IsThreeWay q r.corrhi r.corrlo r.pass) ∧
    (∃ r q, TestPoker8 (List.replicate 20 0) = Outcome.done r ∧ r.result = FloatValue.num q ∧
      IsThreeWay q r.corrhi r.corrlo r.pass) ∧
    (∃ r q, TestPoker16 (List.replicate 20 0) = Outcome.done r ∧ r.result = FloatValue.num q ∧
      IsThreeWay q r.corrhi r.corrlo r.pass) ∧
    (∃ r, TestAutocorrelation (List.replicate 20 0) = some r ∧
      IsThreeWay r.result r.corrhi r.corrlo r.pass) ∧
    (∃ r, TestRuns (List.replicate 20 0) = some r ∧
      runsK (List.replicate 20 0).length ≤ 19 ∧
      IsThreeWay r.result r.corrhi r.corrlo r.pass) := by
  have hbits : ∀ x ∈ List.replicate 20 0, x ≤ 1 := by decide
  have hbytes : ∀ x ∈ List.replicate 20 0, x < 256 := by decide
  have hlen : (List.replicate 20 0).length = 20 := rfl
  have hN : (List.replicate 20 0).length < ULONG_SIZE := by
    rw [hlen]; unfold ULONG_SIZE; norm_num
  have hall := threeWay_verdicts (List.replicate 20 0) hbytes (by decide) hN
  obtain ⟨r1, h1, _⟩ := TestSerial_of_counts _ _
    (serialCounts_spec (List.replicate 20 0) (getD_le_one_of_bits _ hbits) (by decide) hN)
  obtain ⟨t8, ht8, _⟩ := poker8Tally_table (List.replicate 20 0) hbytes (by decide) hN
  obtain ⟨r2, h2, _⟩ := TestPoker8_of_tally _ _ _ ht8
  obtain ⟨t16, ht16, _⟩ := poker16Tally_table (List.replicate 20 0) hbytes (by decide) hN
  obtain ⟨r3, h3, _⟩ := TestPoker16_of_tally _ _ _ ht16
  obtain ⟨st, hst, _⟩ := autocorrScan_spec (List.replicate 20 0) (by rw [hlen]; norm_num)
  obtain ⟨r4, h4, _⟩ := TestAutocorrelation_of_scan _ st hst
  obtain ⟨r5, h5⟩ := TestRuns_zeros20
  have hk : runsK (List.replicate 20 0).length ≤ 19 := by
    rw [hlen, runsK_20]; norm_num
  obtain ⟨q1, hq1, hw1⟩ := hall.2.1 r1 h1 (by decide)
  obtain ⟨q2, hq2, hw2⟩ := hall.2.2.1 r2 h2 (by decide)
  obtain ⟨q3, hq3, hw3⟩ := hall.2.2.2.1 r3 h3 (by decide)
  exact ⟨⟨r1, q1, h1, hq1, hw1⟩, ⟨r2, q2, h2, hq2, hw2⟩, ⟨r3, q3, h3, hq3, hw3⟩,
    ⟨r4, h4, hall.2.2.2.2.1 r4 h4⟩, ⟨r5, h5, hk, (hall.2.2.2.2.2.1 r5 h5 hk).1⟩⟩

/-! ## Statistics that are not numbers -/

theorem sq_sum_replicate_zero (n : Nat) :
    ((List.replicate n 0).map (fun (t : Nat) => (t : ℚ) * (t : ℚ))).sum = 0 := by
  simp [List.map_replicate, List.sum_replicate]

theorem sq_mod_sum_replicate_zero (n : Nat) :
    ((List.replicate n 0).map (fun t => (((t * t) % ULONG_SIZE : Nat) : ℚ))).sum = 0 := by
  simp [List.map_replicate, List.sum_replicate]

theorem poker8Statistic_zero_zeros (n : Nat) :
    poker8Statistic 0 (List.replicate n 0) = FloatValue.nan := by
  unfold poker8Statistic
  rw [sq_sum_replicate_zero]
  simp [FloatValue.div, FloatValue.signedInf, FloatValue.mul, FloatValue.sub, FloatValue.add,
    FloatValue.neg]

theorem poker16Statistic_zero_zeros (n : Nat) :
    poker16Statistic 0 (List.replicate n 0) = FloatValue.nan := by
  unfold poker16Statistic
  rw [sq_mod_sum_replicate_zero]
  simp [FloatValue.div, FloatValue.signedInf, FloatValue.mul, FloatValue.sub, FloatValue.add,
    FloatValue.neg]

theorem serialStatistic_one :
    serialStatistic { n0 := 1, n1 := 0, n00 := 0, n01 := 0, n10 := 0, n11 := 0 } 1
      = FloatValue.nan := by
  simp [serialStatistic, FloatValue.div, FloatValue.signedInf, FloatValue.sub, FloatValue.add,
    FloatValue.neg]

theorem poker8Tally_zeros7 :
    poker8Tally (List.replicate 7 0) = Outcome.done (0, List.replicate 256 0) := by
  rfl

theorem poker16Tally_zeros15 :
    poker16Tally (List.replicate 15 0) = Outcome.done (0, List.replicate 65536 0) := by
  rfl

/-- C11, at the failing inputs. On the sequence of one element 0 the counters
of `TestSerial` are `n0 = 1` and zero pairs, `y = y/(length-1.0)` is `0/0`, and
`TestSerial` returns the statistic NaN with the thresholds 4.605 and 13.820
and the verdict FAILED, although the statistic is neither at most the first
threshold nor above the second. `TestPoker8` on 7 zeros and `TestPoker16` on
15 zeros tally `k = 0` blocks, `(256.0/k)*x` is `inf*0`, and they return the
statistic NaN with the verdict FAILED in the same way. -/
theorem threeWay_not_a_number :
    (serialCounts [0] = some { n0 := 1, n1 := 0, n00 := 0, n01 := 0, n10 := 0, n11 := 0 } ∧
      ∃ r, TestSerial [0] = some r ∧ r.result = FloatValue.nan ∧
        r.corrhi = 4.605 ∧ r.corrlo = 13.820 ∧ r.pass = some Verdict.FAILED ∧
        r.result.le r.corrhi = false ∧ r.result.gt r.corrlo = false ∧
        ¬ IsThreeWayFloat r.result r.corrhi r.corrlo r.pass) ∧
    (poker8Tally (List.replicate 7 0) = Outcome.done (0, List.replicate 256 0) ∧
      ∃ r, TestPoker8 (List.replicate 7 0) = Outcome.done r ∧ r.result = FloatValue.nan ∧
        r.corrhi = 284.3 ∧ r.corrlo = 330.5 ∧ r.pass = some Verdict.FAILED ∧
        r.result.le r.corrhi = false ∧ r.result.gt r.corrlo = false ∧
        ¬ IsThreeWayFloat r.result r.corrhi r.corrlo r.pass) ∧
    (poker16Tally (List.replicate 15 0) = Outcome.done (0, List.replicate 65536 0) ∧
      ∃ r, TestPoker16 (List.replicate 15 0) = Outcome.done r ∧ r.result = FloatValue.nan ∧
        r.corrhi = 65999.3936 ∧ r.corrlo = 66659.4697 ∧ r.pass = some Verdict.FAILED ∧
        r.result.le r.corrhi = false ∧ r.result.gt r.corrlo = false ∧
        ¬ IsThreeWayFloat r.result r.corrhi r.corrlo r.pass) := by
  have hc : serialCounts [0]
      = some { n0 := 1, n1 := 0, n00 := 0, n01 := 0, n10 := 0, n11 := 0 } := by decide
  refine ⟨⟨hc, ?_⟩, ⟨poker8Tally_zeros7, ?_⟩, ⟨poker16Tally_zeros15, ?_⟩⟩
  · have hr : TestSerial [0] = some
        { result := serialStatistic { n0 := 1, n1 := 0, n00 := 0, n01 := 0, n10 := 0, n11 := 0 }
            [0].length
          corrhi := 4.605
          corrlo := 13.820
          name := "SERIAL"
          pass := some (threeWayFloat (serialStatistic
            { n0 := 1, n1 := 0, n00 := 0, n01 := 0, n10 := 0, n11 := 0 } [0].length)
            4.605 13.820)
          extra := Extra.empty } := by
      simp only [TestSerial, hc]
      rfl
    have hlen : [0].length = 1 := rfl
    rw [hlen, serialStatistic_one] at hr
    exact ⟨_, hr, rfl, rfl, rfl, rfl, rfl, rfl, not_isThreeWayFloat_nan _ _⟩
  · obtain ⟨r, hr, hres, hhi, hlo, hpass⟩ := TestPoker8_of_tally _ _ _ poker8Tally_zeros7
    rw [poker8Statistic_zero_zeros] at hres hpass
    rw [threeWayFloat_nan] at hpass
    refine ⟨r, hr, hres, hhi, hlo, hpass, ?_, ?_, ?_⟩
    · rw [hres]; rfl
    · rw [hres]; rfl
    · rw [hres, hpass]; exact not_isThreeWayFloat_nan _ _
  · obtain ⟨r, hr, hres, hhi, hlo, hpass⟩ := TestPoker16_of_tally _ _ _ poker16Tally_zeros15
    rw [poker16Statistic_zero_zeros] at hres hpass
    rw [threeWayFloat_nan] at hpass
    refine ⟨r, hr, hres, hhi, hlo, hpass, ?_, ?_, ?_⟩
    · rw [hres]; rfl
    · rw [hres]; rfl
    · rw [hres, hpass]; exact not_isThreeWayFloat_nan _ _

end Randtest
